import Mathlib

/-!
libed2k: wire codec and file hashing

A shallow embedding of parts of `include/libed2k/packet_struct.hpp`,
`src/file.cpp`, `src/file_pool.cpp`, `src/kademlia/rpc_manager.cpp` and
`src/session_impl.cpp`, followed by theorems about them.

Conventions of the embedding:

* a C++ member function that mutates `*this` takes the object and returns the
  mutated object next to its result;
* an input archive is the list of bytes still unread; a load returns the error
  code, the object as the load left it, and the bytes still unread, so that the
  state at the moment an exception is thrown stays visible;
* an output archive is the list of bytes appended to the stream;
* unsigned machine integers are `UInt8`/`UInt32` fields, or naturals reduced
  modulo `2 ^ (8 * width)` at the point where the code narrows them.
-/

namespace libed2k

/-! ## Definitions -/

/-- Error codes of `libed2k::errors` that the embedded code uses. `system_error`
stands for any code of another category (an operating system error). -/
inductive errors where
  | no_error
  | unexpected_istream_error
  | decode_packet_error
  | invalid_protocol_type
  | unsupported_udp_res1_type
  | unsupported_udp_res2_type
  | unsupported_kad_packed_type
  | invalid_packet_size
  | filesize_is_zero
  | file_params_making_was_cancelled
  | session_closing
  | duplicate_transfer
  | file_collision
  | system_error
  deriving DecidableEq, Repr

/-- Length of an MD4 digest in bytes. -/
def MD4_DIGEST_LENGTH : Nat := 16

/-- Modelled from the spec: `md4_hash` (md4_hash.hpp is not among the sources),
a 128-bit content hash held as 16 raw bytes. -/
structure md4_hash where
  m_hash : List UInt8
  size_ok : m_hash.length = MD4_DIGEST_LENGTH
  deriving DecidableEq

/-- Modelled from the spec: the default constructed `md4_hash`, sixteen zero bytes. -/
def md4_hash.invalid : md4_hash := ⟨List.replicate 16 0, rfl⟩

instance : Inhabited md4_hash := ⟨md4_hash.invalid⟩

/-! ### Archives -/

/-- State left behind by a load from an input archive. -/
structure iresult (α : Type) where
  ec : errors
  value : α
  rest : List UInt8

/-- Value of a little-endian byte string. -/
def le_value : List UInt8 → Nat
  | [] => 0
  | b :: bs => b.toNat + 256 * le_value bs

/-- Modelled from the spec: `ed2k_oarchive` on an unsigned integer of `w` bytes
(archive.hpp is not among the sources): the `w` bytes of `v`, little-endian. -/
def save_uint : Nat → Nat → List UInt8
  | 0, _ => []
  | w + 1, v => UInt8.ofNat (v % 256) :: save_uint w (v / 256)

/-- Modelled from the spec: `ed2k_iarchive` on an unsigned integer of `w` bytes
(archive.hpp is not among the sources): `w` bytes read little-endian; a stream
that ends early fails with `unexpected_istream_error`, and the target `t` is
then left as it was. -/
def load_uint (w : Nat) (t : Nat) (input : List UInt8) : iresult Nat :=
  if w ≤ input.length then ⟨errors.no_error, le_value (input.take w), input.drop w⟩
  else ⟨errors.unexpected_istream_error, t, []⟩

/-- Modelled from the spec: `ed2k_oarchive` on a `char` (archive.hpp is not among
the sources): the byte itself; the element is left as it was. -/
def save_char (c : UInt8) : UInt8 × List UInt8 := (c, [c])

/-- Modelled from the spec: `ed2k_iarchive` on a `char` (archive.hpp is not among
the sources): one byte, or `unexpected_istream_error` at the end of the stream. -/
def load_char (t : UInt8) (input : List UInt8) : iresult UInt8 :=
  match input with
  | [] => ⟨errors.unexpected_istream_error, t, []⟩
  | b :: bs => ⟨errors.no_error, b, bs⟩

/-- Modelled from the spec: `md4_hash` written to an archive, its 16 raw bytes. -/
def md4_hash.save (h : md4_hash) : List UInt8 := h.m_hash

/-- Modelled from the spec: `md4_hash` read from an archive, 16 raw bytes. -/
def md4_hash.load (t : md4_hash) (input : List UInt8) : iresult md4_hash :=
  if hlen : MD4_DIGEST_LENGTH ≤ input.length then
    ⟨errors.no_error,
      ⟨input.take MD4_DIGEST_LENGTH, by rw [List.length_take]; exact Nat.min_eq_left hlen⟩,
      input.drop MD4_DIGEST_LENGTH⟩
  else ⟨errors.unexpected_istream_error, t, []⟩

/-! ### `libed2k_header` -/

/-- Plain ed2k protocol byte. -/
def OP_EDONKEYPROT : Nat := 0xE3
/-- Compressed body protocol byte. -/
def OP_PACKEDPROT : Nat := 0xD4
/-- The eMule extension protocol byte. -/
def OP_EMULEPROT : Nat := 0xC5
/-- Reserved UDP protocol byte 1. -/
def OP_UDPRESERVEDPROT1 : Nat := 0xA3
/-- Reserved UDP protocol byte 2. -/
def OP_UDPRESERVEDPROT2 : Nat := 0xB2
/-- Kademlia protocol byte. -/
def OP_KADEMLIAHEADER : Nat := 0xE4
/-- Packed Kademlia protocol byte. -/
def OP_KADEMLIAPACKEDPROT : Nat := 0xE5

/-- The packed frame header: protocol byte, 32-bit size, opcode. -/
structure libed2k_header where
  m_protocol : UInt8
  m_size : UInt32
  m_type : UInt8
  deriving DecidableEq

/-- The member `body_size`: `m_size - 1` computed in 32-bit unsigned arithmetic. -/
def libed2k_header.body_size (h : libed2k_header) : Nat :=
  (h.m_size.toNat + 2 ^ 32 - 1) % 2 ^ 32

/-- The member `check_packet`; `MAX_ED2K_PACKET_LEN` (constants.hpp is not among
the sources) is a parameter. -/
def libed2k_header.check_packet (MAX_ED2K_PACKET_LEN : Nat) (h : libed2k_header) : errors :=
  match h.m_protocol.toNat with
  | 0xE3 | 0xC5 | 0xE4 | 0xD4 =>
    if h.m_size.toNat < 1 ∨ h.m_size.toNat > MAX_ED2K_PACKET_LEN then
      errors.invalid_packet_size
    else errors.no_error
  | 0xA3 => errors.unsupported_udp_res1_type
  | 0xB2 => errors.unsupported_udp_res2_type
  | 0xE5 => errors.unsupported_kad_packed_type
  | _ => errors.invalid_protocol_type

/-! ### `container_holder` -/

/-- A collection with its length field; `sizeof(size_type)` is passed to `save`
and `load` as the width `w` in bytes. -/
structure container_holder (α : Type) where
  m_size : Nat
  m_collection : List α

/-- The loop of `container_holder::save`: every element is written in order. An
element save returns the element as the save left it and the bytes written. -/
def save_elems {α : Type} (save_elem : α → α × List UInt8) : List α → List α × List UInt8
  | [] => ([], [])
  | x :: xs =>
    ((save_elem x).1 :: (save_elems save_elem xs).1,
      (save_elem x).2 ++ (save_elems save_elem xs).2)

/-- The member `container_holder::save`: `m_size` is the collection size narrowed
to `size_type`, written first, then the elements. -/
def container_holder.save {α : Type} (w : Nat) (save_elem : α → α × List UInt8)
    (h : container_holder α) : container_holder α × List UInt8 :=
  let m_size := h.m_collection.length % 2 ^ (8 * w)
  let r := save_elems save_elem h.m_collection
  (⟨m_size, r.1⟩, save_uint w m_size ++ r.2)

/-- The loop of `container_holder::load`: every slot of the resized collection is
loaded in order; an element load that throws ends the loop. -/
def load_elems {α : Type} (load_elem : α → List UInt8 → iresult α) :
    List α → List UInt8 → iresult (List α)
  | [], input => ⟨errors.no_error, [], input⟩
  | x :: xs, input =>
    let r := load_elem x input
    if r.ec ≠ errors.no_error then ⟨r.ec, r.value :: xs, r.rest⟩
    else
      let t := load_elems load_elem xs r.rest
      ⟨t.ec, r.value :: t.value, t.rest⟩

/-- The call `m_collection.resize(n)`: keeps the first `n` elements and pads with
value-initialised ones. -/
def resize {α : Type} (dflt : α) (xs : List α) (n : Nat) : List α :=
  xs.take n ++ List.replicate (n - xs.length) dflt

/-- The member `container_holder::load`; `MAX_COLLECTION_SIZE` (constants.hpp is not
among the sources) is a parameter. -/
def container_holder.load {α : Type} (w MAX_COLLECTION_SIZE : Nat) (dflt : α)
    (load_elem : α → List UInt8 → iresult α)
    (h : container_holder α) (input : List UInt8) : iresult (container_holder α) :=
  let r := load_uint w h.m_size input
  if r.ec ≠ errors.no_error then ⟨r.ec, ⟨r.value, h.m_collection⟩, r.rest⟩
  else if r.value > MAX_COLLECTION_SIZE then
    ⟨errors.decode_packet_error, ⟨r.value, h.m_collection⟩, r.rest⟩
  else
    let e := load_elems load_elem (resize dflt h.m_collection r.value) r.rest
    ⟨e.ec, ⟨r.value, e.value⟩, e.rest⟩

/-! ### `net_identifier`, `__file_size`, `get_file_sources` -/

/-- The struct `net_identifier`: client id or ip, and port. -/
structure net_identifier where
  m_nIP : UInt32
  m_nPort : UInt16
  deriving DecidableEq

/-- The member `net_identifier::serialize` on an output archive. -/
def net_identifier.save (p : net_identifier) : net_identifier × List UInt8 :=
  (p, save_uint 4 p.m_nIP.toNat ++ save_uint 2 p.m_nPort.toNat)

/-- The union `__file_size`: the two 32-bit halves of a 64-bit size. -/
structure __file_size where
  nLowPart : UInt32
  nHighPart : UInt32
  deriving DecidableEq

/-- The union member `nQuadPart` read on a little-endian host. -/
def __file_size.nQuadPart (f : __file_size) : Nat :=
  f.nLowPart.toNat + 2 ^ 32 * f.nHighPart.toNat

/-- Assignment to the union member `nQuadPart` of a 64-bit value. -/
def __file_size.ofQuadPart (s : Nat) : __file_size :=
  ⟨UInt32.ofNat (s % 2 ^ 32), UInt32.ofNat (s / 2 ^ 32 % 2 ^ 32)⟩

/-- The member `__file_size::serialize` on an output archive. -/
def __file_size.save (f : __file_size) : List UInt8 :=
  save_uint 4 f.nLowPart.toNat ++
    (if f.nHighPart.toNat > 0 then save_uint 4 f.nHighPart.toNat else [])

/-- The member `__file_size::serialize` on an input archive; the high part is read
only when the object being loaded already has a non-zero high part. -/
def __file_size.load (f : __file_size) (input : List UInt8) : iresult __file_size :=
  let r := load_uint 4 f.nLowPart.toNat input
  if r.ec ≠ errors.no_error then ⟨r.ec, ⟨UInt32.ofNat r.value, f.nHighPart⟩, r.rest⟩
  else if f.nHighPart.toNat > 0 then
    let q := load_uint 4 f.nHighPart.toNat r.rest
    ⟨q.ec, ⟨UInt32.ofNat r.value, UInt32.ofNat q.value⟩, q.rest⟩
  else ⟨errors.no_error, ⟨UInt32.ofNat r.value, f.nHighPart⟩, r.rest⟩

/-- The struct `get_file_sources`: file hash and file size. -/
structure get_file_sources where
  m_hFile : md4_hash
  m_file_size : __file_size
  deriving DecidableEq

/-- The member `get_file_sources::serialize` on an output archive. -/
def get_file_sources.save (g : get_file_sources) : List UInt8 :=
  g.m_hFile.save ++
    (if g.m_file_size.nHighPart.toNat > 0 then save_uint 4 0 else []) ++
    g.m_file_size.save

/-- The member `get_file_sources::serialize` on an input archive. -/
def get_file_sources.load (g : get_file_sources) (input : List UInt8) :
    iresult get_file_sources :=
  let r := g.m_hFile.load input
  if r.ec ≠ errors.no_error then ⟨r.ec, ⟨r.value, g.m_file_size⟩, r.rest⟩
  else if g.m_file_size.nHighPart.toNat > 0 then
    let z := load_uint 4 0 r.rest
    if z.ec ≠ errors.no_error then ⟨z.ec, ⟨r.value, g.m_file_size⟩, z.rest⟩
    else
      let q := g.m_file_size.load z.rest
      ⟨q.ec, ⟨r.value, q.value⟩, q.rest⟩
  else
    let q := g.m_file_size.load r.rest
    ⟨q.ec, ⟨r.value, q.value⟩, q.rest⟩

/-! ### `file2atp` -/

/-- Modelled from the spec: the piece size `PIECE_SIZE` (constants.hpp is not among
the sources), 9,728,000 bytes, a 64-bit `size_type` constant. -/
def PIECE_SIZE : Nat := 9728000

/-- Modelled from the spec: the block size `BLOCK_SIZE` (constants.hpp is not among
the sources), 180,224 bytes, a 64-bit `size_type` constant. -/
def BLOCK_SIZE : Nat := 180224

/-- Modelled from the spec: `div_ceil` (util.hpp is not among the sources), the
quotient rounded up. -/
def div_ceil (x y : Nat) : Nat := (x + y - 1) / y

/-- Conversion of a non-negative 64-bit value to a 32-bit `int`, modulo `2 ^ 32`. -/
def to_int (x : Nat) : Int :=
  if x % 2 ^ 32 < 2 ^ 31 then ((x % 2 ^ 32 : Nat) : Int) else ((x % 2 ^ 32 : Nat) : Int) - 2 ^ 32

/-- Modelled from the spec: the class `hasher` (hasher.hpp is not among the
sources), a streaming MD4 digest with internal state `σ`: a fresh hasher,
`update` on a buffer, and `final`. -/
structure hasher (σ : Type) where
  init : σ
  update : σ → List UInt8 → σ
  final : σ → md4_hash

/-- The file as `file2atp` sees it: the error codes of opening it and of
`get_size`, the size `get_size` returns, the byte at every offset, and the error
code `readv` reports at every offset. -/
structure file where
  open_ec : errors
  size_ec : errors
  size : Nat
  data : Nat → UInt8
  readv_ec : Nat → errors

/-- The bytes `readv` stores in the buffer: `len` bytes from offset `off`. -/
def file.readv (f : file) (off len : Nat) : List UInt8 :=
  (List.range len).map (fun j => f.data (off + j))

/-- The fields of `add_transfer_params` that `file2atp` sets. -/
structure add_transfer_params where
  file_path : String
  file_size : Nat
  piece_hashses : List md4_hash
  file_hash : md4_hash
  seed_mode : Bool

/-- State of the hashing loops when the inner loop is left. -/
structure hash_state (σ : Type) where
  ec : errors
  piece_hash : σ
  capacity : Nat
  offset : Nat

/-- The inner `while (in_piece_capacity > 0)` loop of `file2atp`: one block is read
and fed to the piece hasher per round. `cancel off` is the value of the `cancel`
flag seen after the read at offset `off`. -/
def hash_blocks {σ : Type} (H : hasher σ) (f : file) (cancel : Nat → Bool)
    (in_piece_capacity : Nat) (piece_hash : σ) (capacity offset : Nat) : hash_state σ :=
  if _hpos : in_piece_capacity > 0 then
    let current_block_size := min BLOCK_SIZE in_piece_capacity
    let ec := f.readv_ec offset
    let ec := if ec = errors.no_error ∧ cancel offset = true then
      errors.file_params_making_was_cancelled else ec
    if ec ≠ errors.no_error then ⟨ec, piece_hash, capacity, offset⟩
    else
      hash_blocks H f cancel (in_piece_capacity - current_block_size)
        (H.update piece_hash (f.readv offset current_block_size))
        (capacity - current_block_size) (offset + current_block_size)
  else ⟨errors.no_error, piece_hash, capacity, offset⟩
termination_by in_piece_capacity
decreasing_by
  have hb : 0 < BLOCK_SIZE := by decide
  omega

/-- The outer `for (int i = 0; i < pieces_count; ++i)` loop of `file2atp`, with `n`
rounds left and `i` the current index. Returns the error code and the hash list. -/
def hash_pieces {σ : Type} (H : hasher σ) (f : file) (cancel : Nat → Bool) :
    Nat → Nat → List md4_hash → Nat → Nat → errors × List md4_hash
  | 0, _, hashes, _, _ => (errors.no_error, hashes)
  | n + 1, i, hashes, capacity, offset =>
    let r := hash_blocks H f cancel (min PIECE_SIZE capacity) H.init capacity offset
    if r.ec ≠ errors.no_error then (r.ec, hashes)
    else hash_pieces H f cancel n (i + 1) (hashes.set i (H.final r.piece_hash))
      r.capacity r.offset

/-- The bytes of a vector of hashes, as `reinterpret_cast<const char*>` sees them. -/
def hash_bytes (hashes : List md4_hash) : List UInt8 :=
  (hashes.map md4_hash.m_hash).flatten

/-- The call `file2atp::operator()`. `terminal` is `md4_hash::terminal()`. The
result is `none` when the call does not return: `LIBED2K_ASSERT(pieces_count != 0)`
fails, or `resize` is called with a negative count. -/
def file2atp {σ : Type} (H : hasher σ) (terminal : md4_hash) (filepath : String)
    (f : file) (cancel : Nat → Bool) : Option (add_transfer_params × errors) :=
  let ec := if f.open_ec = errors.no_error then f.size_ec else f.open_ec
  let file_size := if f.open_ec = errors.no_error then f.size else 0
  if ec = errors.no_error ∧ file_size ≠ 0 then
    let pieces_count : Int := to_int (div_ceil file_size PIECE_SIZE)
    if pieces_count ≤ 0 then none
    else
      let r := hash_pieces H f cancel pieces_count.toNat 0
        (resize md4_hash.invalid [] pieces_count.toNat) file_size 0
      if r.1 ≠ errors.no_error then
        some (⟨filepath, file_size, r.2, md4_hash.invalid, false⟩, r.1)
      else
        let piece_hashses :=
          if pieces_count * (PIECE_SIZE : Int) = (file_size : Int) then r.2 ++ [terminal]
          else r.2
        let file_hash :=
          if piece_hashses.length > 1 then
            H.final (H.update H.init
              ((hash_bytes piece_hashses).take (piece_hashses.length * MD4_DIGEST_LENGTH)))
          else piece_hashses.headD md4_hash.invalid
        some (⟨filepath, file_size, piece_hashses, file_hash, true⟩, errors.no_error)
  else
    some (⟨filepath, file_size, [], md4_hash.invalid, false⟩,
      if ec = errors.no_error then errors.filesize_is_zero else ec)

/-- The file can be opened, `get_size` succeeds, no `readv` reports an error and
the `cancel` flag is never seen set. -/
def readable (f : file) (cancel : Nat → Bool) : Prop :=
  f.open_ec = errors.no_error ∧ f.size_ec = errors.no_error ∧
    (∀ off, f.readv_ec off = errors.no_error) ∧ (∀ off, cancel off = false)

/-- The hash `d` is what the hasher yields when `content` is fed to a fresh hasher
in order, each byte once, in non-empty blocks of at most `BLOCK_SIZE` bytes. -/
def streamed_digest {σ : Type} (H : hasher σ) (content : List UInt8) (d : md4_hash) : Prop :=
  ∃ blocks : List (List UInt8), blocks.flatten = content ∧
    (∀ b ∈ blocks, 0 < b.length ∧ b.length ≤ BLOCK_SIZE) ∧
    d = H.final (blocks.foldl H.update H.init)

/-- A hasher that ignores its input, used to instantiate theorems. -/
def null_hasher : hasher Unit := ⟨(), fun _ _ => (), fun _ => md4_hash.invalid⟩

/-- A readable file of `n` zero bytes, used to instantiate theorems. -/
def zero_file (n : Nat) : file :=
  ⟨errors.no_error, errors.no_error, n, fun _ => 0, fun _ => errors.no_error⟩

/-- The hash that `file2atp` stores for piece `j` of a file of `L` bytes: the
result of the piece hasher once the inner loop has run over the piece. -/
def piece_hash_at {σ : Type} (H : hasher σ) (f : file) (cancel : Nat → Bool) (L j : Nat) :
    md4_hash :=
  H.final (hash_blocks H f cancel (min PIECE_SIZE (L - j * PIECE_SIZE)) H.init
    (L - j * PIECE_SIZE) (j * PIECE_SIZE)).piece_hash

/-! ### ed2k links (`emule_collection::toLink`, `emule_collection::fromLink`)

A `std::string` is a list of characters. -/

/-- Modelled from the spec: the uppercase hexadecimal digit of a value below 16, as
`md4_hash::toString` writes it (md4_hash.hpp is not among the sources). -/
def hex_digit (n : Nat) : Char :=
  if n < 10 then Char.ofNat (48 + n) else Char.ofNat (55 + n)

/-- Modelled from the spec: the value of a hexadecimal digit, of either case. -/
def hex_value (c : Char) : Option Nat :=
  if 48 ≤ c.toNat ∧ c.toNat ≤ 57 then some (c.toNat - 48)
  else if 65 ≤ c.toNat ∧ c.toNat ≤ 70 then some (c.toNat - 55)
  else if 97 ≤ c.toNat ∧ c.toNat ≤ 102 then some (c.toNat - 87)
  else none

/-- Modelled from the spec: `md4_hash::toString`, 32 uppercase hexadecimal digits. -/
def md4_hash.toString (h : md4_hash) : List Char :=
  (h.m_hash.map (fun b => [hex_digit (b.toNat / 16), hex_digit (b.toNat % 16)])).flatten

/-- The bytes written by a string of hexadecimal digit pairs, if it is one. -/
def from_hex : List Char → Option (List UInt8)
  | [] => some []
  | [_] => none
  | a :: b :: rest =>
    match hex_value a, hex_value b, from_hex rest with
    | some x, some y, some bs => some (UInt8.ofNat (16 * x + y) :: bs)
    | _, _, _ => none

/-- Modelled from the spec: `md4_hash::fromString`, the hash written as 32
hexadecimal digits; any other string gives the default constructed hash. -/
def md4_hash.fromString (s : List Char) : md4_hash :=
  match from_hex s with
  | some bs => if hlen : bs.length = MD4_DIGEST_LENGTH then ⟨bs, hlen⟩ else md4_hash.invalid
  | none => md4_hash.invalid

/-- Modelled from the spec: `md4_hash::defined`, some byte of the hash is not zero. -/
def md4_hash.defined (h : md4_hash) : Bool := decide (h ≠ md4_hash.invalid)

/-- Little-endian decimal digits of a natural number. -/
def dec_rev (n : Nat) : List Char :=
  if n < 10 then [Char.ofNat (48 + n)] else Char.ofNat (48 + n % 10) :: dec_rev (n / 10)
termination_by n
decreasing_by omega

/-- The text `operator<<` writes for a signed 64-bit integer. -/
def show_int (s : Int) : List Char :=
  if s < 0 then '-' :: (dec_rev s.natAbs).reverse else (dec_rev s.natAbs).reverse

/-- The C `isspace` test in the classic locale. -/
def isspace (c : Char) : Bool :=
  c = ' ' ∨ c = '\t' ∨ c = '\n' ∨ c = Char.ofNat 11 ∨ c = Char.ofNat 12 ∨ c = '\r'

/-- The C `isdigit` test. -/
def isdigit (c : Char) : Bool := decide (48 ≤ c.toNat ∧ c.toNat ≤ 57)

/-- Value of a string of decimal digits, most significant first. -/
def dec_value (ds : List Char) : Nat :=
  ds.foldl (fun acc c => 10 * acc + (c.toNat - 48)) 0

/-- The extraction `stream >> std::dec >> value` into a `boost::uint64_t` from a
stream holding `s`: leading whitespace is skipped, a sign is accepted, the digits
that follow are read; `none` when the stream fails (no digit, or a value that does
not fit 64 bits). A minus sign negates modulo `2 ^ 64`. -/
def read_uint64 (s : List Char) : Option Nat :=
  let s1 := s.dropWhile isspace
  let neg := s1.head? = some '-'
  let s2 := if s1.head? = some '-' ∨ s1.head? = some '+' then s1.tail else s1
  let ds := s2.takeWhile isdigit
  if ds = [] then none
  else if dec_value ds ≥ 2 ^ 64 then none
  else some (if neg then (2 ^ 64 - dec_value ds) % 2 ^ 64 else dec_value ds)

/-- Conversion of an unsigned 64-bit value to the signed `size_type`. -/
def to_size_type (n : Nat) : Int :=
  if n % 2 ^ 64 < 2 ^ 63 then ((n % 2 ^ 64 : Nat) : Int) else ((n % 2 ^ 64 : Nat) : Int) - 2 ^ 64

/-- Index of the first `c` in `s`. -/
def index_of (c : Char) : List Char → Option Nat
  | [] => none
  | x :: xs =>
    if x = c then some 0
    else
      match index_of c xs with
      | some i => some (i + 1)
      | none => none

/-- The call `s.find("|", pos)`: index of the first `c` at or after `pos`, `none`
for `npos`. -/
def find_from (c : Char) (s : List Char) (pos : Nat) : Option Nat :=
  match index_of c (s.drop pos) with
  | some i => some (pos + i)
  | none => none

/-- The call `s.substr(pos, n)`. -/
def substr (s : List Char) (pos n : Nat) : List Char := (s.drop pos).take n

/-- Modelled from the spec: `emule_collection_entry` (file.hpp is not among the
sources): file name, size and hash. -/
structure emule_collection_entry where
  m_filename : List Char
  m_filesize : Int
  m_filehash : md4_hash
  deriving DecidableEq

/-- Modelled from the spec: the default constructed entry. -/
def emule_collection_entry.empty : emule_collection_entry := ⟨[], 0, md4_hash.invalid⟩

/-- Modelled from the spec: `emule_collection_entry::defined`, the entry has a name,
a non-zero size and a defined hash. -/
def emule_collection_entry.defined (e : emule_collection_entry) : Bool :=
  decide (e.m_filename ≠ []) && decide (e.m_filesize ≠ 0) && e.m_filehash.defined

/-- The prefix of every ed2k file link. -/
def link_head : List Char := "ed2k://|file|".toList

/-- The static member `emule_collection::toLink`; `url_encode` (util.hpp is not
among the sources) is a parameter. -/
def toLink (url_encode : List Char → List Char) (strFilename : List Char) (nFilesize : Int)
    (hFile : md4_hash) (uencode : Bool) : List Char :=
  if uencode then
    link_head ++ url_encode strFilename ++ ['|'] ++ show_int nFilesize ++ ['|'] ++
      hFile.toString ++ ['|', '/']
  else
    link_head ++ strFilename ++ ['|'] ++ show_int nFilesize ++ ['|'] ++
      hFile.toString ++ ['|', '/']

/-- The checks of `emule_collection::fromLink`: the raw name, the size and the raw
hash text of a link that passes them all, `none` where `fromLink` returns the empty
entry early. -/
def link_fields (strLink : List Char) : Option (List Char × Nat × List Char) :=
  if strLink.length < 51 ∨ substr strLink 0 13 ≠ link_head ∨
      strLink.drop (strLink.length - 2) ≠ ['|', '/'] then none
  else
    match find_from '|' strLink 13 with
    | none => none
    | some iName =>
      match find_from '|' strLink (iName + 1) with
      | none => none
      | some iSize =>
        match read_uint64 (substr strLink (iName + 1) (iSize - iName - 1)) with
        | none => none
        | some fileSize =>
          match find_from '|' strLink (iSize + 1) with
          | none => none
          | some _ =>
            some (substr strLink 13 (iName - 13), fileSize, substr strLink (iSize + 1) 32)

/-- The static member `emule_collection::fromLink`; `url_decode` (util.hpp is not
among the sources) is a parameter. -/
def fromLink (url_decode : List Char → List Char) (strLink : List Char) :
    emule_collection_entry :=
  match link_fields strLink with
  | none => emule_collection_entry.empty
  | some (name, fileSize, fileHash) =>
    ⟨url_decode name, to_size_type fileSize, md4_hash.fromString fileHash⟩

/-- The link passes every check of `fromLink`: the entry returned is built from the
fields of the link. A link whose entry is `defined` passes them. -/
def link_accepted (strLink : List Char) : Bool := (link_fields strLink).isSome

/-! ### `emule_collection::fromFile` and `emule_collection::save` -/

/-- Modelled from the spec: the tag names `fromFile` looks at (ctag.hpp is not among
the sources); `other` is any other name id. -/
inductive tag_name where
  | FT_FILENAME
  | FT_FILESIZE
  | FT_FILEHASH
  | other (id : Nat)
  deriving DecidableEq

/-- Modelled from the spec: the value of a tag: a string, an integer, a hash, or a
value of another type. -/
inductive tag_value where
  | str (s : List Char)
  | int (n : Nat)
  | hash (h : md4_hash)
  | other
  deriving DecidableEq

/-- Modelled from the spec: a tag, a named typed value (`base_tag`). -/
structure base_tag where
  name_id : tag_name
  value : tag_value
  deriving DecidableEq

/-- Modelled from the spec: `base_tag::asString`, which throws on a tag of another
type (`none`). -/
def base_tag.asString (p : base_tag) : Option (List Char) :=
  match p.value with
  | tag_value.str s => some s
  | _ => none

/-- Modelled from the spec: `base_tag::asInt`, which throws on a tag of another
type (`none`). -/
def base_tag.asInt (p : base_tag) : Option Nat :=
  match p.value with
  | tag_value.int n => some n
  | _ => none

/-- Modelled from the spec: `base_tag::asHash`, which throws on a tag of another
type (`none`). -/
def base_tag.asHash (p : base_tag) : Option md4_hash :=
  match p.value with
  | tag_value.hash h => some h
  | _ => none

/-- The inner loop of `fromFile` over the tags of one file: the name, size and hash
found; `none` when a getter throws. -/
def read_file_tags : List base_tag → List Char × Nat × md4_hash →
    Option (List Char × Nat × md4_hash)
  | [], acc => some acc
  | p :: ps, (strFName, nFilesize, hFile) =>
    match p.name_id with
    | tag_name.FT_FILENAME =>
      match p.asString with
      | some s => read_file_tags ps (s, nFilesize, hFile)
      | none => none
    | tag_name.FT_FILESIZE =>
      match p.asInt with
      | some n => read_file_tags ps (strFName, n, hFile)
      | none => none
    | tag_name.FT_FILEHASH =>
      match p.asHash with
      | some h => read_file_tags ps (strFName, nFilesize, h)
      | none => none
    | tag_name.other _ => read_file_tags ps (strFName, nFilesize, hFile)

/-- The outer loop of `fromFile` over the tag lists of a binary collection: the
entries pushed to `m_files`; a getter that throws ends the loop and keeps the
entries pushed so far. -/
def binary_entries : List (List base_tag) → List emule_collection_entry
  | [] => []
  | tags :: rest =>
    match read_file_tags tags ([], 0, md4_hash.invalid) with
    | none => []
    | some (strFName, nFilesize, hFile) =>
      if strFName ≠ [] ∧ hFile.defined = true then
        ⟨strFName, to_size_type nFilesize, hFile⟩ :: binary_entries rest
      else binary_entries rest

/-- The lines `std::getline` yields with the delimiter LF: a last line without LF is
a line when it is not empty. -/
def split_lines : List Char → List (List Char)
  | [] => []
  | c :: cs =>
    if c = '\n' then [] :: split_lines cs
    else
      match split_lines cs with
      | [] => [[c]]
      | l :: ls => (c :: l) :: ls

/-- The line as `fromFile` hands it to `add_link`: a final CR is erased from a line
of at least three characters. -/
def strip_cr (line : List Char) : List Char :=
  if 1 < (line.length : Int) - 1 ∧ line.getLast? = some '\r' then line.dropLast else line

/-- The text loop of `fromFile`: `add_link` on every line pushes the entry of the
link when it is `defined`. -/
def text_entries (url_decode : List Char → List Char) :
    List (List Char) → List emule_collection_entry
  | [] => []
  | line :: rest =>
    if (fromLink url_decode (strip_cr line)).defined = true then
      fromLink url_decode (strip_cr line) :: text_entries url_decode rest
    else text_entries url_decode rest

/-- The static member `emule_collection::fromFile`. `content` is what the file
holds, `none` when it cannot be opened. `load_ebc` is the archive load of an
`emule_binary_collection` (ctag.hpp and file.hpp are not among the sources): the tag
lists of `m_files`, `none` when it throws a `libed2k_exception`. The text loading
runs after the binary loading, whether that one threw or not. -/
def fromFile (url_decode : List Char → List Char)
    (load_ebc : List Char → Option (List (List base_tag)))
    (content : Option (List Char)) : List emule_collection_entry :=
  match content with
  | none => []
  | some bytes =>
    (match load_ebc bytes with
      | some files => binary_entries files
      | none => []) ++ text_entries url_decode (split_lines bytes)

/-- The three tags `save` writes for an entry of the collection. -/
def entry_tags (e : emule_collection_entry) : List base_tag :=
  [⟨tag_name.FT_FILENAME, tag_value.str e.m_filename⟩,
    ⟨tag_name.FT_FILESIZE, tag_value.int (e.m_filesize % 2 ^ 64).toNat⟩,
    ⟨tag_name.FT_FILEHASH, tag_value.hash e.m_filehash⟩]

/-- The member `emule_collection::save` with `binary = true` on a file that can be
opened: the content written, `none` for an empty collection, which is not saved.
`save_ebc` is the archive save of an `emule_binary_collection`. -/
def save_binary (save_ebc : List (List base_tag) → List Char)
    (m_files : List emule_collection_entry) : Option (List Char) :=
  if m_files = [] then none else some (save_ebc (m_files.map entry_tags))

/-- The hash `DB48A1C00CC972488C29D3FEC9F16A79` of the link in the spec. -/
def spec_hash : md4_hash :=
  ⟨[0xDB, 0x48, 0xA1, 0xC0, 0x0C, 0xC9, 0x72, 0x48, 0x8C, 0x29, 0xD3, 0xFE, 0xC9, 0xF1, 0x6A, 0x79],
    rfl⟩

/-- The link of the spec. -/
def spec_link : List Char :=
  "ed2k://|file|xxx.avi|100|DB48A1C00CC972488C29D3FEC9F16A79|/".toList

/-- An entry whose file name holds the link of the spec on a line of its own. -/
def nested_entry : emule_collection_entry :=
  ⟨'a' :: '\n' :: (spec_link ++ ['\n', 'b']), 1, spec_hash⟩

/-! ### `dht::rpc_manager`

The observers are objects shared through `observer_ptr`; the transaction table is
a list of pointers and the objects live in a store indexed by pointer. The
callbacks `reply`, `timeout` and `short_timeout` belong to the traversal
algorithms, which are not among the sources: a call of one is recorded, and what
it does to the table (it may invoke new requests) is a later `invoke`. -/

/-- A pointer to an observer. -/
abbrev observer_ptr := Nat

/-- A UDP endpoint: address and port. -/
structure udp_endpoint where
  address : Nat
  port : Nat
  deriving DecidableEq

/-- The members of `observer` that `rpc_manager` reads (observer.hpp is not among
the sources). -/
structure observer where
  m_transaction_id : Nat
  m_addr : Nat
  m_port : Nat
  m_packet_id : md4_hash
  m_id : md4_hash
  m_sent : Int
  has_short_timeout : Bool

/-- The member `observer::target_ep`. -/
def observer.target_ep (o : observer) : udp_endpoint := ⟨o.m_addr, o.m_port⟩

/-- The members of `rpc_manager` that the embedded functions use, and the observer
objects. -/
structure rpc_manager where
  m_transactions : List observer_ptr
  m_destructing : Bool
  observers : observer_ptr → observer

/-- What `incoming<T>` reads of a reply `t`: `transaction_identifier<T>::id`,
`packet_kad_identifier(t)` and `extract_packet_node_id(t)`. -/
structure reply_packet where
  transaction_id : Nat
  packet_id : md4_hash
  node_id : md4_hash

/-- The test of the loop of `incoming`: the observer is not skipped. -/
def rpc_manager.is_match (r : rpc_manager) (t : reply_packet) (target : udp_endpoint)
    (p : observer_ptr) : Bool :=
  decide ((r.observers p).m_transaction_id = t.transaction_id ∧
    (r.observers p).m_addr = target.address ∧ t.packet_id = (r.observers p).m_packet_id)

/-- Outcome of `incoming`: the value returned, the table, the observer whose
`reply` was called, the value stored through `id`, and the arguments of the call of
`routing_table::node_seen`. -/
structure incoming_result where
  ret : Bool
  m_transactions : List observer_ptr
  replied : Option observer_ptr
  id : Option md4_hash
  node_seen : Option (md4_hash × udp_endpoint)
  deriving DecidableEq

/-- The member `rpc_manager::incoming`; `node_seen` is what the routing table
(not among the sources) answers. -/
def rpc_manager.incoming (node_seen : md4_hash → udp_endpoint → Bool) (r : rpc_manager)
    (t : reply_packet) (target : udp_endpoint) : incoming_result :=
  if r.m_destructing then ⟨false, r.m_transactions, none, none, none⟩
  else
    match r.m_transactions.find? (r.is_match t target) with
    | none => ⟨false, r.m_transactions, none, none, none⟩
    | some o =>
      let id := if t.node_id = md4_hash.invalid then (r.observers o).m_id else t.node_id
      ⟨node_seen id target, r.m_transactions.eraseP (r.is_match t target), some o, some id,
        some (id, target)⟩

/-- The constant `short_timeout` of `tick`, in seconds. -/
def tick_short_timeout : Int := 2

/-- The constant `timeout` of `tick`, in seconds. -/
def tick_timeout : Int := 12

/-- The first loop of `tick`: the observers erased and moved to `timeouts`, the
table that is left, and `ret`. -/
def rpc_manager.expire (r : rpc_manager) (now : Int) :
    List observer_ptr → Int → List observer_ptr × List observer_ptr × Int
  | [], ret => ([], [], ret)
  | o :: rest, ret =>
    if now - (r.observers o).m_sent < tick_timeout then
      ([], o :: rest, tick_timeout - (now - (r.observers o).m_sent))
    else
      ((o :: (r.expire now rest ret).1), (r.expire now rest ret).2.1, (r.expire now rest ret).2.2)

/-- The second loop of `tick`: the observers pushed to `timeouts` for a short
timeout, and `ret`. -/
def rpc_manager.short_expire (r : rpc_manager) (now : Int) :
    List observer_ptr → Int → List observer_ptr × Int
  | [], ret => ([], ret)
  | o :: rest, ret =>
    if now - (r.observers o).m_sent < tick_short_timeout then
      ([], tick_short_timeout - (now - (r.observers o).m_sent))
    else if (r.observers o).has_short_timeout then r.short_expire now rest ret
    else (o :: (r.short_expire now rest ret).1, (r.short_expire now rest ret).2)

/-- Outcome of `tick`: the duration returned in seconds, the table, the observers
whose `timeout` was called and those whose `short_timeout` was called, in order. -/
structure tick_result where
  ret : Int
  m_transactions : List observer_ptr
  timeouts : List observer_ptr
  short_timeouts : List observer_ptr
  deriving DecidableEq

/-- The member `rpc_manager::tick` at the time `now`. -/
def rpc_manager.tick (r : rpc_manager) (now : Int) : tick_result :=
  if r.m_transactions = [] then ⟨tick_short_timeout, [], [], []⟩
  else
    let x := r.expire now r.m_transactions tick_short_timeout
    let y := r.short_expire now x.2.1 x.2.2
    ⟨y.2, x.2.1, x.1, y.1⟩

/-- Outcome of `unreachable`: the table and the observer whose `timeout` was
called. -/
structure unreachable_result where
  m_transactions : List observer_ptr
  timed_out : Option observer_ptr
  deriving DecidableEq

/-- The member `rpc_manager::unreachable`. -/
def rpc_manager.unreachable (r : rpc_manager) (ep : udp_endpoint) : unreachable_result :=
  match r.m_transactions.find? (fun p => decide ((r.observers p).target_ep = ep)) with
  | none => ⟨r.m_transactions, none⟩
  | some p =>
    ⟨r.m_transactions.eraseP (fun p => decide ((r.observers p).target_ep = ep)), some p⟩

/-- The member `rpc_manager::invoke<T>` with `tid` for `transaction_identifier<T>::id`,
at the time `now`; `send_ok` is what `m_send` returns. -/
def rpc_manager.invoke (r : rpc_manager) (tid : Nat) (target : udp_endpoint)
    (o : Option observer_ptr) (now : Int) (send_ok : Bool) : Bool × rpc_manager :=
  if r.m_destructing then (false, r)
  else
    let observers : observer_ptr → observer :=
      match o with
      | some p => fun q =>
        if q = p then
          { r.observers p with
            m_sent := now, m_port := target.port, m_addr := target.address,
            m_transaction_id := tid }
        else r.observers q
      | none => r.observers
    if send_ok then
      (true, ⟨match o with
        | some p => r.m_transactions ++ [p]
        | none => r.m_transactions, r.m_destructing, observers⟩)
    else (false, ⟨r.m_transactions, r.m_destructing, observers⟩)

/-- A call of a member of `rpc_manager`. -/
inductive rpc_call where
  | incoming (t : reply_packet) (target : udp_endpoint)
  | tick (now : Int)
  | unreachable (ep : udp_endpoint)
  | invoke (tid : Nat) (target : udp_endpoint) (o : Option observer_ptr) (now : Int)
      (send_ok : Bool)

/-- A callback of an observer called by `rpc_manager`. -/
inductive rpc_event where
  | reply (p : observer_ptr)
  | timeout (p : observer_ptr)
  | short_timeout (p : observer_ptr)
  deriving DecidableEq

/-- One call: the manager after it and the callbacks it made, in order. -/
def rpc_manager.call (node_seen : md4_hash → udp_endpoint → Bool) (r : rpc_manager) :
    rpc_call → rpc_manager × List rpc_event
  | rpc_call.incoming t target =>
    (⟨(r.incoming node_seen t target).m_transactions, r.m_destructing, r.observers⟩,
      match (r.incoming node_seen t target).replied with
      | some p => [rpc_event.reply p]
      | none => [])
  | rpc_call.tick now =>
    (⟨(r.tick now).m_transactions, r.m_destructing, r.observers⟩,
      (r.tick now).timeouts.map rpc_event.timeout ++
        (r.tick now).short_timeouts.map rpc_event.short_timeout)
  | rpc_call.unreachable ep =>
    (⟨(r.unreachable ep).m_transactions, r.m_destructing, r.observers⟩,
      match (r.unreachable ep).timed_out with
      | some p => [rpc_event.timeout p]
      | none => [])
  | rpc_call.invoke tid target o now send_ok => ((r.invoke tid target o now send_ok).2, [])

/-- A sequence of calls: the callbacks made, in order. -/
def rpc_manager.run (node_seen : md4_hash → udp_endpoint → Bool) :
    rpc_manager → List rpc_call → List rpc_event
  | _, [] => []
  | r, c :: cs => (r.call node_seen c).2 ++ rpc_manager.run node_seen (r.call node_seen c).1 cs

/-- The call hands the observer `p` to `invoke`. -/
def rpc_call.invokes (p : observer_ptr) : rpc_call → Bool
  | rpc_call.invoke _ _ o _ _ => decide (o = some p)
  | _ => false

/-- An observer for a request with transaction id 1 sent to address 10, port 5. -/
def sample_observer : observer := ⟨1, 10, 5, md4_hash.invalid, md4_hash.invalid, 0, false⟩

/-! ### `session_impl`: DHT requests -/

/-- The members of `session_impl` that `find_keyword`, `find_sources` and
`on_traverse_completed` use: whether the DHT tracker exists (`m_dht` is not null),
the set `m_active_dht_requests`, and the targets handed to `search_keywords` or
`search_sources` of the tracker so far, in order. -/
structure dht_session where
  m_dht : Bool
  m_active_dht_requests : List md4_hash
  searches : List md4_hash
  deriving DecidableEq

/-- The member `session_impl::find_sources`. -/
def dht_session.find_sources (s : dht_session) (hash : md4_hash) : dht_session :=
  if hash ∉ s.m_active_dht_requests then
    ⟨s.m_dht, s.m_active_dht_requests ++ [hash],
      if s.m_dht then s.searches ++ [hash] else s.searches⟩
  else s

/-- The member `session_impl::find_keyword`; `from_string` is `hasher::from_string`
(hasher.hpp is not among the sources). -/
def dht_session.find_keyword (from_string : List Char → md4_hash) (s : dht_session)
    (keyword : List Char) : dht_session :=
  if from_string keyword ∉ s.m_active_dht_requests then
    ⟨s.m_dht, s.m_active_dht_requests ++ [from_string keyword],
      if s.m_dht then s.searches ++ [from_string keyword] else s.searches⟩
  else s

/-- The member `session_impl::on_traverse_completed`. -/
def dht_session.on_traverse_completed (s : dht_session) (id : md4_hash) : dht_session :=
  ⟨s.m_dht, s.m_active_dht_requests.erase id, s.searches⟩

/-- The member `session_impl::start_dht`, as far as these members go: the tracker
exists afterwards. -/
def dht_session.start_dht (s : dht_session) : dht_session :=
  ⟨true, s.m_active_dht_requests, s.searches⟩

/-! ### `session_impl::add_transfer` -/

/-- The transfer object that `add_transfer` creates: its hash and queue position. -/
structure transfer where
  hash : md4_hash
  queue_position : Int
  deriving DecidableEq

/-- The members of `session_impl` that `add_transfer` uses: `m_abort`, the map
`m_transfers` as a list of its pairs, `m_queue_pos`, and the hashes of the
`added_transfer_alert`s posted. -/
structure transfer_session where
  m_abort : Bool
  m_transfers : List (md4_hash × transfer)
  m_queue_pos : Int
  alerts : List md4_hash
  deriving DecidableEq

/-- The member `session_impl::find_transfer(const md4_hash&)`, locked: the transfer
of the map entry with that hash, `none` for a null pointer. -/
def transfer_session.find_transfer (ses : transfer_session) (hash : md4_hash) :
    Option transfer :=
  ses.m_transfers.lookup hash

/-- Outcome of `add_transfer`: the handle returned (`none` for an invalid handle),
the error code variable, and the session. -/
structure add_transfer_result where
  handle : Option transfer
  ec : errors
  ses : transfer_session
  deriving DecidableEq

/-- The member `session_impl::add_transfer`. `duplicate_is_error` is the member of
that name of `params`, `ec` the error code variable as the caller passes it. What
`transfer::start` does (transfer.cpp is not among the sources) is left out. -/
def transfer_session.add_transfer (ses : transfer_session) (params : add_transfer_params)
    (duplicate_is_error : Bool) (ec : errors) : add_transfer_result :=
  if ses.m_abort then ⟨none, errors.session_closing, ses⟩
  else
    match ses.find_transfer params.file_hash with
    | some transfer_ptr =>
      if ¬ duplicate_is_error then ⟨some transfer_ptr, ec, ses⟩
      else ⟨none, errors.duplicate_transfer, ses⟩
    | none =>
      ⟨some ⟨params.file_hash, ses.m_queue_pos + 1⟩, ec,
        ⟨ses.m_abort,
          ses.m_transfers ++ [(params.file_hash, ⟨params.file_hash, ses.m_queue_pos + 1⟩)],
          ses.m_queue_pos + 1, ses.alerts ++ [params.file_hash]⟩⟩

/-! ### `session_impl`: the check queue -/

/-- Modelled from the spec: the states of a transfer (`transfer_status::state_t`,
not among the sources). -/
inductive transfer_state where
  | queued_for_checking
  | checking_files
  | downloading
  | seeding
  | finished
  | allocating
  | paused
  | aborted
  deriving DecidableEq

/-- A pointer to a transfer. -/
abbrev transfer_ptr := Nat

/-- The members of `session_impl` that the check queue uses, and the state and
queue position of the transfer objects. -/
structure check_session where
  m_abort : Bool
  m_queued_for_checking : List transfer_ptr
  state : transfer_ptr → transfer_state
  queue_position : transfer_ptr → Int

/-- The member `transfer::set_state` on the transfer `t`. -/
def check_session.set_state (s : check_session) (t : transfer_ptr) (st : transfer_state) :
    check_session :=
  ⟨s.m_abort, s.m_queued_for_checking, fun q => if q = t then st else s.state q,
    s.queue_position⟩

/-- Modelled from the spec: `transfer::start_checking` (transfer.cpp is not among the
sources) puts the transfer in state `checking_files`. -/
def check_session.start_checking (s : check_session) (t : transfer_ptr) : check_session :=
  s.set_state t transfer_state.checking_files

/-- The member `session_impl::queue_check_transfer`. -/
def check_session.queue_check_transfer (s : check_session) (t : transfer_ptr) :
    check_session :=
  if s.m_abort then s
  else
    let s1 := if s.m_queued_for_checking = [] then s.start_checking t
      else s.set_state t transfer_state.queued_for_checking
    ⟨s1.m_abort, s.m_queued_for_checking ++ [t], s1.state, s1.queue_position⟩

/-- The loop of `dequeue_check_transfer` over the queue from index `idx` on:
`next_check` and the index `done`. -/
def dequeue_scan (queue_position : transfer_ptr → Int) (t : transfer_ptr) :
    List transfer_ptr → Nat → transfer_ptr → Option Nat → transfer_ptr × Option Nat
  | [], _, next_check, done => (next_check, done)
  | i :: rest, idx, next_check, done =>
    dequeue_scan queue_position t rest (idx + 1)
      (if next_check = t ∨ queue_position next_check > queue_position i then i else next_check)
      (if i = t then some idx else done)

/-- The member `session_impl::dequeue_check_transfer`. -/
def check_session.dequeue_check_transfer (s : check_session) (t : transfer_ptr) :
    check_session :=
  match s.m_queued_for_checking with
  | [] => s
  | first :: _ =>
    match (dequeue_scan s.queue_position t s.m_queued_for_checking 0 first none).2 with
    | none => s
    | some done =>
      let next_check := (dequeue_scan s.queue_position t s.m_queued_for_checking 0 first none).1
      let s1 := if next_check ≠ t ∧ s.state t = transfer_state.checking_files then
        s.start_checking next_check else s
      ⟨s1.m_abort, s.m_queued_for_checking.eraseIdx done, s1.state, s1.queue_position⟩

/-- A call of one of the two members. -/
inductive check_call where
  | queue (t : transfer_ptr)
  | dequeue (t : transfer_ptr)

/-- The preconditions that the two members assert on the state of `t` and on the
queue. -/
def check_session.asserted (s : check_session) : check_call → Prop
  | check_call.queue t =>
    s.state t ≠ transfer_state.checking_files ∧ t ∉ s.m_queued_for_checking
  | check_call.dequeue t =>
    (s.state t = transfer_state.checking_files ∨
      s.state t = transfer_state.queued_for_checking) ∧ t ∈ s.m_queued_for_checking

/-- One call. -/
def check_session.call (s : check_session) : check_call → check_session
  | check_call.queue t => s.queue_check_transfer t
  | check_call.dequeue t => s.dequeue_check_transfer t

/-- A sequence of calls. -/
def check_session.run : check_session → List check_call → check_session
  | s, [] => s
  | s, c :: cs => (s.call c).run cs

/-- Every call of the sequence satisfies its asserted preconditions when it is
made. -/
def check_session.valid : check_session → List check_call → Prop
  | _, [] => True
  | s, c :: cs => s.asserted c ∧ (s.call c).valid cs

/-- The property of the check queue: no transfer is queued twice, every queued
transfer is in state `checking_files` or `queued_for_checking`, and at most one is
in state `checking_files`. -/
def check_session.one_checking (s : check_session) : Prop :=
  s.m_queued_for_checking.Nodup ∧
  (∀ x ∈ s.m_queued_for_checking, s.state x = transfer_state.checking_files ∨
    s.state x = transfer_state.queued_for_checking) ∧
  (∀ x ∈ s.m_queued_for_checking, ∀ y ∈ s.m_queued_for_checking,
    s.state x = transfer_state.checking_files → s.state y = transfer_state.checking_files →
      x = y)

/-! ### `session_impl::connect_new_peers` -/

/-- What a call of `transfer::try_connect_peer` does: it returns true, it returns
false, or it throws `std::bad_alloc`. -/
inductive connect_outcome where
  | connected
  | not_connected
  | bad_alloc
  deriving DecidableEq

/-- The members of `session_settings` that the embedded code names. -/
structure session_settings where
  connection_speed : Int
  connections_limit : Int
  deriving DecidableEq

/-- What `connect_new_peers` finds around it: the number of active transfers,
`m_half_open.limit()`, and the answers of `want_more_peers` and `try_connect_peer`
(transfer.cpp is not among the sources) of the transfer with a given index in
`m_active_transfers`, in a given round of the loop. -/
structure connect_env where
  num_active_transfers : Nat
  limit : Int
  want_more_peers : Nat → Nat → Bool
  try_connect_peer : Nat → Nat → connect_outcome

/-- The variables of the loop of `connect_new_peers`: the index of
`m_next_connect_transfer` in `m_active_transfers`, the three local counters,
`num_connections()`, `m_settings.connections_limit`, the number of rounds made, and
the indices of the transfers whose `try_connect_peer` returned true, in order. -/
structure connect_state where
  next : Nat
  max_connections_per_second : Int
  free_slots : Int
  steps_since_last_connect : Int
  num_connections : Int
  connections_limit : Int
  round : Nat
  connected : List Nat
  deriving DecidableEq

/-- One round of the loop, up to the tests that leave it. A `try_connect_peer` that
returns true has added one connection to the session. -/
def connect_round (env : connect_env) (s : connect_state) : connect_state :=
  let s1 : connect_state :=
    if env.want_more_peers s.round s.next then
      match env.try_connect_peer s.round s.next with
      | connect_outcome.connected =>
        { s with
          max_connections_per_second := s.max_connections_per_second - 1,
          free_slots := s.free_slots - 1,
          steps_since_last_connect := 0,
          num_connections := s.num_connections + 1,
          connected := s.connected ++ [s.next] }
      | connect_outcome.not_connected => s
      | connect_outcome.bad_alloc =>
        { s with
          connections_limit := if s.num_connections < 2 then 2 else s.num_connections }
    else s
  { s1 with
    next := (s1.next + 1) % env.num_active_transfers,
    steps_since_last_connect := s1.steps_since_last_connect + 1,
    round := s1.round + 1 }

/-- The four tests at the end of a round: the loop is left. -/
def connect_done (env : connect_env) (s : connect_state) : Bool :=
  decide (s.steps_since_last_connect > (env.num_active_transfers : Int) * 2) ||
  decide (s.free_slots ≤ -env.limit) ||
  decide (s.max_connections_per_second = 0) ||
  decide (s.num_connections ≥ s.connections_limit)

/-- The loop `for (;;)` of `connect_new_peers`, run for at most `fuel` rounds;
`none` when it has not been left by then. -/
def connect_loop (env : connect_env) : Nat → connect_state → Option connect_state
  | 0, _ => none
  | fuel + 1, s =>
    if connect_done env (connect_round env s) then some (connect_round env s)
    else connect_loop env fuel (connect_round env s)

/-- The member `session_impl::connect_new_peers`: the state of the loop when it is
left, or the state it would have started with when the loop is not entered.
`free_slots` is `m_half_open.free_slots()`, `next` the index of
`m_next_connect_transfer`. The loop makes at most `11 * (2 * K + 2)` rounds for `K`
active transfers. -/
def connect_new_peers (env : connect_env) (settings : session_settings) (m_abort : Bool)
    (free_slots num_connections : Int) (next : Nat) : Option connect_state :=
  if env.num_active_transfers ≠ 0 ∧ free_slots > -env.limit ∧
      num_connections < settings.connections_limit ∧ m_abort = false then
    connect_loop env (11 * (2 * env.num_active_transfers + 2))
      ⟨if next < env.num_active_transfers then next else 0, 10, free_slots, 0, num_connections,
        settings.connections_limit, 0, []⟩
  else
    some ⟨next, 10, free_slots, 0, num_connections, settings.connections_limit, 0, []⟩

/-- One active transfer that always wants more peers and always connects, with a
half-open limit of 8. -/
def eager_env : connect_env := ⟨1, 8, fun _ _ => true, fun _ _ => connect_outcome.connected⟩

/-- The arguments of one call of `connect_new_peers`: the settings, `m_abort`,
`m_half_open.free_slots()` and `num_connections()` as the call finds them. -/
structure connect_call where
  settings : session_settings
  m_abort : Bool
  free_slots : Int
  num_connections : Int

/-- Consecutive calls of `connect_new_peers` on a fixed set of active transfers:
`m_next_connect_transfer` is kept from one call to the next. Returns its index
after the last call and the transfers whose `try_connect_peer` returned true over
all the calls, in order; `none` when a call does not return. -/
def connect_calls (env : connect_env) :
    List connect_call → Nat → List Nat → Option (Nat × List Nat)
  | [], next, acc => some (next, acc)
  | c :: cs, next, acc =>
    match connect_new_peers env c.settings c.m_abort c.free_slots c.num_connections next with
    | none => none
    | some s => connect_calls env cs s.next (acc ++ s.connected)

/-! ### `session_impl`: the connection limit -/

/-- A TCP endpoint: address and port. -/
structure tcp_endpoint where
  address : Nat
  port : Nat
  deriving DecidableEq

/-- A peer connection of `m_connections`: the endpoint it was created for
(peer_connection.hpp is not among the sources). -/
structure peer_connection where
  m_remote : tcp_endpoint
  deriving DecidableEq

/-- The members of `session_impl` that `incoming_connection` and
`add_peer_connection` use: `m_paused`, `m_abort`, the set `m_connections` as the list
of its elements, the settings, and the address of
`m_server_connection->m_target`. -/
structure connection_session where
  m_paused : Bool
  m_abort : Bool
  m_connections : List peer_connection
  m_settings : session_settings
  server_address : Nat
  deriving DecidableEq

/-- The member `session_impl::num_connections`, the size of `m_connections`. -/
def connection_session.num_connections (ses : connection_session) : Int :=
  (ses.m_connections.length : Int)

/-- Modelled from the spec: `session_impl::max_connections` (session_impl.hpp is not
among the sources) returns the setting `connections_limit`. -/
def connection_session.max_connections (ses : connection_session) : Int :=
  ses.m_settings.connections_limit

/-- The member `session_impl::incoming_connection`. `ec` and `endp` are what
`remote_endpoint` yields, `blocked` is the answer of the ip filter for the address,
and `is_disconnecting` is the state of the connection object just created. -/
def connection_session.incoming_connection (ses : connection_session) (ec : errors)
    (endp : tcp_endpoint) (blocked is_disconnecting : Bool) : connection_session :=
  if ses.m_paused then ses
  else if ec ≠ errors.no_error then ses
  else if blocked then ses
  else if ses.num_connections ≥ ses.max_connections then ses
  else if ¬ is_disconnecting then
    if ses.server_address ≠ endp.address then
      { ses with m_connections := ses.m_connections ++ [⟨endp⟩] }
    else ses
  else ses

/-- The member `session_impl::find_peer_connection(const net_identifier&)`;
`has_network_point` is the member of `peer_connection` of that name. -/
def connection_session.find_peer_connection
    (has_network_point : peer_connection → net_identifier → Bool) (ses : connection_session)
    (np : net_identifier) : Option peer_connection :=
  ses.m_connections.find? (fun c => has_network_point c np)

/-- The member `session_impl::add_peer_connection`: the connection of the handle
returned (`none` for an empty handle), the error code variable, and the session. -/
def connection_session.add_peer_connection
    (has_network_point : peer_connection → net_identifier → Bool) (ses : connection_session)
    (np : net_identifier) (ec : errors) :
    Option peer_connection × errors × connection_session :=
  if ses.m_abort then (none, errors.session_closing, ses)
  else
    match ses.find_peer_connection has_network_point np with
    | some ptr => (some ptr, ec, ses)
    | none =>
      (some ⟨⟨np.m_nIP.toNat, np.m_nPort.toNat⟩⟩, ec,
        { ses with
          m_connections := ses.m_connections ++ [⟨⟨np.m_nIP.toNat, np.m_nPort.toNat⟩⟩] })

/-- A session at its limit of one connection, to the peer 10.0.0.1:4662. -/
def full_session : connection_session :=
  ⟨false, false, [⟨⟨0x0A000001, 4662⟩⟩], ⟨6, 1⟩, 0⟩

/-- The connection was made for the network point: the test of
`peer_connection::has_network_point`, used to instantiate theorems. -/
def same_network_point (c : peer_connection) (np : net_identifier) : Bool :=
  decide (c.m_remote = ⟨np.m_nIP.toNat, np.m_nPort.toNat⟩)

/-! ### `file_pool` -/

/-- The constants of `file` that `open_file` tests the open mode with (file.hpp is
not among the sources). -/
structure file_modes where
  rw_mask : Nat
  read_only : Nat
  read_write : Nat
  no_buffer : Nat
  random_access : Nat

/-- The structure `file_pool::lru_file_entry`; `file_ptr` names the file object. -/
structure lru_file_entry where
  file_ptr : Nat
  key : Nat
  last_use : Int
  mode : Nat
  deriving DecidableEq

/-- The key of `file_set`: the storage pointer and the file index. -/
abbrev file_key := Nat × Int

/-- The order of the keys of `file_set`, that of `std::pair`. -/
def file_key_lt (a b : file_key) : Bool :=
  decide (a.1 < b.1 ∨ (a.1 = b.1 ∧ a.2 < b.2))

/-- The members of `file_pool` that the embedded functions use: `m_size` and the
map `m_files` as the list of its pairs in key order. -/
structure file_pool where
  m_size : Int
  m_files : List (file_key × lru_file_entry)
  deriving DecidableEq

/-- The call `std::map::insert`: the pair is put at its place in key order, unless
the key is there already. -/
def file_set_insert (k : file_key) (e : lru_file_entry) :
    List (file_key × lru_file_entry) → List (file_key × lru_file_entry)
  | [] => [(k, e)]
  | x :: rest =>
    if k = x.1 then x :: rest
    else if file_key_lt k x.1 then (k, e) :: x :: rest
    else x :: file_set_insert k e rest

/-- The call `std::min_element` with the comparison of `remove_oldest`, from the
second element on: `smallest` is replaced by an element only when that one has a
strictly smaller `last_use`. -/
def min_element_scan (smallest : file_key × lru_file_entry) :
    List (file_key × lru_file_entry) → file_key × lru_file_entry
  | [] => smallest
  | x :: rest =>
    min_element_scan (if x.2.last_use < smallest.2.last_use then x else smallest) rest

/-- The member `file_pool::remove_oldest`. -/
def file_pool.remove_oldest (p : file_pool) : file_pool :=
  match p.m_files with
  | [] => p
  | x :: rest => { p with m_files := p.m_files.erase (min_element_scan x rest) }

/-- The entry stored under a key is replaced. -/
def file_set_assign (k : file_key) (e : lru_file_entry)
    (files : List (file_key × lru_file_entry)) : List (file_key × lru_file_entry) :=
  files.map (fun x => if x.1 = k then (x.1, e) else x)

/-- The member `file_pool::open_file`, built without `LIBED2K_CLOSE_MAY_BLOCK`:
the file pointer returned (`none` for a null pointer), the error code variable, and
the pool. `file_index` is `fs.file_index(*fe)`, `now` the value of `time_now()`,
`new_file` the object that `new (std::nothrow) file` yields, `open_ok` and `open_ec`
what `file::open` returns and stores in `ec`. -/
def file_pool.open_file (fm : file_modes) (p : file_pool) (st : Nat) (file_index : Int)
    (m : Nat) (ec : errors) (now : Int) (new_file : Option Nat) (open_ok : Bool)
    (open_ec : errors) : Option Nat × errors × file_pool :=
  match p.m_files.find? (fun x => decide (x.1 = (st, file_index))) with
  | some i =>
    let e : lru_file_entry := { i.2 with last_use := now }
    if e.key ≠ st ∧ (e.mode &&& fm.rw_mask ≠ fm.read_only ∨ m &&& fm.rw_mask ≠ fm.read_only) then
      (none, errors.file_collision, { p with m_files := file_set_assign i.1 e p.m_files })
    else
      let e : lru_file_entry := { e with key := st }
      if (e.mode &&& fm.rw_mask ≠ fm.read_write ∧ m &&& fm.rw_mask = fm.read_write) ∨
          e.mode &&& fm.no_buffer ≠ m &&& fm.no_buffer ∨
          e.mode &&& fm.random_access ≠ m &&& fm.random_access then
        if ¬ open_ok then
          (none, open_ec, { p with m_files := p.m_files.filter (fun x => decide (x.1 ≠ i.1)) })
        else
          (some e.file_ptr, ec,
            { p with m_files := file_set_assign i.1 { e with mode := m } p.m_files })
      else (some e.file_ptr, ec, { p with m_files := file_set_assign i.1 e p.m_files })
  | none =>
    let p1 := if (p.m_files.length : Int) ≥ p.m_size then p.remove_oldest else p
    match new_file with
    | none => (none, errors.system_error, p1)
    | some file_ptr =>
      if ¬ open_ok then (none, open_ec, p1)
      else
        (some file_ptr, ec,
          { p1 with
            m_files := file_set_insert (st, file_index) ⟨file_ptr, st, now, m⟩ p1.m_files })

/-- The loop `while (int(m_files.size()) > m_size) remove_oldest();` of `resize`,
run for at most `fuel` rounds; `none` when it has not been left by then. -/
def file_pool.resize_loop : Nat → file_pool → Option file_pool
  | 0, _ => none
  | fuel + 1, p =>
    if (p.m_files.length : Int) > p.m_size then file_pool.resize_loop fuel p.remove_oldest
    else some p

/-- The member `file_pool::resize`. The loop removes an entry per round as long as
there is one, so it is left within `m_files.size()` rounds or never. -/
def file_pool.resize (p : file_pool) (size : Int) : Option file_pool :=
  if size = p.m_size then some p
  else if (p.m_files.length : Int) ≤ size then some { p with m_size := size }
  else file_pool.resize_loop (p.m_files.length + 1) { p with m_size := size }

/-- Mode constants to instantiate theorems with. -/
def sample_modes : file_modes := ⟨3, 0, 2, 4, 8⟩

/-- A pool of limit 2 holding two files, the second one used last at time 1. -/
def sample_pool : file_pool := ⟨2, [((1, 0), ⟨1, 1, 5, 0⟩), ((1, 1), ⟨2, 1, 1, 0⟩)]⟩

/-! ### `packet_type` and `make_message` -/

/-- The enumerators of `OP_ClientToServerTCP`, `ED2KStandardClientTCP` and
`ED2KExtendedClientTCP` that a `packet_type` specialisation names. -/
inductive opcode where
  | OP_LOGINREQUEST
  | OP_OFFERFILES
  | OP_SEARCHREQUEST
  | OP_SEARCHRESULT
  | OP_QUERY_MORE_RESULT
  | OP_GETSOURCES
  | OP_FOUNDSOURCES
  | OP_CALLBACKREQUEST
  | OP_CALLBACKREQUESTED
  | OP_CALLBACK_FAIL
  | OP_GETSERVERLIST
  | OP_SERVERLIST
  | OP_SERVERSTATUS
  | OP_IDCHANGE
  | OP_SERVERMESSAGE
  | OP_SERVERIDENT
  | OP_HELLO
  | OP_HELLOANSWER
  | OP_EMULEINFO
  | OP_EMULEINFOANSWER
  | OP_ASKSHAREDFILES
  | OP_ASKSHAREDDIRS
  | OP_ASKSHAREDFILESDIR
  | OP_ASKSHAREDFILESANSWER
  | OP_ASKSHAREDDIRSANS
  | OP_ASKSHAREDFILESDIRANS
  | OP_REQUESTFILENAME
  | OP_REQFILENAMEANSWER
  | OP_ASKSHAREDDENIEDANS
  | OP_FILEDESC
  | OP_SETREQFILEID
  | OP_FILEREQANSNOFIL
  | OP_FILESTATUS
  | OP_HASHSETREQUEST
  | OP_HASHSETANSWER
  | OP_STARTUPLOADREQ
  | OP_QUEUERANKING
  | OP_ACCEPTUPLOADREQ
  | OP_OUTOFPARTREQS
  | OP_CANCELTRANSFER
  | OP_REQUESTPARTS
  | OP_REQUESTPARTS_I64
  | OP_SENDINGPART
  | OP_SENDINGPART_I64
  | OP_COMPRESSEDPART
  | OP_COMPRESSEDPART_I64
  | OP_END_OF_DOWNLOAD
  | OP_MESSAGE
  | OP_CHATCAPTCHAREQ
  | OP_CHATCAPTCHARES
  | OP_PUBLICIP_REQ
  | OP_PUBLICIP_ANSWER
  | OP_ASKDIRCONTENTS
  | OP_ASKDIRCONTENTSANS
  deriving DecidableEq

/-- The value of an enumerator. -/
def opcode.value : opcode → Nat
  | opcode.OP_LOGINREQUEST => 0x01
  | opcode.OP_OFFERFILES => 0x15
  | opcode.OP_SEARCHREQUEST => 0x16
  | opcode.OP_SEARCHRESULT => 0x33
  | opcode.OP_QUERY_MORE_RESULT => 0x21
  | opcode.OP_GETSOURCES => 0x19
  | opcode.OP_FOUNDSOURCES => 0x42
  | opcode.OP_CALLBACKREQUEST => 0x1C
  | opcode.OP_CALLBACKREQUESTED => 0x35
  | opcode.OP_CALLBACK_FAIL => 0x36
  | opcode.OP_GETSERVERLIST => 0x14
  | opcode.OP_SERVERLIST => 0x32
  | opcode.OP_SERVERSTATUS => 0x34
  | opcode.OP_IDCHANGE => 0x40
  | opcode.OP_SERVERMESSAGE => 0x38
  | opcode.OP_SERVERIDENT => 0x41
  | opcode.OP_HELLO => 0x01
  | opcode.OP_HELLOANSWER => 0x4C
  | opcode.OP_EMULEINFO => 0x01
  | opcode.OP_EMULEINFOANSWER => 0x02
  | opcode.OP_ASKSHAREDFILES => 0x4A
  | opcode.OP_ASKSHAREDDIRS => 0x5D
  | opcode.OP_ASKSHAREDFILESDIR => 0x5E
  | opcode.OP_ASKSHAREDFILESANSWER => 0x4B
  | opcode.OP_ASKSHAREDDIRSANS => 0x5F
  | opcode.OP_ASKSHAREDFILESDIRANS => 0x60
  | opcode.OP_REQUESTFILENAME => 0x58
  | opcode.OP_REQFILENAMEANSWER => 0x59
  | opcode.OP_ASKSHAREDDENIEDANS => 0x61
  | opcode.OP_FILEDESC => 0x61
  | opcode.OP_SETREQFILEID => 0x4F
  | opcode.OP_FILEREQANSNOFIL => 0x48
  | opcode.OP_FILESTATUS => 0x50
  | opcode.OP_HASHSETREQUEST => 0x51
  | opcode.OP_HASHSETANSWER => 0x52
  | opcode.OP_STARTUPLOADREQ => 0x54
  | opcode.OP_QUEUERANKING => 0x60
  | opcode.OP_ACCEPTUPLOADREQ => 0x55
  | opcode.OP_OUTOFPARTREQS => 0x57
  | opcode.OP_CANCELTRANSFER => 0x56
  | opcode.OP_REQUESTPARTS => 0x47
  | opcode.OP_REQUESTPARTS_I64 => 0xA3
  | opcode.OP_SENDINGPART => 0x46
  | opcode.OP_SENDINGPART_I64 => 0xA2
  | opcode.OP_COMPRESSEDPART => 0x40
  | opcode.OP_COMPRESSEDPART_I64 => 0xA1
  | opcode.OP_END_OF_DOWNLOAD => 0x49
  | opcode.OP_MESSAGE => 0x4E
  | opcode.OP_CHATCAPTCHAREQ => 0xA5
  | opcode.OP_CHATCAPTCHARES => 0xA6
  | opcode.OP_PUBLICIP_REQ => 0x97
  | opcode.OP_PUBLICIP_ANSWER => 0x98
  | opcode.OP_ASKDIRCONTENTS => 0xB2
  | opcode.OP_ASKDIRCONTENTSANS => 0xB3

/-- The message structures that have a `packet_type` specialisation, server
messages first, then client messages. -/
inductive message_type where
  | cs_login_request
  | shared_files_list
  | search_request_block
  | search_result
  | search_more_result
  | get_file_sources
  | found_file_sources
  | callback_request_out
  | callback_request_in
  | callback_req_fail
  | server_get_list
  | server_list
  | server_status
  | id_change
  | server_message
  | server_info_entry
  | client_hello
  | client_hello_answer
  | client_ext_hello
  | client_ext_hello_answer
  | client_shared_files_request
  | client_shared_directories_request
  | client_shared_directory_files_request
  | client_shared_files_answer
  | client_shared_directories_answer
  | client_shared_directory_files_answer
  | client_file_request
  | client_file_answer
  | client_shared_files_denied
  | client_file_description
  | client_filestatus_request
  | client_no_file
  | client_file_status
  | client_hashset_request
  | client_hashset_answer
  | client_start_upload
  | client_queue_ranking
  | client_accept_upload
  | client_out_parts
  | client_cancel_transfer
  | client_request_parts_32
  | client_request_parts_64
  | client_sending_part_32
  | client_sending_part_64
  | client_compressed_part_32
  | client_compressed_part_64
  | client_end_download
  | client_message
  | client_captcha_request
  | client_captcha_result
  | client_public_ip_request
  | client_public_ip_answer
  | client_directory_answer
  | client_directory_content_request
  | client_directory_content_result
  deriving DecidableEq

/-- The constant `packet_type<T>::value`, as the enumerator it is set to. -/
def packet_type_value : message_type → opcode
  | message_type.cs_login_request => opcode.OP_LOGINREQUEST
  | message_type.shared_files_list => opcode.OP_OFFERFILES
  | message_type.search_request_block => opcode.OP_SEARCHREQUEST
  | message_type.search_result => opcode.OP_SEARCHRESULT
  | message_type.search_more_result => opcode.OP_QUERY_MORE_RESULT
  | message_type.get_file_sources => opcode.OP_GETSOURCES
  | message_type.found_file_sources => opcode.OP_FOUNDSOURCES
  | message_type.callback_request_out => opcode.OP_CALLBACKREQUEST
  | message_type.callback_request_in => opcode.OP_CALLBACKREQUESTED
  | message_type.callback_req_fail => opcode.OP_CALLBACK_FAIL
  | message_type.server_get_list => opcode.OP_GETSERVERLIST
  | message_type.server_list => opcode.OP_SERVERLIST
  | message_type.server_status => opcode.OP_SERVERSTATUS
  | message_type.id_change => opcode.OP_IDCHANGE
  | message_type.server_message => opcode.OP_SERVERMESSAGE
  | message_type.server_info_entry => opcode.OP_SERVERIDENT
  | message_type.client_hello => opcode.OP_HELLO
  | message_type.client_hello_answer => opcode.OP_HELLOANSWER
  | message_type.client_ext_hello => opcode.OP_EMULEINFO
  | message_type.client_ext_hello_answer => opcode.OP_EMULEINFOANSWER
  | message_type.client_shared_files_request => opcode.OP_ASKSHAREDFILES
  | message_type.client_shared_directories_request => opcode.OP_ASKSHAREDDIRS
  | message_type.client_shared_directory_files_request => opcode.OP_ASKSHAREDFILESDIR
  | message_type.client_shared_files_answer => opcode.OP_ASKSHAREDFILESANSWER
  | message_type.client_shared_directories_answer => opcode.OP_ASKSHAREDDIRSANS
  | message_type.client_shared_directory_files_answer => opcode.OP_ASKSHAREDFILESDIRANS
  | message_type.client_file_request => opcode.OP_REQUESTFILENAME
  | message_type.client_file_answer => opcode.OP_REQFILENAMEANSWER
  | message_type.client_shared_files_denied => opcode.OP_ASKSHAREDDENIEDANS
  | message_type.client_file_description => opcode.OP_FILEDESC
  | message_type.client_filestatus_request => opcode.OP_SETREQFILEID
  | message_type.client_no_file => opcode.OP_FILEREQANSNOFIL
  | message_type.client_file_status => opcode.OP_FILESTATUS
  | message_type.client_hashset_request => opcode.OP_HASHSETREQUEST
  | message_type.client_hashset_answer => opcode.OP_HASHSETANSWER
  | message_type.client_start_upload => opcode.OP_STARTUPLOADREQ
  | message_type.client_queue_ranking => opcode.OP_QUEUERANKING
  | message_type.client_accept_upload => opcode.OP_ACCEPTUPLOADREQ
  | message_type.client_out_parts => opcode.OP_OUTOFPARTREQS
  | message_type.client_cancel_transfer => opcode.OP_CANCELTRANSFER
  | message_type.client_request_parts_32 => opcode.OP_REQUESTPARTS
  | message_type.client_request_parts_64 => opcode.OP_REQUESTPARTS_I64
  | message_type.client_sending_part_32 => opcode.OP_SENDINGPART
  | message_type.client_sending_part_64 => opcode.OP_SENDINGPART_I64
  | message_type.client_compressed_part_32 => opcode.OP_COMPRESSEDPART
  | message_type.client_compressed_part_64 => opcode.OP_COMPRESSEDPART_I64
  | message_type.client_end_download => opcode.OP_END_OF_DOWNLOAD
  | message_type.client_message => opcode.OP_MESSAGE
  | message_type.client_captcha_request => opcode.OP_CHATCAPTCHAREQ
  | message_type.client_captcha_result => opcode.OP_CHATCAPTCHARES
  | message_type.client_public_ip_request => opcode.OP_PUBLICIP_REQ
  | message_type.client_public_ip_answer => opcode.OP_PUBLICIP_ANSWER
  | message_type.client_directory_answer => opcode.OP_ASKSHAREDFILESANSWER
  | message_type.client_directory_content_request => opcode.OP_ASKDIRCONTENTS
  | message_type.client_directory_content_result => opcode.OP_ASKDIRCONTENTSANS

/-- The constant `packet_type<T>::protocol`. -/
def packet_type_protocol : message_type → Nat
  | message_type.cs_login_request => OP_EDONKEYPROT
  | message_type.shared_files_list => OP_EDONKEYPROT
  | message_type.search_request_block => OP_EDONKEYPROT
  | message_type.search_result => OP_EDONKEYPROT
  | message_type.search_more_result => OP_EDONKEYPROT
  | message_type.get_file_sources => OP_EDONKEYPROT
  | message_type.found_file_sources => OP_EDONKEYPROT
  | message_type.callback_request_out => OP_EDONKEYPROT
  | message_type.callback_request_in => OP_EDONKEYPROT
  | message_type.callback_req_fail => OP_EDONKEYPROT
  | message_type.server_get_list => OP_EDONKEYPROT
  | message_type.server_list => OP_EDONKEYPROT
  | message_type.server_status => OP_EDONKEYPROT
  | message_type.id_change => OP_EDONKEYPROT
  | message_type.server_message => OP_EDONKEYPROT
  | message_type.server_info_entry => OP_EDONKEYPROT
  | message_type.client_hello => OP_EDONKEYPROT
  | message_type.client_hello_answer => OP_EDONKEYPROT
  | message_type.client_ext_hello => OP_EMULEPROT
  | message_type.client_ext_hello_answer => OP_EMULEPROT
  | message_type.client_shared_files_request => OP_EDONKEYPROT
  | message_type.client_shared_directories_request => OP_EDONKEYPROT
  | message_type.client_shared_directory_files_request => OP_EDONKEYPROT
  | message_type.client_shared_files_answer => OP_EDONKEYPROT
  | message_type.client_shared_directories_answer => OP_EDONKEYPROT
  | message_type.client_shared_directory_files_answer => OP_EDONKEYPROT
  | message_type.client_file_request => OP_EDONKEYPROT
  | message_type.client_file_answer => OP_EDONKEYPROT
  | message_type.client_shared_files_denied => OP_EDONKEYPROT
  | message_type.client_file_description => OP_EMULEPROT
  | message_type.client_filestatus_request => OP_EDONKEYPROT
  | message_type.client_no_file => OP_EDONKEYPROT
  | message_type.client_file_status => OP_EDONKEYPROT
  | message_type.client_hashset_request => OP_EDONKEYPROT
  | message_type.client_hashset_answer => OP_EDONKEYPROT
  | message_type.client_start_upload => OP_EDONKEYPROT
  | message_type.client_queue_ranking => OP_EMULEPROT
  | message_type.client_accept_upload => OP_EDONKEYPROT
  | message_type.client_out_parts => OP_EDONKEYPROT
  | message_type.client_cancel_transfer => OP_EDONKEYPROT
  | message_type.client_request_parts_32 => OP_EDONKEYPROT
  | message_type.client_request_parts_64 => OP_EMULEPROT
  | message_type.client_sending_part_32 => OP_EDONKEYPROT
  | message_type.client_sending_part_64 => OP_EMULEPROT
  | message_type.client_compressed_part_32 => OP_EMULEPROT
  | message_type.client_compressed_part_64 => OP_EMULEPROT
  | message_type.client_end_download => OP_EDONKEYPROT
  | message_type.client_message => OP_EDONKEYPROT
  | message_type.client_captcha_request => OP_EMULEPROT
  | message_type.client_captcha_result => OP_EMULEPROT
  | message_type.client_public_ip_request => OP_EMULEPROT
  | message_type.client_public_ip_answer => OP_EMULEPROT
  | message_type.client_directory_answer => OP_EDONKEYPROT
  | message_type.client_directory_content_request => OP_EDONKEYPROT
  | message_type.client_directory_content_result => OP_EDONKEYPROT

/-- The header that `make_message<T>` returns; `body_size` is the value of
`body_size(t, msg.second)` for the serialised message. -/
def make_message (T : message_type) (body_size : Nat) : libed2k_header :=
  ⟨UInt8.ofNat (packet_type_protocol T), UInt32.ofNat (body_size + 1),
    UInt8.ofNat (packet_type_value T).value⟩

/-- The three opcode lists of the spec for TCP messages. -/
inductive spec_list where
  | server_tcp
  | peer_tcp
  | extension
  deriving DecidableEq

/-- An entry of an opcode list of the spec: the enumerator that the name stands
for, the value listed with it, and the list it stands in. -/
structure spec_entry where
  name : opcode
  value : Nat
  list : spec_list
  deriving DecidableEq

/-- The opcode lists of the spec, section 6, as written there: "Server TCP",
"Peer TCP" up to `QUEUERANKING=0x60`, and "Extension (proto 0xC5)". A name `X`
stands for the enumerator `OP_X` (`LOGIN_REQUEST` for `OP_LOGINREQUEST`). -/
def spec_opcodes : List spec_entry :=
  [⟨opcode.OP_LOGINREQUEST, 0x01, spec_list.server_tcp⟩, ⟨opcode.OP_OFFERFILES, 0x15, spec_list.server_tcp⟩,
    ⟨opcode.OP_SEARCHREQUEST, 0x16, spec_list.server_tcp⟩, ⟨opcode.OP_GETSOURCES, 0x19, spec_list.server_tcp⟩,
    ⟨opcode.OP_CALLBACKREQUEST, 0x1C, spec_list.server_tcp⟩, ⟨opcode.OP_SERVERLIST, 0x32, spec_list.server_tcp⟩,
    ⟨opcode.OP_SEARCHRESULT, 0x33, spec_list.server_tcp⟩, ⟨opcode.OP_SERVERSTATUS, 0x34, spec_list.server_tcp⟩,
    ⟨opcode.OP_CALLBACKREQUESTED, 0x35, spec_list.server_tcp⟩, ⟨opcode.OP_SERVERMESSAGE, 0x38, spec_list.server_tcp⟩,
    ⟨opcode.OP_IDCHANGE, 0x40, spec_list.server_tcp⟩, ⟨opcode.OP_SERVERIDENT, 0x41, spec_list.server_tcp⟩,
    ⟨opcode.OP_FOUNDSOURCES, 0x42, spec_list.server_tcp⟩, ⟨opcode.OP_HELLO, 0x01, spec_list.peer_tcp⟩,
    ⟨opcode.OP_HELLOANSWER, 0x4C, spec_list.peer_tcp⟩, ⟨opcode.OP_SENDINGPART, 0x46, spec_list.peer_tcp⟩,
    ⟨opcode.OP_REQUESTPARTS, 0x47, spec_list.peer_tcp⟩, ⟨opcode.OP_FILEREQANSNOFIL, 0x48, spec_list.peer_tcp⟩,
    ⟨opcode.OP_END_OF_DOWNLOAD, 0x49, spec_list.peer_tcp⟩, ⟨opcode.OP_MESSAGE, 0x4E, spec_list.peer_tcp⟩,
    ⟨opcode.OP_SETREQFILEID, 0x4F, spec_list.peer_tcp⟩, ⟨opcode.OP_FILESTATUS, 0x50, spec_list.peer_tcp⟩,
    ⟨opcode.OP_HASHSETREQUEST, 0x51, spec_list.peer_tcp⟩, ⟨opcode.OP_HASHSETANSWER, 0x52, spec_list.peer_tcp⟩,
    ⟨opcode.OP_STARTUPLOADREQ, 0x54, spec_list.peer_tcp⟩, ⟨opcode.OP_ACCEPTUPLOADREQ, 0x55, spec_list.peer_tcp⟩,
    ⟨opcode.OP_CANCELTRANSFER, 0x56, spec_list.peer_tcp⟩, ⟨opcode.OP_OUTOFPARTREQS, 0x57, spec_list.peer_tcp⟩,
    ⟨opcode.OP_REQUESTFILENAME, 0x58, spec_list.peer_tcp⟩, ⟨opcode.OP_REQFILENAMEANSWER, 0x59, spec_list.peer_tcp⟩,
    ⟨opcode.OP_QUEUERANKING, 0x60, spec_list.peer_tcp⟩, ⟨opcode.OP_EMULEINFO, 0x01, spec_list.extension⟩,
    ⟨opcode.OP_EMULEINFOANSWER, 0x02, spec_list.extension⟩, ⟨opcode.OP_COMPRESSEDPART, 0x40, spec_list.extension⟩,
    ⟨opcode.OP_SENDINGPART_I64, 0xA2, spec_list.extension⟩, ⟨opcode.OP_REQUESTPARTS_I64, 0xA3, spec_list.extension⟩,
    ⟨opcode.OP_COMPRESSEDPART_I64, 0xA1, spec_list.extension⟩]

/-- The protocol byte that the spec gives for the messages of a list: `0xE3`, the
plain protocol, for the two TCP lists, `0xC5` for the extension list. -/
def spec_protocol : spec_list → Nat
  | spec_list.server_tcp => 0xE3
  | spec_list.peer_tcp => 0xE3
  | spec_list.extension => 0xC5

/-- The value that `file2atp` stores in its variable `int pieces_count` for a file
of `file_size` bytes. -/
def pieces_count (file_size : Nat) : Int := to_int (div_ceil file_size PIECE_SIZE)

/-- The test `pieces_count * libed2k::PIECE_SIZE == atp.file_size` of `file2atp`. -/
def terminal_test (file_size : Nat) : Bool :=
  decide (pieces_count file_size * (PIECE_SIZE : Int) = (file_size : Int))

/-- Three observers sent at the times 0, 11 and 20; the second one has had its short
timeout. -/
def sample_observers (p : observer_ptr) : observer :=
  if p = 0 then ⟨1, 10, 5, md4_hash.invalid, md4_hash.invalid, 0, false⟩
  else if p = 1 then ⟨1, 11, 5, md4_hash.invalid, md4_hash.invalid, 11, true⟩
  else ⟨1, 12, 5, md4_hash.invalid, md4_hash.invalid, 20, false⟩

/-! ### `client_file_status` -/

/-- Modelled from the spec: the have-pieces bitfield (bitfield.hpp is not among
the sources), a sequence of bits. -/
structure bitfield where
  bits : List Bool
  deriving DecidableEq

/-- The member `bitfield::size`, the number of bits. -/
def bitfield.size (b : bitfield) : Nat := b.bits.length

/-- The member `bitfield::count`, the number of bits that are set. -/
def bitfield.count (b : bitfield) : Nat := b.bits.count true

/-- The number of bytes that hold `bits` bits, `bits2bytes`. -/
def bits2bytes (bits : Nat) : Nat := (bits + 7) / 8

/-- The byte that holds up to eight bits, the first one in the highest position. -/
def pack_bits (bs : List Bool) : UInt8 :=
  UInt8.ofNat (((List.range 8).map (fun i => if bs.getD i false then 2 ^ (7 - i) else 0)).sum)

/-- The member `bitfield::bytes`: the buffer of the bits, eight to a byte. -/
def bitfield.bytes (b : bitfield) : List UInt8 :=
  (List.range (bits2bytes b.bits.length)).map (fun j => pack_bits ((b.bits.drop (8 * j)).take 8))

/-- The struct `client_file_status`. -/
structure client_file_status where
  m_hFile : md4_hash
  m_status : bitfield
  deriving DecidableEq

/-- The member `client_file_status::serialize(archive::ed2k_oarchive&)`. -/
def client_file_status.save (s : client_file_status) : List UInt8 :=
  let bits := s.m_status.size % 2 ^ 16
  s.m_hFile.save ++
    (if bits < s.m_status.count then
      save_uint 2 bits ++ s.m_status.bytes.take (bits2bytes bits)
    else save_uint 2 0)

/-- The encoding that a part file is to have: the file hash, the 16-bit count of
bits, and the bytes of the bitfield. -/
def part_file_encoding (s : client_file_status) : List UInt8 :=
  s.m_hFile.save ++ save_uint 2 s.m_status.size ++
    s.m_status.bytes.take (bits2bytes s.m_status.size)

/-- The status of a part file of two pieces: the first one is there, the second
one is not. -/
def part_file_status : client_file_status := ⟨spec_hash, ⟨[true, false]⟩⟩

/-! ### `dequeue_check_transfer`: the transfer started next -/

/-- No transfer is queued; the transfers 0, 1 and 2 have the queue positions 5, 7
and 1. -/
def check_session_a : check_session :=
  ⟨false, [], fun _ => transfer_state.paused, fun t => if t = 0 then 5 else if t = 1 then 7 else 1⟩

/-- No transfer is queued; the transfers 0, 1, 2 and 3 have the queue positions 2,
5, 1 and 9. -/
def check_session_b : check_session :=
  ⟨false, [], fun _ => transfer_state.paused,
    fun t => if t = 0 then 2 else if t = 1 then 5 else if t = 2 then 1 else 9⟩

/-! ### `global_server_state_res` -/

/-- The struct `global_server_state_res`. -/
structure global_server_state_res where
  m_nChallenge : Nat
  m_nUsersCount : Nat
  m_nFilesCount : Nat
  m_nCurrentMaxUsers : Nat
  m_nSoftFiles : Nat
  m_nHardFiles : Nat
  m_nUDPFlags : Nat
  m_nLowIdUsers : Nat
  m_nUDPObfuscationPort : Nat
  m_nTCPObfuscationPort : Nat
  m_nServerUDPKey : Nat
  m_nMaxSize : Nat
  deriving DecidableEq

/-- A member of the struct as `serialize` reads it: `sizeof` of the member and the
assignment to it. -/
structure state_member where
  sizeof : Nat
  assign : Nat → global_server_state_res → global_server_state_res

/-- The expression `ar & x` on an input archive: nothing is read once a read has
failed, the exception having left `serialize`. -/
def read_member (x : state_member) (s : iresult global_server_state_res) :
    iresult global_server_state_res :=
  if s.ec ≠ errors.no_error then s
  else if (load_uint x.sizeof 0 s.rest).ec ≠ errors.no_error then
    ⟨(load_uint x.sizeof 0 s.rest).ec, s.value, (load_uint x.sizeof 0 s.rest).rest⟩
  else
    ⟨errors.no_error, x.assign (load_uint x.sizeof 0 s.rest).value s.value,
      (load_uint x.sizeof 0 s.rest).rest⟩

/-- The macro `DECREMENT_READ(n, x)` for each member of the list in turn: the
member is read when `n >= sizeof(x)`, otherwise `serialize` returns. The macro does
not change `n`. -/
def DECREMENT_READ (n : Nat) : List state_member → iresult global_server_state_res →
    iresult global_server_state_res
  | [], s => s
  | x :: xs, s =>
    if n ≥ x.sizeof then
      if (read_member x s).ec ≠ errors.no_error then read_member x s
      else DECREMENT_READ n xs (read_member x s)
    else s

/-- Subtraction of `size_t` values, modulo `2 ^ w` for a `size_t` of `w` bits. -/
def size_t_sub (w a b : Nat) : Nat := (a % 2 ^ w + 2 ^ w - b % 2 ^ w) % 2 ^ w

/-- The three members read first. -/
def mandatory_members : List state_member :=
  [⟨4, fun v g => { g with m_nChallenge := v }⟩, ⟨4, fun v g => { g with m_nUsersCount := v }⟩,
    ⟨4, fun v g => { g with m_nFilesCount := v }⟩]

/-- The members read through `DECREMENT_READ`, in the order of the calls. -/
def optional_members : List state_member :=
  [⟨4, fun v g => { g with m_nCurrentMaxUsers := v }⟩,
    ⟨4, fun v g => { g with m_nSoftFiles := v }⟩,
    ⟨4, fun v g => { g with m_nHardFiles := v }⟩,
    ⟨4, fun v g => { g with m_nUDPFlags := v }⟩,
    ⟨4, fun v g => { g with m_nLowIdUsers := v }⟩,
    ⟨2, fun v g => { g with m_nUDPObfuscationPort := v }⟩,
    ⟨2, fun v g => { g with m_nTCPObfuscationPort := v }⟩,
    ⟨4, fun v g => { g with m_nServerUDPKey := v }⟩]

/-- The member `global_server_state_res::serialize` on an input archive, for a
`size_t` of `w` bits. The counter is lowered by
`sizeof(m_nChallenge) - sizeof(m_nUsersCount) - sizeof(m_nFilesCount)`, computed
from left to right in `size_t`. -/
def global_server_state_res.load (w : Nat) (g : global_server_state_res)
    (input : List UInt8) : iresult global_server_state_res :=
  let nCounter := g.m_nMaxSize % 2 ^ w
  let s := mandatory_members.foldl (fun s x => read_member x s) ⟨errors.no_error, g, input⟩
  if s.ec ≠ errors.no_error then s
  else
    let nCounter := size_t_sub w nCounter (size_t_sub w (size_t_sub w 4 4) 4)
    DECREMENT_READ nCounter optional_members s

/-- A server state for a datagram of 12 bytes, before it is read. -/
def empty_state_res : global_server_state_res := ⟨0, 0, 0, 0, 0, 0, 0, 0, 0, 0, 0, 12⟩

/-! ### `session_impl::update_connections_limit` -/

/-- Division of two `int` values, rounding towards zero; `none` for a division by
zero. -/
def int_div (a b : Int) : Option Int := if b = 0 then none else some (a.tdiv b)

/-- Remainder of the division of two `int` values; `none` for a division by zero. -/
def int_mod (a b : Int) : Option Int := if b = 0 then none else some (a.tmod b)

/-- The inner loop of an iteration of `update_connections_limit` over the peer
counts of the transfers: `num_above` and `extra`. -/
def above_average (last_average average : Int) : List Int → Int × Int → Int × Int
  | [], acc => acc
  | num :: rest, acc =>
    if num ≤ last_average then above_average last_average average rest acc
    else
      above_average last_average average rest
        (if num > average then acc.1 + 1 else acc.1,
          if num < average then acc.2 + (average - num) else acc.2)

/-- The loop `for (int iter = 0; iter < 4; ++iter)` with `iters` iterations left:
`average` and `extra` when it is left, `none` for a division by zero. -/
def average_iterations (nums : List Int) : Nat → Int → Int → Int → Option (Int × Int)
  | 0, _, average, extra => some (average, extra)
  | iters + 1, last_average, average, extra =>
    let num_above := (above_average last_average average nums (0, extra)).1
    let extra := (above_average last_average average nums (0, extra)).2
    let num_above := if num_above = 0 then 1 else num_above
    match int_div extra num_above, int_mod extra num_above with
    | some q, some r =>
      if extra = 0 then some (average + q, extra)
      else average_iterations nums iters average (average + q) r
    | _, _ => none

/-- The last loop of `update_connections_limit`: for each transfer the count passed
to `disconnect_peers`, `none` when the member is not called for it. -/
def disconnect_counts (average : Int) : List Int → Int → Int → List (Option Int)
  | [], _, _ => []
  | num :: rest, to_disconnect, extra =>
    if num ≤ average then none :: disconnect_counts average rest to_disconnect extra
    else
      let my_average := if extra > 0 then average + 1 else average
      let extra := if extra > 0 then extra - 1 else extra
      let disconnect := min to_disconnect (num - my_average)
      some disconnect :: disconnect_counts average rest (to_disconnect - disconnect) extra

/-- The member `session_impl::update_connections_limit`: the setting
`connections_limit` afterwards and, for each transfer of `m_transfers` in order, the
count passed to `disconnect_peers`; `none` for a division by zero.
`num_peers` holds `num_peers()` of the transfers, `rlimit` is
`l.rlim_cur - m_settings.file_pool_size` when the build uses `getrlimit` and it
reports a finite limit. All the values computed lie between 0 and
`num_connections`, so that `int` arithmetic does not overflow. -/
def update_connections_limit (rlimit : Option Int) (connections_limit num_connections : Int)
    (num_peers : List Int) : Option (Int × List (Option Int)) :=
  let connections_limit :=
    if connections_limit ≤ 0 then
      match rlimit with
      | some l => if l < 5 then 5 else l
      | none => 2 ^ 31 - 1
    else connections_limit
  if num_connections > connections_limit ∧ num_peers ≠ [] then
    let to_disconnect := num_connections - connections_limit
    match int_div connections_limit num_peers.length,
      int_mod connections_limit num_peers.length with
    | some average, some extra =>
      match average_iterations num_peers 4 0 average extra with
      | some r => some (connections_limit, disconnect_counts r.1 num_peers to_disconnect r.2)
      | none => none
    | _, _ => none
  else some (connections_limit, num_peers.map (fun _ => none))

/-- The number of transfers counted in `num_above` by one pass. -/
def above_count (last_average average : Int) (nums : List Int) : Int :=
  (nums.map (fun num => if last_average < num ∧ average < num then (1 : Int) else 0)).sum

/-- The slots added to `extra` by one pass: those that the transfers between the
last average and the average leave unused. -/
def unused_slots (last_average average : Int) (nums : List Int) : Int :=
  (nums.map (fun num => if last_average < num ∧ num < average then average - num else 0)).sum

/-- The connections that are left when every transfer above `last_average` is cut
down to `average`. -/
def capped_sum (last_average average : Int) (nums : List Int) : Int :=
  (nums.map (fun num => if num ≤ last_average then num else average)).sum

/-- The peers that the transfers have above `average`. -/
def excess (average : Int) (nums : List Int) : Int :=
  (nums.map (fun num => if num ≤ average then 0 else num - average)).sum

/-- The counts passed to `disconnect_peers`, without the transfers it is not called
for. -/
def passed_counts (counts : List (Option Int)) : List Int := counts.filterMap id

/-! ## Theorems -/

/-! ### Archive primitives -/

theorem save_uint_length (w v : Nat) : (save_uint w v).length = w := by
  induction w generalizing v with
  | zero => rfl
  | succ w ih => simp [save_uint, ih]

theorem le_value_save_uint (w v : Nat) : le_value (save_uint w v) = v % 2 ^ (8 * w) := by
  induction w generalizing v with
  | zero => simp [save_uint, le_value, Nat.mod_one]
  | succ w ih =>
    have hb : (UInt8.ofNat (v % 256)).toNat = v % 256 := by
      simp [UInt8.ofNat, UInt8.toNat, Fin.ofNat]
    simp only [save_uint, le_value, ih, hb]
    have h2 : 2 ^ (8 * (w + 1)) = 256 * 2 ^ (8 * w) := by
      rw [Nat.mul_succ, Nat.pow_add, Nat.mul_comm]
    rw [h2, Nat.mod_mul, Nat.add_comm]

theorem load_uint_append (w t : Nat) (pre rest : List UInt8) (hlen : pre.length = w) :
    load_uint w t (pre ++ rest) = ⟨errors.no_error, le_value pre, rest⟩ := by
  unfold load_uint
  have h1 : w ≤ (pre ++ rest).length := by simp [hlen]
  rw [if_pos h1, List.take_left' hlen, List.drop_left' hlen]

theorem load_uint_save_uint (w t v : Nat) (rest : List UInt8) :
    load_uint w t (save_uint w v ++ rest) = ⟨errors.no_error, v % 2 ^ (8 * w), rest⟩ := by
  rw [load_uint_append w t _ rest (save_uint_length w v), le_value_save_uint]

/-! ### `libed2k_header::check_packet` -/

/-- C4, as stated, fails: a header with size field 0 and protocol byte 0x00 gets
`invalid_protocol_type`, not `invalid_packet_size`, because the protocol byte is
checked first. -/
theorem check_packet_size_counterexample :
    (⟨0x00, 0, 0⟩ : libed2k_header).m_size.toNat = 0 ∧
    libed2k_header.check_packet 16777216 ⟨0x00, 0, 0⟩ = errors.invalid_protocol_type ∧
    libed2k_header.check_packet 16777216 ⟨0x00, 0, 0⟩ ≠ errors.invalid_packet_size := by
  decide

/-- C4, amended: for every frame header whose protocol byte is one of 0xE3, 0xD4,
0xC5, 0xE4 and whose size field is 0 or greater than `MAX_ED2K_PACKET_LEN`,
`check_packet` returns `invalid_packet_size`. -/
theorem check_packet_invalid_size (MAX_ED2K_PACKET_LEN : Nat) (h : libed2k_header)
    (hproto : h.m_protocol.toNat = 0xE3 ∨ h.m_protocol.toNat = 0xD4 ∨
      h.m_protocol.toNat = 0xC5 ∨ h.m_protocol.toNat = 0xE4)
    (hsize : h.m_size.toNat = 0 ∨ h.m_size.toNat > MAX_ED2K_PACKET_LEN) :
    h.check_packet MAX_ED2K_PACKET_LEN = errors.invalid_packet_size := by
  unfold libed2k_header.check_packet
  have hc : h.m_size.toNat < 1 ∨ h.m_size.toNat > MAX_ED2K_PACKET_LEN := by omega
  rcases hproto with hp | hp | hp | hp <;> rw [hp] <;> simp only [if_pos hc]

/-- Witness of `check_packet_invalid_size`: a plain ed2k header with size 0, and
the limit of 16 MiB. -/
theorem check_packet_invalid_size_witness :
    libed2k_header.check_packet 16777216 ⟨0xE3, 0, 0x01⟩ = errors.invalid_packet_size :=
  check_packet_invalid_size 16777216 ⟨0xE3, 0, 0x01⟩ (Or.inl (by decide)) (Or.inl (by decide))

/-- C5: `check_packet` returns `no_error` exactly when the protocol byte is one of
0xE3, 0xD4, 0xC5, 0xE4 and `1 ≤ size ≤ MAX_ED2K_PACKET_LEN`; the bytes 0xA3, 0xB2
and 0xE5 yield `unsupported_udp_res1_type`, `unsupported_udp_res2_type` and
`unsupported_kad_packed_type`; every other byte yields `invalid_protocol_type`;
and for every accepted header `body_size` is `size - 1` without wrapping. -/
theorem check_packet_spec (MAX_ED2K_PACKET_LEN : Nat) (h : libed2k_header) :
    (h.check_packet MAX_ED2K_PACKET_LEN = errors.no_error ↔
      (h.m_protocol.toNat = 0xE3 ∨ h.m_protocol.toNat = 0xD4 ∨
        h.m_protocol.toNat = 0xC5 ∨ h.m_protocol.toNat = 0xE4) ∧
      1 ≤ h.m_size.toNat ∧ h.m_size.toNat ≤ MAX_ED2K_PACKET_LEN) ∧
    (h.m_protocol.toNat = 0xA3 →
      h.check_packet MAX_ED2K_PACKET_LEN = errors.unsupported_udp_res1_type) ∧
    (h.m_protocol.toNat = 0xB2 →
      h.check_packet MAX_ED2K_PACKET_LEN = errors.unsupported_udp_res2_type) ∧
    (h.m_protocol.toNat = 0xE5 →
      h.check_packet MAX_ED2K_PACKET_LEN = errors.unsupported_kad_packed_type) ∧
    (h.m_protocol.toNat ≠ 0xE3 → h.m_protocol.toNat ≠ 0xD4 → h.m_protocol.toNat ≠ 0xC5 →
      h.m_protocol.toNat ≠ 0xE4 → h.m_protocol.toNat ≠ 0xA3 → h.m_protocol.toNat ≠ 0xB2 →
      h.m_protocol.toNat ≠ 0xE5 →
      h.check_packet MAX_ED2K_PACKET_LEN = errors.invalid_protocol_type) ∧
    (h.check_packet MAX_ED2K_PACKET_LEN = errors.no_error →
      h.body_size + 1 = h.m_size.toNat ∧ h.body_size < h.m_size.toNat) := by
  have hlt : h.m_size.toNat < 2 ^ 32 := h.m_size.val.isLt
  have key : h.check_packet MAX_ED2K_PACKET_LEN = errors.no_error ↔
      (h.m_protocol.toNat = 0xE3 ∨ h.m_protocol.toNat = 0xD4 ∨
        h.m_protocol.toNat = 0xC5 ∨ h.m_protocol.toNat = 0xE4) ∧
      1 ≤ h.m_size.toNat ∧ h.m_size.toNat ≤ MAX_ED2K_PACKET_LEN := by
    unfold libed2k_header.check_packet
    split <;> simp_all <;> omega
  refine ⟨key, ?_, ?_, ?_, ?_, ?_⟩
  · intro hp
    unfold libed2k_header.check_packet
    rw [hp]
  · intro hp
    unfold libed2k_header.check_packet
    rw [hp]
  · intro hp
    unfold libed2k_header.check_packet
    rw [hp]
  · intro h1 h2 h3 h4 h5 h6 h7
    unfold libed2k_header.check_packet
    split <;> first | rfl | contradiction
  · intro hok
    have hs := (key.mp hok).2.1
    unfold libed2k_header.body_size
    have e : h.m_size.toNat + 2 ^ 32 - 1 = (h.m_size.toNat - 1) + 2 ^ 32 := by omega
    rw [e, Nat.add_mod_right, Nat.mod_eq_of_lt (by omega)]
    omega

/-! ### `container_holder` -/

theorem save_elems_length {α : Type} (save_elem : α → α × List UInt8) (xs : List α) :
    (save_elems save_elem xs).1.length = xs.length := by
  induction xs with
  | nil => rfl
  | cons x xs ih => simp [save_elems, ih]

theorem resize_length {α : Type} (dflt : α) (xs : List α) (n : Nat) :
    (resize dflt xs n).length = n := by
  unfold resize
  rw [List.length_append, List.length_take, List.length_replicate]
  omega

theorem load_elems_save_elems {α : Type} (save_elem : α → α × List UInt8)
    (load_elem : α → List UInt8 → iresult α)
    (hrt : ∀ (t a : α) (rest : List UInt8),
      load_elem t ((save_elem a).2 ++ rest) = ⟨errors.no_error, a, rest⟩)
    (xs slots : List α) (rest : List UInt8) (hlen : slots.length = xs.length) :
    load_elems load_elem slots ((save_elems save_elem xs).2 ++ rest) =
      ⟨errors.no_error, xs, rest⟩ := by
  induction xs generalizing slots with
  | nil =>
    have hs : slots = [] := List.length_eq_zero.mp hlen
    subst hs
    rfl
  | cons x xs ih =>
    cases slots with
    | nil => simp at hlen
    | cons t ts =>
      have hts : ts.length = xs.length := by simpa using hlen
      simp only [save_elems, load_elems, List.append_assoc, hrt, ih ts hts]
      simp

theorem container_holder_save_bytes {α : Type} (w : Nat) (save_elem : α → α × List UInt8)
    (h : container_holder α) :
    (h.save w save_elem).2 =
      save_uint w (h.m_collection.length % 2 ^ (8 * w)) ++
        (save_elems save_elem h.m_collection).2 := rfl

/-- C6: for every holder, prefix width `w`, element loader and input whose first
`w` bytes read as an unsigned integer greater than `MAX_COLLECTION_SIZE`, `load`
fails with `decode_packet_error`, its collection is untouched (nothing was
allocated) and the unread input is everything after the prefix (no element was
read). -/
theorem container_holder_load_oversize {α : Type} (w MAX_COLLECTION_SIZE : Nat) (dflt : α)
    (load_elem : α → List UInt8 → iresult α) (h : container_holder α)
    (pre rest : List UInt8) (hlen : pre.length = w)
    (hbig : le_value pre > MAX_COLLECTION_SIZE) :
    h.load w MAX_COLLECTION_SIZE dflt load_elem (pre ++ rest) =
      ⟨errors.decode_packet_error, ⟨le_value pre, h.m_collection⟩, rest⟩ := by
  unfold container_holder.load
  simp only [load_uint_append w h.m_size pre rest hlen]
  rw [if_neg (by simp), if_pos hbig]

/-- Witness of `container_holder_load_oversize`: the oversize string container of
the unit test (prefix `02 00 00 0F`, 32-bit width) with a limit of 65,536. -/
theorem container_holder_load_oversize_witness :
    (⟨0, []⟩ : container_holder UInt8).load 4 65536 0
        load_char
        ([0x02, 0x00, 0x00, 0x0F] ++ [0x30, 0x31, 0x11, 0x11, 0x11, 0x11, 0x11]) =
      ⟨errors.decode_packet_error, ⟨le_value [0x02, 0x00, 0x00, 0x0F], []⟩,
        [0x30, 0x31, 0x11, 0x11, 0x11, 0x11, 0x11]⟩ :=
  container_holder_load_oversize 4 65536 0 load_char ⟨0, []⟩ [0x02, 0x00, 0x00, 0x0F] _ rfl
    (by decide)

/-- C7: for every holder whose collection has `n ≤ MAX_COLLECTION_SIZE` elements,
`n` representable in the `w`-byte length prefix, and whose elements round-trip,
loading (into any holder) the bytes written by `save` succeeds, yields the same
elements in the same order with `m_size = n`, and leaves unread exactly the bytes
that follow the written ones. -/
theorem container_holder_roundtrip {α : Type} (w MAX_COLLECTION_SIZE : Nat) (dflt : α)
    (save_elem : α → α × List UInt8) (load_elem : α → List UInt8 → iresult α)
    (h h0 : container_holder α) (rest : List UInt8)
    (hmax : h.m_collection.length ≤ MAX_COLLECTION_SIZE)
    (hrep : h.m_collection.length < 2 ^ (8 * w))
    (hrt : ∀ (t a : α) (rest : List UInt8),
      load_elem t ((save_elem a).2 ++ rest) = ⟨errors.no_error, a, rest⟩) :
    h0.load w MAX_COLLECTION_SIZE dflt load_elem ((h.save w save_elem).2 ++ rest) =
      ⟨errors.no_error, ⟨h.m_collection.length, h.m_collection⟩, rest⟩ := by
  rw [container_holder_save_bytes, Nat.mod_eq_of_lt hrep, List.append_assoc]
  unfold container_holder.load
  simp only [load_uint_save_uint, Nat.mod_eq_of_lt hrep]
  rw [if_neg (by simp), if_neg (by omega)]
  simp only [load_elems_save_elems save_elem load_elem hrt h.m_collection
    (resize dflt h0.m_collection h.m_collection.length) rest (resize_length _ _ _)]

/-- Witness of `container_holder_roundtrip`: the string "01" in a holder with a
32-bit length prefix, loaded into an empty holder. -/
theorem container_holder_roundtrip_witness :
    (⟨0, []⟩ : container_holder UInt8).load 4 65536 0 load_char
        (((⟨0, [0x30, 0x31]⟩ : container_holder UInt8).save 4 save_char).2 ++ [0xFF]) =
      ⟨errors.no_error, ⟨2, [0x30, 0x31]⟩, [0xFF]⟩ :=
  container_holder_roundtrip 4 65536 0 save_char load_char ⟨0, [0x30, 0x31]⟩ ⟨0, []⟩ [0xFF]
    (by decide) (by decide) (fun _ _ _ => rfl)

/-- The length prefix that `save` writes reads back as the collection size modulo
`2 ^ (8 * w)`, and what follows it is the serialized elements. -/
theorem container_holder_save_count {α : Type} (w t : Nat) (save_elem : α → α × List UInt8)
    (h : container_holder α) :
    load_uint w t (h.save w save_elem).2 =
      ⟨errors.no_error, h.m_collection.length % 2 ^ (8 * w),
        (save_elems save_elem h.m_collection).2⟩ := by
  rw [container_holder_save_bytes, load_uint_save_uint, Nat.mod_mod]

/-- C8, as stated, fails: a `server_list` (8-bit length prefix) of 256 network
points is saved with the length prefix 0, followed by all 256 serialized elements. -/
theorem container_holder_save_count_counterexample :
    (load_uint 1 0
      ((⟨0, List.replicate 256 ⟨0, 0⟩⟩ : container_holder net_identifier).save 1
        net_identifier.save).2).value = 0 ∧
    (load_uint 1 0
      ((⟨0, List.replicate 256 ⟨0, 0⟩⟩ : container_holder net_identifier).save 1
        net_identifier.save).2).rest =
      (save_elems net_identifier.save (List.replicate 256 ⟨0, 0⟩)).2 ∧
    (save_elems net_identifier.save (List.replicate 256 ⟨0, 0⟩)).1.length = 256 := by
  rw [container_holder_save_count, save_elems_length]
  simp only [List.length_replicate]
  decide

/-- C8, amended: for every holder whose number of elements `n` is representable in
the `w`-byte length prefix (`n < 2 ^ (8 * w)`), `save` writes a length prefix whose
value is `n`, the number of serialized elements that follow it, and sets `m_size`
to `n`. -/
theorem container_holder_save_count_eq {α : Type} (w t : Nat)
    (save_elem : α → α × List UInt8) (h : container_holder α)
    (hrep : h.m_collection.length < 2 ^ (8 * w)) :
    load_uint w t (h.save w save_elem).2 =
      ⟨errors.no_error, h.m_collection.length, (save_elems save_elem h.m_collection).2⟩ ∧
    (save_elems save_elem h.m_collection).1.length = h.m_collection.length ∧
    (h.save w save_elem).1.m_size = h.m_collection.length := by
  refine ⟨?_, save_elems_length _ _, ?_⟩
  · rw [container_holder_save_count, Nat.mod_eq_of_lt hrep]
  · show h.m_collection.length % 2 ^ (8 * w) = h.m_collection.length
    exact Nat.mod_eq_of_lt hrep

/-- Witness of `container_holder_save_count_eq`: a `server_list` of two network
points. -/
theorem container_holder_save_count_eq_witness :
    load_uint 1 0 ((⟨0, [⟨1, 2⟩, ⟨3, 4⟩]⟩ : container_holder net_identifier).save 1
        net_identifier.save).2 =
      ⟨errors.no_error, ([⟨1, 2⟩, ⟨3, 4⟩] : List net_identifier).length,
        (save_elems net_identifier.save [⟨1, 2⟩, ⟨3, 4⟩]).2⟩ ∧
    (save_elems net_identifier.save [⟨1, 2⟩, ⟨3, 4⟩]).1.length =
      ([⟨1, 2⟩, ⟨3, 4⟩] : List net_identifier).length ∧
    ((⟨0, [⟨1, 2⟩, ⟨3, 4⟩]⟩ : container_holder net_identifier).save 1
        net_identifier.save).1.m_size = ([⟨1, 2⟩, ⟨3, 4⟩] : List net_identifier).length :=
  container_holder_save_count_eq 1 0 net_identifier.save ⟨0, [⟨1, 2⟩, ⟨3, 4⟩]⟩ (by decide)

/-! ### `get_file_sources` -/

theorem save_uint_add (a b v : Nat) :
    save_uint (a + b) v = save_uint a v ++ save_uint b (v / 2 ^ (8 * a)) := by
  induction a generalizing v with
  | zero => simp [save_uint]
  | succ a ih =>
    have e : a + 1 + b = (a + b) + 1 := by omega
    have h2 : 2 ^ (8 * (a + 1)) = 256 * 2 ^ (8 * a) := by
      rw [Nat.mul_succ, Nat.pow_add, Nat.mul_comm]
    rw [e]
    simp only [save_uint, ih, List.cons_append, h2, Nat.div_div_eq_div_mul]

theorem save_uint_of_le_value (w v : Nat) (pre : List UInt8) (hlen : pre.length = w)
    (hv : le_value pre = v) : save_uint w v = pre := by
  induction w generalizing v pre with
  | zero =>
    have hp : pre = [] := List.length_eq_zero.mp hlen
    subst hp
    rfl
  | succ w ih =>
    cases pre with
    | nil => simp at hlen
    | cons b bs =>
      have hb : b.toNat < 256 := b.val.isLt
      simp only [le_value] at hv
      have hbs : bs.length = w := by simpa using hlen
      have h1 : v % 256 = b.toNat := by omega
      have h2 : v / 256 = le_value bs := by omega
      have h3 : UInt8.ofNat b.toNat = b := by
        cases b with
        | mk val => simp [UInt8.ofNat, UInt8.toNat]
      simp only [save_uint, h1, h3, ih (v / 256) bs hbs h2.symm]

theorem save_uint_mod (w v : Nat) : save_uint w (v % 2 ^ (8 * w)) = save_uint w v :=
  save_uint_of_le_value w _ _ (save_uint_length w v) (le_value_save_uint w v)

theorem uint32_ofNat_toNat (x : UInt32) : UInt32.ofNat x.toNat = x := by
  cases x with
  | mk val => simp [UInt32.ofNat, UInt32.toNat]

theorem uint32_eq_zero (x : UInt32) (h : x.toNat = 0) : x = 0 := by
  rw [← uint32_ofNat_toNat x, h]
  rfl

theorem md4_hash_load_save (t h : md4_hash) (rest : List UInt8) :
    t.load (h.save ++ rest) = ⟨errors.no_error, h, rest⟩ := by
  have hl : h.m_hash.length = MD4_DIGEST_LENGTH := h.size_ok
  have h1 : MD4_DIGEST_LENGTH ≤ (h.m_hash ++ rest).length := by
    rw [List.length_append]
    omega
  unfold md4_hash.load md4_hash.save
  rw [dif_pos h1]
  have e1 : List.take MD4_DIGEST_LENGTH (h.m_hash ++ rest) = h.m_hash := List.take_left' hl
  have e2 : List.drop MD4_DIGEST_LENGTH (h.m_hash ++ rest) = rest := List.drop_left' hl
  cases h with
  | mk bytes ok =>
    simp only at e1 e2
    simp only [e1, e2]

/-- C9, as stated, fails: the encoding of a `get_file_sources` with size `2 ^ 32`,
decoded into a freshly constructed message whose size is zero, yields size 0 and
leaves eight bytes unread. -/
theorem get_file_sources_roundtrip_counterexample :
    (⟨md4_hash.invalid, __file_size.ofQuadPart 4294967296⟩ : get_file_sources).m_file_size.nQuadPart
      = 4294967296 ∧
    ((⟨md4_hash.invalid, __file_size.ofQuadPart 0⟩ : get_file_sources).load
      (get_file_sources.save ⟨md4_hash.invalid, __file_size.ofQuadPart 4294967296⟩)).value.m_file_size.nQuadPart
      = 0 ∧
    ((⟨md4_hash.invalid, __file_size.ofQuadPart 0⟩ : get_file_sources).load
      (get_file_sources.save ⟨md4_hash.invalid, __file_size.ofQuadPart 4294967296⟩)).rest.length
      = 8 := by
  decide

theorem file_size_high_zero (f : __file_size) (h : f.nQuadPart < 2 ^ 32) :
    f.nHighPart.toNat = 0 := by
  unfold __file_size.nQuadPart at h
  omega

theorem file_size_high_pos (f : __file_size) (h : 2 ^ 32 ≤ f.nQuadPart) :
    f.nHighPart.toNat > 0 := by
  have hl : f.nLowPart.toNat < 2 ^ 32 := f.nLowPart.val.isLt
  unfold __file_size.nQuadPart at h
  omega

/-- C9, amended: for every file hash `h` and every file size `s < 2 ^ 32`, decoding
the bytes produced by encoding `get_file_sources{h, s}` into a `get_file_sources`
whose size field is zero yields hash `h` and size `s`, and consumes exactly the
encoded bytes. -/
theorem get_file_sources_roundtrip (g g0 : get_file_sources) (rest : List UInt8)
    (hsmall : g.m_file_size.nQuadPart < 2 ^ 32)
    (hfresh : g0.m_file_size.nQuadPart = 0) :
    g0.load (g.save ++ rest) = ⟨errors.no_error, g, rest⟩ := by
  have hg : g.m_file_size.nHighPart.toNat = 0 := file_size_high_zero _ hsmall
  have h0 : g0.m_file_size.nHighPart.toNat = 0 :=
    file_size_high_zero _ (by rw [hfresh]; decide)
  have hgz : g.m_file_size.nHighPart = g0.m_file_size.nHighPart := by
    rw [uint32_eq_zero _ hg, uint32_eq_zero _ h0]
  have hlow : g.m_file_size.nLowPart.toNat < 2 ^ (8 * 4) := g.m_file_size.nLowPart.val.isLt
  have hsave : g.save = g.m_hFile.save ++ save_uint 4 g.m_file_size.nLowPart.toNat := by
    unfold get_file_sources.save __file_size.save
    simp only [hg, gt_iff_lt, Nat.lt_irrefl, if_false, List.append_nil]
  have hfs : g0.m_file_size.load (save_uint 4 g.m_file_size.nLowPart.toNat ++ rest) =
      ⟨errors.no_error, g.m_file_size, rest⟩ := by
    unfold __file_size.load
    simp only [h0, gt_iff_lt, Nat.lt_irrefl, if_false, load_uint_save_uint,
      Nat.mod_eq_of_lt hlow, uint32_ofNat_toNat, ne_eq, not_true_eq_false]
    rw [← hgz]
  unfold get_file_sources.load
  simp only [hsave, List.append_assoc, md4_hash_load_save, h0, gt_iff_lt, Nat.lt_irrefl,
    if_false, ne_eq, not_true_eq_false, hfs]

/-- Witness of `get_file_sources_roundtrip`: size 1000, decoded into a message with
size zero. -/
theorem get_file_sources_roundtrip_witness :
    (⟨md4_hash.invalid, ⟨0, 0⟩⟩ : get_file_sources).load
        (get_file_sources.save ⟨md4_hash.invalid, ⟨1000, 0⟩⟩ ++ []) =
      ⟨errors.no_error, ⟨md4_hash.invalid, ⟨1000, 0⟩⟩, []⟩ :=
  get_file_sources_roundtrip ⟨md4_hash.invalid, ⟨1000, 0⟩⟩ ⟨md4_hash.invalid, ⟨0, 0⟩⟩ []
    (by decide) (by decide)

/-- C10: for every `get_file_sources` message with hash `h` and 64-bit size `s`: if
`s < 2 ^ 32` the encoding is the 16 bytes of `h` followed by `s` as a 4-byte
little-endian integer, 20 bytes in all; if `s ≥ 2 ^ 32` it is the 16 bytes of `h`,
four zero bytes, then `s` as an 8-byte little-endian integer, 28 bytes in all. -/
theorem get_file_sources_encoding (g : get_file_sources) :
    (g.m_file_size.nQuadPart < 2 ^ 32 →
      g.save = g.m_hFile.m_hash ++ save_uint 4 g.m_file_size.nQuadPart ∧
      le_value (save_uint 4 g.m_file_size.nQuadPart) = g.m_file_size.nQuadPart ∧
      g.save.length = 20) ∧
    (2 ^ 32 ≤ g.m_file_size.nQuadPart →
      g.save = g.m_hFile.m_hash ++ [0, 0, 0, 0] ++ save_uint 8 g.m_file_size.nQuadPart ∧
      le_value (save_uint 8 g.m_file_size.nQuadPart) = g.m_file_size.nQuadPart ∧
      g.save.length = 28) := by
  have hl : g.m_file_size.nLowPart.toNat < 2 ^ 32 := g.m_file_size.nLowPart.val.isLt
  have hh : g.m_file_size.nHighPart.toNat < 2 ^ 32 := g.m_file_size.nHighPart.val.isLt
  have hlen : g.m_hFile.m_hash.length = 16 := g.m_hFile.size_ok
  constructor
  · intro hs
    have hg : g.m_file_size.nHighPart.toNat = 0 := file_size_high_zero _ hs
    have hq : g.m_file_size.nQuadPart = g.m_file_size.nLowPart.toNat := by
      unfold __file_size.nQuadPart
      omega
    have e : g.save = g.m_hFile.m_hash ++ save_uint 4 g.m_file_size.nQuadPart := by
      unfold get_file_sources.save __file_size.save md4_hash.save
      simp only [hg, gt_iff_lt, Nat.lt_irrefl, if_false, List.append_nil, hq]
    refine ⟨e, ?_, ?_⟩
    · rw [le_value_save_uint]
      exact Nat.mod_eq_of_lt (by omega)
    · rw [e, List.length_append, save_uint_length, hlen]
  · intro hs
    have hg : g.m_file_size.nHighPart.toNat > 0 := file_size_high_pos _ hs
    have hq : g.m_file_size.nQuadPart < 2 ^ (8 * 8) := by
      unfold __file_size.nQuadPart
      omega
    have hdiv : g.m_file_size.nQuadPart / 2 ^ (8 * 4) = g.m_file_size.nHighPart.toNat := by
      unfold __file_size.nQuadPart
      omega
    have hlo : save_uint 4 g.m_file_size.nQuadPart = save_uint 4 g.m_file_size.nLowPart.toNat := by
      rw [← save_uint_mod 4 g.m_file_size.nQuadPart]
      congr 1
      unfold __file_size.nQuadPart
      omega
    have e : g.save =
        g.m_hFile.m_hash ++ [0, 0, 0, 0] ++ save_uint 8 g.m_file_size.nQuadPart := by
      rw [show (8 : Nat) = 4 + 4 from rfl, save_uint_add, hdiv, hlo]
      unfold get_file_sources.save __file_size.save md4_hash.save
      simp only [hg, if_true, List.append_assoc]
      rfl
    refine ⟨e, ?_, ?_⟩
    · rw [le_value_save_uint]
      exact Nat.mod_eq_of_lt hq
    · rw [e, List.length_append, List.length_append, save_uint_length, hlen]
      rfl

/-! ### `file2atp` -/

theorem readv_length (f : file) (off len : Nat) : (f.readv off len).length = len := by
  simp [file.readv]

theorem readv_add (f : file) (off a b : Nat) :
    f.readv off (a + b) = f.readv off a ++ f.readv (off + a) b := by
  simp [file.readv, List.range_add, List.map_append, List.map_map, Function.comp_def,
    Nat.add_assoc]

theorem hash_blocks_readable {σ : Type} (H : hasher σ) (f : file) (cancel : Nat → Bool)
    (hread : ∀ off, f.readv_ec off = errors.no_error) (hcancel : ∀ off, cancel off = false)
    (ipc : Nat) : ∀ (st : σ) (cap off : Nat),
    ∃ blocks : List (List UInt8), blocks.flatten = f.readv off ipc ∧
      (∀ b ∈ blocks, 0 < b.length ∧ b.length ≤ BLOCK_SIZE) ∧
      hash_blocks H f cancel ipc st cap off =
        ⟨errors.no_error, blocks.foldl H.update st, cap - ipc, off + ipc⟩ := by
  induction ipc using Nat.strong_induction_on with
  | _ ipc ih =>
    intro st cap off
    by_cases hpos : ipc > 0
    · have hb : 0 < BLOCK_SIZE := by decide
      have hlt : ipc - min BLOCK_SIZE ipc < ipc := by omega
      obtain ⟨bs, hflat, hall, heq⟩ := ih (ipc - min BLOCK_SIZE ipc) hlt
        (H.update st (f.readv off (min BLOCK_SIZE ipc))) (cap - min BLOCK_SIZE ipc)
        (off + min BLOCK_SIZE ipc)
      refine ⟨f.readv off (min BLOCK_SIZE ipc) :: bs, ?_, ?_, ?_⟩
      · rw [List.flatten_cons, hflat, ← readv_add]
        congr 1
        omega
      · intro b hmem
        rcases List.mem_cons.mp hmem with h1 | h1
        · rw [h1, readv_length]
          omega
        · exact hall b h1
      · rw [hash_blocks, dif_pos hpos]
        simp only [hread, hcancel, heq, List.foldl_cons]
        simp
        constructor <;> omega
    · have hz : ipc = 0 := by omega
      subst hz
      refine ⟨[], ?_, ?_, ?_⟩
      · simp [file.readv]
      · intro b hmem
        cases hmem
      · rw [hash_blocks, dif_neg hpos]
        rfl

theorem set_split {α : Type} (l : List α) (i n : Nat) (d : α) (X : List α) (hi : i < l.length) :
    (l.set i d).take (i + 1) ++ X ++ (l.set i d).drop (i + 1 + n) =
      l.take i ++ (d :: X) ++ l.drop (i + (n + 1)) := by
  induction l generalizing i with
  | nil => simp at hi
  | cons a t ih =>
    cases i with
    | zero =>
      simp only [List.set_cons_zero, List.take_succ_cons, List.take_zero, List.nil_append,
        List.cons_append, Nat.zero_add]
      rw [Nat.add_comm 1 n, List.drop_succ_cons, List.drop_succ_cons]
    | succ i =>
      have hi2 : i < t.length := by simpa using hi
      have e1 : i + 1 + 1 + n = (i + 1 + n) + 1 := by omega
      have e2 : i + 1 + (n + 1) = (i + (n + 1)) + 1 := by omega
      rw [e1, e2]
      simp only [List.set_cons_succ, List.take_succ_cons, List.drop_succ_cons, List.cons_append]
      rw [← List.cons_append, ← List.cons_append] 
      have := ih i hi2
      simp only [List.cons_append, List.append_assoc] at this ⊢
      rw [this]

theorem hash_pieces_readable {σ : Type} (H : hasher σ) (f : file) (cancel : Nat → Bool)
    (hread : ∀ off, f.readv_ec off = errors.no_error) (hcancel : ∀ off, cancel off = false)
    (L n : Nat) : ∀ (i : Nat) (hashes : List md4_hash) (cap off : Nat),
    (n ≠ 0 → cap = L - i * PIECE_SIZE ∧ off = i * PIECE_SIZE ∧ (i + n - 1) * PIECE_SIZE < L) →
    i + n ≤ hashes.length →
    hash_pieces H f cancel n i hashes cap off =
      (errors.no_error,
        hashes.take i ++ (List.range' i n).map (piece_hash_at H f cancel L) ++
          hashes.drop (i + n)) := by
  induction n with
  | zero =>
    intro i hashes cap off _ _
    simp [hash_pieces]
  | succ n ih =>
    intro i hashes cap off hinv hlen
    obtain ⟨hcap, hoff, hlast⟩ := hinv (Nat.succ_ne_zero n)
    obtain ⟨bs, _, _, heq⟩ := hash_blocks_readable H f cancel hread hcancel
      (min PIECE_SIZE cap) H.init cap off
    have hd : H.final (hash_blocks H f cancel (min PIECE_SIZE cap) H.init cap off).piece_hash =
        piece_hash_at H f cancel L i := by
      unfold piece_hash_at
      rw [hcap, hoff]
    rw [hash_pieces]
    simp only [hd]
    simp only [heq, ne_eq, not_true_eq_false, if_false]
    rw [ih (i + 1) (hashes.set i (piece_hash_at H f cancel L i))]
    · rw [List.range'_succ, List.map_cons]
      rw [set_split hashes i n _ _ (by omega)]
    · intro hn
      simp only [PIECE_SIZE] at hcap hoff hlast ⊢
      refine ⟨?_, ?_, ?_⟩ <;> omega
    · rw [List.length_set]
      omega

theorem hash_bytes_length (hashes : List md4_hash) :
    (hash_bytes hashes).length = hashes.length * MD4_DIGEST_LENGTH := by
  induction hashes with
  | nil => rfl
  | cons h t ih =>
    simp only [hash_bytes, List.map_cons, List.flatten_cons, List.length_append,
      List.length_cons] at ih ⊢
    rw [ih, h.size_ok, Nat.succ_mul]
    omega

theorem hash_bytes_take (hashes : List md4_hash) :
    (hash_bytes hashes).take (hashes.length * MD4_DIGEST_LENGTH) = hash_bytes hashes :=
  List.take_of_length_le (by rw [hash_bytes_length])

theorem file2atp_readable {σ : Type} (H : hasher σ) (terminal : md4_hash) (filepath : String)
    (f : file) (cancel : Nat → Bool) (hr : readable f cancel) (hsize : f.size ≠ 0)
    (pc : Nat) (hpc : to_int (div_ceil f.size PIECE_SIZE) = (pc : Int)) (hpos : 0 < pc)
    (hlast : (pc - 1) * PIECE_SIZE < f.size) :
    ∃ atp : add_transfer_params,
      file2atp H terminal filepath f cancel = some (atp, errors.no_error) ∧
      atp.file_path = filepath ∧ atp.file_size = f.size ∧ atp.seed_mode = true ∧
      atp.piece_hashses = (List.range pc).map (piece_hash_at H f cancel f.size) ++
        (if pc * PIECE_SIZE = f.size then [terminal] else []) ∧
      atp.file_hash = (if atp.piece_hashses.length > 1 then
          H.final (H.update H.init (hash_bytes atp.piece_hashses))
        else atp.piece_hashses.headD md4_hash.invalid) := by
  obtain ⟨hopen, hsz, hread, hcancel⟩ := hr
  have hloop := hash_pieces_readable H f cancel hread hcancel f.size pc 0
    (resize md4_hash.invalid [] pc) f.size 0
    (fun _ => ⟨by simp, by simp, by simpa using hlast⟩)
    (by rw [resize_length]; omega)
  have hres : (resize md4_hash.invalid [] pc).drop (0 + pc) = [] :=
    List.drop_of_length_le (by rw [resize_length]; omega)
  rw [hres] at hloop
  simp only [List.take_zero, List.nil_append, List.append_nil, ← List.range_eq_range'] at hloop
  have hcond : ((pc : Int) * (PIECE_SIZE : Int) = (f.size : Int)) ↔ pc * PIECE_SIZE = f.size := by
    constructor
    · intro h
      exact_mod_cast h
    · intro h
      exact_mod_cast h
  have hnot : ¬ ((pc : Int) ≤ 0) := by omega
  unfold file2atp
  simp only [hopen, hsz, if_true, hpc, Int.toNat_ofNat, hloop, true_and, ne_eq, hsize,
    not_false_eq_true, not_true_eq_false, if_false, hnot, hcond, hash_bytes_take]
  by_cases hterm : pc * PIECE_SIZE = f.size
  · simp only [hterm, if_true]
    exact ⟨_, rfl, rfl, rfl, rfl, rfl, rfl⟩
  · simp only [hterm, if_false, List.append_nil]
    exact ⟨_, rfl, rfl, rfl, rfl, rfl, rfl⟩

theorem piece_hash_at_digest {σ : Type} (H : hasher σ) (f : file) (cancel : Nat → Bool)
    (hr : readable f cancel) (L j : Nat) :
    streamed_digest H (f.readv (j * PIECE_SIZE) (min PIECE_SIZE (L - j * PIECE_SIZE)))
      (piece_hash_at H f cancel L j) := by
  obtain ⟨bs, hflat, hall, heq⟩ := hash_blocks_readable H f cancel hr.2.2.1 hr.2.2.2
    (min PIECE_SIZE (L - j * PIECE_SIZE)) H.init (L - j * PIECE_SIZE) (j * PIECE_SIZE)
  refine ⟨bs, hflat, hall, ?_⟩
  unfold piece_hash_at
  rw [heq]

theorem foldl_update_append {σ : Type} (H : hasher σ)
    (hlaw : ∀ (s : σ) (a b : List UInt8), H.update (H.update s a) b = H.update s (a ++ b))
    (bs : List (List UInt8)) : ∀ (s : σ) (b : List UInt8),
    bs.foldl H.update (H.update s b) = H.update s (b ++ bs.flatten) := by
  induction bs with
  | nil =>
    intro s b
    simp
  | cons c cs ih =>
    intro s b
    rw [List.foldl_cons, hlaw, ih, List.flatten_cons, List.append_assoc]

theorem to_int_of_lt (x : Nat) (h : x < 2 ^ 31) : to_int x = (x : Int) := by
  unfold to_int
  have e : x % 2 ^ 32 = x := Nat.mod_eq_of_lt (by omega)
  rw [e, if_pos h]

theorem div_ceil_bounds (L : Nat) (hpos : 0 < L) :
    0 < div_ceil L PIECE_SIZE ∧ (div_ceil L PIECE_SIZE - 1) * PIECE_SIZE < L ∧
    L ≤ div_ceil L PIECE_SIZE * PIECE_SIZE ∧
    (div_ceil L PIECE_SIZE * PIECE_SIZE = L ↔ L % PIECE_SIZE = 0) := by
  simp only [div_ceil, PIECE_SIZE]
  omega

/-- C1, as stated, fails: a readable file of `2 ^ 32 * PIECE_SIZE + 1` bytes has
`ceil(L/P) = 2 ^ 32 + 1` pieces, the 32-bit `pieces_count` is 1, and `file2atp`
returns without error a list of one piece hash. -/
theorem file2atp_piece_count_counterexample :
    ∃ atp : add_transfer_params,
      file2atp null_hasher md4_hash.invalid "f" (zero_file (4294967296 * 9728000 + 1))
        (fun _ => false) = some (atp, errors.no_error) ∧
      atp.piece_hashses.length = 1 ∧
      div_ceil (4294967296 * 9728000 + 1) PIECE_SIZE +
        (if (4294967296 * 9728000 + 1) % PIECE_SIZE = 0 then 1 else 0) = 4294967297 := by
  obtain ⟨atp, h1, _, _, _, h2, _⟩ := file2atp_readable null_hasher md4_hash.invalid "f"
    (zero_file (4294967296 * 9728000 + 1)) (fun _ => false)
    ⟨rfl, rfl, fun _ => rfl, fun _ => rfl⟩ (by decide) 1 (by decide) (by decide) (by decide)
  refine ⟨atp, h1, ?_, by decide⟩
  rw [h2, if_neg (by decide)]
  rfl

/-- C1, amended: for every readable file of length `0 < L ≤ (2 ^ 31 - 1) * P` (no
read error, not cancelled), so that the number of pieces fits the 32-bit
`pieces_count`, `file2atp` returns without error a piece-hash list with exactly
`ceil(L/P) + (1 if L mod P = 0, else 0)` elements, where `P = PIECE_SIZE`. -/
theorem file2atp_piece_count {σ : Type} (H : hasher σ) (terminal : md4_hash)
    (filepath : String) (f : file) (cancel : Nat → Bool) (hr : readable f cancel)
    (hpos : 0 < f.size) (hmax : f.size ≤ (2 ^ 31 - 1) * PIECE_SIZE) :
    ∃ atp : add_transfer_params,
      file2atp H terminal filepath f cancel = some (atp, errors.no_error) ∧
      atp.piece_hashses.length =
        div_ceil f.size PIECE_SIZE + (if f.size % PIECE_SIZE = 0 then 1 else 0) := by
  obtain ⟨h0, hlast, hle, hiff⟩ := div_ceil_bounds f.size hpos
  have hlt : div_ceil f.size PIECE_SIZE < 2 ^ 31 := by
    simp only [div_ceil, PIECE_SIZE] at hmax ⊢
    omega
  obtain ⟨atp, h1, _, _, _, h2, _⟩ := file2atp_readable H terminal filepath f cancel hr
    (by omega) (div_ceil f.size PIECE_SIZE) (to_int_of_lt _ hlt) h0 hlast
  refine ⟨atp, h1, ?_⟩
  rw [h2, List.length_append, List.length_map, List.length_range]
  by_cases hm : f.size % PIECE_SIZE = 0
  · rw [if_pos (hiff.mpr hm), if_pos hm]
    rfl
  · rw [if_neg (fun h => hm (hiff.mp h)), if_neg hm]
    rfl

/-- Witness of `file2atp_piece_count`: a readable file of 100 zero bytes. -/
theorem file2atp_piece_count_witness :
    ∃ atp : add_transfer_params,
      file2atp null_hasher md4_hash.invalid "f" (zero_file 100) (fun _ => false) =
        some (atp, errors.no_error) ∧
      atp.piece_hashses.length =
        div_ceil (zero_file 100).size PIECE_SIZE +
          (if (zero_file 100).size % PIECE_SIZE = 0 then 1 else 0) :=
  file2atp_piece_count null_hasher md4_hash.invalid "f" (zero_file 100) (fun _ => false)
    ⟨rfl, rfl, fun _ => rfl, fun _ => rfl⟩ (by decide) (by decide)

/-- C2, as stated, fails: a readable file of `(2 ^ 32 + 1) * PIECE_SIZE` bytes is a
positive multiple `k * P` with `k = 2 ^ 32 + 1`, the 32-bit `pieces_count` is 1, and
`file2atp` returns without error a list of one hash, not `k + 1`. -/
theorem file2atp_exact_multiple_counterexample :
    ∃ atp : add_transfer_params,
      file2atp null_hasher md4_hash.invalid "f" (zero_file (4294967297 * 9728000))
        (fun _ => false) = some (atp, errors.no_error) ∧
      (zero_file (4294967297 * 9728000)).size = 4294967297 * PIECE_SIZE ∧
      atp.piece_hashses.length = 1 := by
  obtain ⟨atp, h1, _, _, _, h2, _⟩ := file2atp_readable null_hasher md4_hash.invalid "f"
    (zero_file (4294967297 * 9728000)) (fun _ => false)
    ⟨rfl, rfl, fun _ => rfl, fun _ => rfl⟩ (by decide) 1 (by decide) (by decide) (by decide)
  refine ⟨atp, h1, by decide, ?_⟩
  rw [h2, if_neg (by decide)]
  rfl

/-- C2, amended: for every readable file whose length is a multiple `k * P` of the
piece size with `0 < k < 2 ^ 31`, `file2atp` returns without error the `k` piece
hashes (hash `i` being the digest of the bytes `[i * P, (i + 1) * P)` fed in blocks)
followed by the terminal hash as last element, and `file_hash` is the MD4 digest of
the concatenation of all `k + 1` list elements, terminal hash included. -/
theorem file2atp_exact_multiple {σ : Type} (H : hasher σ) (terminal : md4_hash)
    (filepath : String) (f : file) (cancel : Nat → Bool) (k : Nat)
    (hr : readable f cancel) (hk : 0 < k) (hk31 : k < 2 ^ 31)
    (hsize : f.size = k * PIECE_SIZE) :
    ∃ (atp : add_transfer_params) (pieces : List md4_hash),
      file2atp H terminal filepath f cancel = some (atp, errors.no_error) ∧
      pieces.length = k ∧
      (∀ i : Nat, i < k → ∃ d : md4_hash, pieces[i]? = some d ∧
        streamed_digest H (f.readv (i * PIECE_SIZE) PIECE_SIZE) d) ∧
      atp.piece_hashses = pieces ++ [terminal] ∧
      atp.file_hash = H.final (H.update H.init (hash_bytes (pieces ++ [terminal]))) := by
  have hdc : div_ceil f.size PIECE_SIZE = k := by
    rw [hsize]
    simp only [div_ceil, PIECE_SIZE]
    omega
  have hlast : (k - 1) * PIECE_SIZE < f.size := by
    rw [hsize]
    simp only [PIECE_SIZE]
    omega
  have hne : f.size ≠ 0 := by
    rw [hsize]
    simp only [PIECE_SIZE]
    omega
  obtain ⟨atp, h1, _, _, _, h2, h3⟩ := file2atp_readable H terminal filepath f cancel hr hne
    k (by rw [hdc]; exact to_int_of_lt k hk31) hk hlast
  rw [if_pos hsize.symm] at h2
  refine ⟨atp, (List.range k).map (piece_hash_at H f cancel f.size), h1, ?_, ?_, h2, ?_⟩
  · rw [List.length_map, List.length_range]
  · intro i hi
    refine ⟨piece_hash_at H f cancel f.size i, ?_, ?_⟩
    · rw [List.getElem?_map, List.getElem?_range hi]
      rfl
    · have hd := piece_hash_at_digest H f cancel hr f.size i
      have hmin : min PIECE_SIZE (f.size - i * PIECE_SIZE) = PIECE_SIZE := by
        rw [hsize]
        simp only [PIECE_SIZE]
        omega
      rw [hmin] at hd
      exact hd
  · rw [h3, h2, if_pos]
    rw [List.length_append, List.length_map, List.length_range]
    simp only [List.length_singleton]
    omega

/-- Witness of `file2atp_exact_multiple`: a readable file of exactly `PIECE_SIZE`
zero bytes. -/
theorem file2atp_exact_multiple_witness :
    ∃ (atp : add_transfer_params) (pieces : List md4_hash),
      file2atp null_hasher md4_hash.invalid "f" (zero_file 9728000) (fun _ => false) =
        some (atp, errors.no_error) ∧
      pieces.length = 1 ∧
      (∀ i : Nat, i < 1 → ∃ d : md4_hash, pieces[i]? = some d ∧
        streamed_digest null_hasher ((zero_file 9728000).readv (i * PIECE_SIZE) PIECE_SIZE) d) ∧
      atp.piece_hashses = pieces ++ [md4_hash.invalid] ∧
      atp.file_hash = null_hasher.final
        (null_hasher.update null_hasher.init (hash_bytes (pieces ++ [md4_hash.invalid]))) :=
  file2atp_exact_multiple null_hasher md4_hash.invalid "f" (zero_file 9728000)
    (fun _ => false) 1 ⟨rfl, rfl, fun _ => rfl, fun _ => rfl⟩ (by decide) (by decide)
    (by decide)

/-- C3: for every readable file of length `0 < L < PIECE_SIZE`, `file2atp` returns
without error exactly one piece hash; that hash is the digest of the whole file
content, fed to the hasher in order, in blocks of at most `BLOCK_SIZE` bytes, each
byte exactly once (so, for a streaming hasher, the digest of the content); and
`file_hash` equals that single piece hash. -/
theorem file2atp_single_piece {σ : Type} (H : hasher σ) (terminal : md4_hash)
    (filepath : String) (f : file) (cancel : Nat → Bool)
    (hr : readable f cancel) (hpos : 0 < f.size) (hlt : f.size < PIECE_SIZE) :
    ∃ (atp : add_transfer_params) (d : md4_hash),
      file2atp H terminal filepath f cancel = some (atp, errors.no_error) ∧
      atp.piece_hashses = [d] ∧
      streamed_digest H (f.readv 0 f.size) d ∧
      ((∀ (s : σ) (a b : List UInt8), H.update (H.update s a) b = H.update s (a ++ b)) →
        d = H.final (H.update H.init (f.readv 0 f.size))) ∧
      atp.file_hash = d := by
  have hdc : div_ceil f.size PIECE_SIZE = 1 := by
    simp only [div_ceil, PIECE_SIZE] at hlt ⊢
    omega
  obtain ⟨atp, h1, _, _, _, h2, h3⟩ := file2atp_readable H terminal filepath f cancel hr
    (by omega) 1 (by rw [hdc]; rfl) (by decide) (by simpa using hpos)
  have hnt : ¬ (1 * PIECE_SIZE = f.size) := by omega
  rw [if_neg hnt] at h2
  have hlist : atp.piece_hashses = [piece_hash_at H f cancel f.size 0] := by
    rw [h2]
    rfl
  have hd := piece_hash_at_digest H f cancel hr f.size 0
  have hmin : min PIECE_SIZE (f.size - 0 * PIECE_SIZE) = f.size := by omega
  rw [hmin, Nat.zero_mul] at hd
  refine ⟨atp, piece_hash_at H f cancel f.size 0, h1, hlist, hd, ?_, ?_⟩
  · intro hlaw
    obtain ⟨bs, hflat, hall, heq⟩ := hd
    cases bs with
    | nil =>
      have hlen := congrArg List.length hflat
      rw [readv_length] at hlen
      simp at hlen
      omega
    | cons b bs =>
      rw [heq, List.foldl_cons, foldl_update_append H hlaw, ← List.flatten_cons, hflat]
  · rw [h3, hlist]
    rfl

/-- Witness of `file2atp_single_piece`: a readable file of 100 zero bytes. -/
theorem file2atp_single_piece_witness :
    ∃ (atp : add_transfer_params) (d : md4_hash),
      file2atp null_hasher md4_hash.invalid "f" (zero_file 100) (fun _ => false) =
        some (atp, errors.no_error) ∧
      atp.piece_hashses = [d] ∧
      streamed_digest null_hasher ((zero_file 100).readv 0 (zero_file 100).size) d ∧
      ((∀ (s : Unit) (a b : List UInt8),
          null_hasher.update (null_hasher.update s a) b = null_hasher.update s (a ++ b)) →
        d = null_hasher.final
          (null_hasher.update null_hasher.init ((zero_file 100).readv 0 (zero_file 100).size))) ∧
      atp.file_hash = d :=
  file2atp_single_piece null_hasher md4_hash.invalid "f" (zero_file 100) (fun _ => false)
    ⟨rfl, rfl, fun _ => rfl, fun _ => rfl⟩ (by decide) (by decide)

/-! ### ed2k links -/

theorem index_of_append_cons (c : Char) (p r : List Char) (hp : c ∉ p) :
    index_of c (p ++ c :: r) = some p.length := by
  induction p with
  | nil => simp [index_of]
  | cons x xs ih =>
    have hx : x ≠ c := fun h => hp (by rw [h]; exact List.mem_cons_self _ _)
    have hxs : c ∉ xs := fun h => hp (List.mem_cons_of_mem _ h)
    simp [index_of, hx, ih hxs]

theorem find_from_at (c : Char) (pre mid rest : List Char) (hmid : c ∉ mid) :
    find_from c (pre ++ mid ++ c :: rest) pre.length = some (pre.length + mid.length) := by
  unfold find_from
  rw [List.append_assoc, List.drop_left, index_of_append_cons c mid rest hmid]

theorem substr_at (pre mid rest : List Char) :
    substr (pre ++ mid ++ rest) pre.length mid.length = mid := by
  unfold substr
  rw [List.append_assoc, List.drop_left, List.take_left]

theorem index_of_lt (c : Char) (s : List Char) (i : Nat) (h : index_of c s = some i) :
    i < s.length ∧ s[i]? = some c := by
  induction s generalizing i with
  | nil => simp [index_of] at h
  | cons x xs ih =>
    unfold index_of at h
    by_cases hx : x = c
    · rw [if_pos hx] at h
      cases h
      simp [hx]
    · rw [if_neg hx] at h
      cases hr : index_of c xs with
      | none => simp [hr] at h
      | some j =>
        simp only [hr, Option.some.injEq] at h
        subst h
        have h2 := ih j hr
        have h3 : xs[j] = c := by
          simpa [List.getElem?_eq_getElem h2.1] using h2.2
        simp [h2.1, h3]

theorem char_ofNat_toNat (n : Nat) (h : n < 128) : (Char.ofNat n).toNat = n := by
  interval_cases n <;> rfl

theorem dec_rev_digits (n : Nat) : ∀ c ∈ dec_rev n, 48 ≤ c.toNat ∧ c.toNat ≤ 57 := by
  induction n using Nat.strong_induction_on with
  | _ n ih =>
    intro c hc
    rw [dec_rev] at hc
    by_cases hn : n < 10
    · rw [if_pos hn, List.mem_singleton] at hc
      rw [hc, char_ofNat_toNat _ (by omega)]
      omega
    · rw [if_neg hn] at hc
      rcases List.mem_cons.mp hc with h1 | h1
      · rw [h1, char_ofNat_toNat _ (by omega)]
        omega
      · exact ih (n / 10) (by omega) c h1

theorem dec_rev_ne_nil (n : Nat) : dec_rev n ≠ [] := by
  rw [dec_rev]
  by_cases hn : n < 10
  · rw [if_pos hn]
    exact List.cons_ne_nil _ _
  · rw [if_neg hn]
    exact List.cons_ne_nil _ _

theorem dec_value_reverse (l : List Char) :
    dec_value l.reverse = l.foldr (fun c acc => 10 * acc + (c.toNat - 48)) 0 := by
  unfold dec_value
  rw [List.foldl_reverse]

theorem dec_value_dec_rev (n : Nat) : dec_value (dec_rev n).reverse = n := by
  rw [dec_value_reverse]
  induction n using Nat.strong_induction_on with
  | _ n ih =>
    rw [dec_rev]
    by_cases hn : n < 10
    · rw [if_pos hn]
      simp only [List.foldr_cons, List.foldr_nil]
      rw [char_ofNat_toNat _ (by omega)]
      omega
    · rw [if_neg hn]
      simp only [List.foldr_cons]
      rw [ih (n / 10) (by omega), char_ofNat_toNat _ (by omega)]
      omega

theorem digit_facts (c : Char) (h : 48 ≤ c.toNat ∧ c.toNat ≤ 57) :
    isdigit c = true ∧ isspace c = false ∧ c ≠ '|' ∧ c ≠ '-' ∧ c ≠ '+' := by
  have hne : ∀ d : Char, (d.toNat < 48 ∨ 57 < d.toNat) → c ≠ d := by
    intro d hd hcd
    rw [hcd] at h
    omega
  refine ⟨by simp [isdigit, h], ?_, hne _ (by decide), hne _ (by decide), hne _ (by decide)⟩
  simp only [isspace, Bool.decide_or, Bool.or_eq_false_iff, decide_eq_false_iff_not]
  exact ⟨hne _ (by decide), hne _ (by decide), hne _ (by decide), hne _ (by decide),
    hne _ (by decide), hne _ (by decide)⟩

theorem read_uint64_digits (ds : List Char) (hne : ds ≠ [])
    (hall : ∀ c ∈ ds, 48 ≤ c.toNat ∧ c.toNat ≤ 57) (hfit : dec_value ds < 2 ^ 64) :
    read_uint64 ds = some (dec_value ds) := by
  cases ds with
  | nil => exact absurd rfl hne
  | cons d t =>
    have hd := digit_facts d (hall d (List.mem_cons_self _ _))
    have h1 : (d :: t).dropWhile isspace = d :: t := by
      rw [List.dropWhile_cons, hd.2.1]
      rfl
    have h2 : (d :: t).takeWhile isdigit = d :: t := by
      rw [List.takeWhile_eq_self_iff]
      intro c hc
      exact (digit_facts c (hall c hc)).1
    have h3 : ¬ ((d :: t).head? = some '-') := by
      simp only [List.head?_cons, Option.some.injEq]
      exact hd.2.2.2.1
    have h4 : ¬ ((d :: t).head? = some '+') := by
      simp only [List.head?_cons, Option.some.injEq]
      exact hd.2.2.2.2
    unfold read_uint64
    simp only [h1, h3, h4, or_self, if_false, h2, decide_False, Bool.false_eq_true]
    rw [if_neg (List.cons_ne_nil _ _), if_neg (by omega)]

theorem read_uint64_show_int (s : Int) (hpos : 0 < s) (hlt : s < 2 ^ 63) :
    read_uint64 (show_int s) = some s.natAbs := by
  have hv := dec_value_dec_rev s.natAbs
  unfold show_int
  rw [if_neg (by omega), read_uint64_digits _ _ _ (by rw [hv]; omega), hv]
  · intro h
    exact dec_rev_ne_nil _ (List.reverse_eq_nil_iff.mp h)
  · intro c hc
    exact dec_rev_digits _ c (List.mem_reverse.mp hc)

theorem show_int_no_bar (s : Int) (hpos : 0 < s) : '|' ∉ show_int s := by
  unfold show_int
  rw [if_neg (by omega)]
  intro h
  exact (digit_facts _ (dec_rev_digits _ _ (List.mem_reverse.mp h))).2.2.1 rfl

theorem show_int_length_pos (s : Int) : 0 < (show_int s).length := by
  have h := dec_rev_ne_nil s.natAbs
  have h2 : 0 < (dec_rev s.natAbs).length := List.length_pos.mpr h
  unfold show_int
  split
  · simp
  · simpa using h2

theorem to_size_type_natAbs (s : Int) (hpos : 0 < s) (hlt : s < 2 ^ 63) :
    to_size_type s.natAbs = s := by
  unfold to_size_type
  have e : s.natAbs % 2 ^ 64 = s.natAbs := Nat.mod_eq_of_lt (by omega)
  rw [e, if_pos (by omega)]
  omega

theorem hex_value_hex_digit (n : Nat) (h : n < 16) : hex_value (hex_digit n) = some n := by
  interval_cases n <;> rfl

theorem hex_digit_ne_bar (n : Nat) (h : n < 16) : hex_digit n ≠ '|' := by
  interval_cases n <;> decide

theorem uint8_of_nibbles (b : UInt8) : UInt8.ofNat (16 * (b.toNat / 16) + b.toNat % 16) = b := by
  have e : 16 * (b.toNat / 16) + b.toNat % 16 = b.toNat := Nat.div_add_mod _ _
  rw [e]
  cases b with
  | mk val => simp [UInt8.ofNat, UInt8.toNat]

theorem from_hex_toString (bs : List UInt8) :
    from_hex ((bs.map (fun b => [hex_digit (b.toNat / 16), hex_digit (b.toNat % 16)])).flatten)
      = some bs := by
  induction bs with
  | nil => rfl
  | cons b t ih =>
    have hb : b.toNat < 256 := b.val.isLt
    have e : ([] : List Char).append
        (List.map (fun b : UInt8 => [hex_digit (b.toNat / 16), hex_digit (b.toNat % 16)]) t).flatten
        = (List.map (fun b : UInt8 => [hex_digit (b.toNat / 16), hex_digit (b.toNat % 16)]) t).flatten :=
      rfl
    simp only [List.map_cons, List.flatten_cons, List.cons_append, List.nil_append, from_hex,
      hex_value_hex_digit _ (show b.toNat / 16 < 16 by omega),
      hex_value_hex_digit _ (Nat.mod_lt _ (by decide)), e, ih, uint8_of_nibbles]

theorem toString_length (h : md4_hash) : h.toString.length = 32 := by
  have hl : h.m_hash.length = 16 := h.size_ok
  unfold md4_hash.toString
  rw [List.length_flatten, List.map_map]
  have e : (List.length ∘ fun b : UInt8 =>
      [hex_digit (b.toNat / 16), hex_digit (b.toNat % 16)]) = fun _ => 2 := rfl
  rw [e, List.map_const', List.sum_replicate, hl]
  rfl

theorem toString_no_bar (h : md4_hash) : '|' ∉ h.toString := by
  unfold md4_hash.toString
  intro hmem
  rw [List.mem_flatten] at hmem
  obtain ⟨l, hl, hc⟩ := hmem
  rw [List.mem_map] at hl
  obtain ⟨b, _, hb⟩ := hl
  have hlt : b.toNat < 256 := b.val.isLt
  rw [← hb] at hc
  simp only [List.mem_cons, List.mem_singleton, List.not_mem_nil, or_false] at hc
  rcases hc with h1 | h1
  · exact hex_digit_ne_bar _ (show b.toNat / 16 < 16 by omega) h1.symm
  · exact hex_digit_ne_bar _ (Nat.mod_lt _ (by decide)) h1.symm

theorem fromString_toString (h : md4_hash) : md4_hash.fromString h.toString = h := by
  unfold md4_hash.fromString md4_hash.toString
  rw [from_hex_toString]
  simp only [h.size_ok, dite_true]

/-- C11: for every non-empty file name without `|` on which `url_decode` is the
identity, every size `s > 0` (a signed 64-bit `size_type`) and every hash `h`,
`fromLink(toLink(name, s, h, false))` is the entry `(name, s, h)`; and the link
`ed2k://|file|xxx.avi|100|DB48A1C00CC972488C29D3FEC9F16A79|/` yields the name
`xxx.avi`, the size 100 and the hash `DB48A1C00CC972488C29D3FEC9F16A79`. -/
theorem fromLink_toLink (url_encode url_decode : List Char → List Char)
    (name : List Char) (s : Int) (h : md4_hash)
    (hname : name ≠ []) (hbar : '|' ∉ name) (hdec : url_decode name = name)
    (hpos : 0 < s) (hlt : s < 2 ^ 63) :
    fromLink url_decode (toLink url_encode name s h false) = ⟨name, s, h⟩ ∧
    (url_decode "xxx.avi".toList = "xxx.avi".toList →
      fromLink url_decode "ed2k://|file|xxx.avi|100|DB48A1C00CC972488C29D3FEC9F16A79|/".toList =
        ⟨"xxx.avi".toList, 100,
          ⟨[0xDB, 0x48, 0xA1, 0xC0, 0x0C, 0xC9, 0x72, 0x48, 0x8C, 0x29, 0xD3, 0xFE, 0xC9, 0xF1,
            0x6A, 0x79], rfl⟩⟩) := by
  constructor
  · have hd0 : 0 < (show_int s).length := show_int_length_pos s
    have hn0 : 0 < name.length := List.length_pos.mpr hname
    have hx : h.toString.length = 32 := toString_length h
    have hhead : link_head.length = 13 := rfl
    -- the three shapes of the link
    have e0 : toLink url_encode name s h false =
        link_head ++ name ++ '|' :: (show_int s ++ '|' :: (h.toString ++ ['|', '/'])) := by
      simp [toLink, List.append_assoc]
    have e1 : toLink url_encode name s h false =
        (link_head ++ name ++ ['|']) ++ show_int s ++ '|' :: (h.toString ++ ['|', '/']) := by
      simp [toLink, List.append_assoc]
    have e2 : toLink url_encode name s h false =
        (link_head ++ name ++ ['|'] ++ show_int s ++ ['|']) ++ h.toString ++ '|' :: ['/'] := by
      simp [toLink, List.append_assoc]
    have hlen : (toLink url_encode name s h false).length =
        13 + name.length + 1 + (show_int s).length + 1 + 32 + 2 := by
      rw [e0]
      simp only [List.length_append, List.length_cons, List.length_nil, hhead, hx]
      omega
    have l1 : (link_head ++ name ++ ['|']).length = 13 + name.length + 1 := by
      simp only [List.length_append, List.length_cons, List.length_nil, hhead]
    have l2 : (link_head ++ name ++ ['|'] ++ show_int s ++ ['|']).length =
        13 + name.length + 1 + (show_int s).length + 1 := by
      simp only [List.length_append, List.length_cons, List.length_nil, hhead]
    have f1 : find_from '|' (toLink url_encode name s h false) 13 = some (13 + name.length) := by
      rw [e0]
      exact find_from_at '|' link_head name _ hbar
    have f2 : find_from '|' (toLink url_encode name s h false) (13 + name.length + 1) =
        some (13 + name.length + 1 + (show_int s).length) := by
      rw [e1, ← l1]
      exact find_from_at '|' _ (show_int s) _ (show_int_no_bar s hpos)
    have f3 : find_from '|' (toLink url_encode name s h false)
        (13 + name.length + 1 + (show_int s).length + 1) =
        some (13 + name.length + 1 + (show_int s).length + 1 + 32) := by
      rw [e2, ← l2, ← hx]
      exact find_from_at '|' _ h.toString _ (toString_no_bar h)
    have s0 : substr (toLink url_encode name s h false) 0 13 = link_head := by
      rw [e0, List.append_assoc]
      have := substr_at [] link_head (name ++ '|' :: (show_int s ++ '|' :: (h.toString ++ ['|', '/'])))
      simpa [hhead] using this
    have s1 : substr (toLink url_encode name s h false) 13 (13 + name.length - 13) = name := by
      rw [e0, Nat.add_sub_cancel_left]
      exact substr_at link_head name _
    have s2 : substr (toLink url_encode name s h false) (13 + name.length + 1)
        (13 + name.length + 1 + (show_int s).length - (13 + name.length) - 1) = show_int s := by
      have e : 13 + name.length + 1 + (show_int s).length - (13 + name.length) - 1 =
          (show_int s).length := by omega
      rw [e, e1, ← l1]
      exact substr_at _ (show_int s) _
    have s3 : substr (toLink url_encode name s h false)
        (13 + name.length + 1 + (show_int s).length + 1) 32 = h.toString := by
      rw [e2, ← l2, ← hx]
      exact substr_at _ h.toString _
    have s4 : (toLink url_encode name s h false).drop
        ((toLink url_encode name s h false).length - 2) = ['|', '/'] := by
      have e : (toLink url_encode name s h false).length - 2 =
          (link_head ++ name ++ ['|'] ++ show_int s ++ ['|'] ++ h.toString).length := by
        rw [hlen]
        simp [hhead, hx]
        omega
      rw [e]
      conv => lhs; arg 2; rw [e2]
      exact List.drop_left _ _
    have hfields : link_fields (toLink url_encode name s h false) =
        some (name, s.natAbs, h.toString) := by
      unfold link_fields
      rw [if_neg (by rw [s0, s4, hlen]; simp; omega)]
      simp only [f1, f2, s2, read_uint64_show_int s hpos hlt, f3, s1, s3]
    unfold fromLink
    rw [hfields]
    simp only [hdec, to_size_type_natAbs s hpos hlt, fromString_toString]
  · intro hd
    have hfields : link_fields
        "ed2k://|file|xxx.avi|100|DB48A1C00CC972488C29D3FEC9F16A79|/".toList =
        some ("xxx.avi".toList, 100, "DB48A1C00CC972488C29D3FEC9F16A79".toList) := by
      decide
    unfold fromLink
    rw [hfields]
    simp only [hd]
    decide

/-- Witness of the round trip of links: the file `some_file` of 100 bytes, as in the
unit test, with the identity for `url_decode`. -/
theorem fromLink_toLink_witness :
    fromLink id (toLink id "some_file".toList 100 md4_hash.invalid false) =
      ⟨"some_file".toList, 100, md4_hash.invalid⟩ ∧
    ((id : List Char → List Char) "xxx.avi".toList = "xxx.avi".toList →
      fromLink id "ed2k://|file|xxx.avi|100|DB48A1C00CC972488C29D3FEC9F16A79|/".toList =
        ⟨"xxx.avi".toList, 100,
          ⟨[0xDB, 0x48, 0xA1, 0xC0, 0x0C, 0xC9, 0x72, 0x48, 0x8C, 0x29, 0xD3, 0xFE, 0xC9, 0xF1,
            0x6A, 0x79], rfl⟩⟩) :=
  fromLink_toLink id id "some_file".toList 100 md4_hash.invalid (by decide) (by decide) rfl
    (by decide) (by decide)

theorem isspace_ne (w : Char) (hw : isspace w = true) : w ≠ 'e' ∧ w ≠ '/' := by
  simp only [isspace, Bool.decide_or, Bool.or_eq_true, decide_eq_true_eq] at hw
  constructor
  · intro h
    rw [h] at hw
    revert hw
    decide
  · intro h
    rw [h] at hw
    revert hw
    decide

theorem link_fields_leading_space (w : Char) (s : List Char) (hw : isspace w = true) :
    link_fields (w :: s) = none := by
  unfold link_fields
  rw [if_pos]
  right
  left
  intro h
  have h2 : (substr (w :: s) 0 13).head? = link_head.head? := by rw [h]
  simp only [substr, List.drop_zero, List.take_succ_cons, List.head?_cons] at h2
  exact (isspace_ne w hw).1 (Option.some.inj h2)

theorem link_fields_trailing_space (w : Char) (s : List Char) (hw : isspace w = true) :
    link_fields (s ++ [w]) = none := by
  unfold link_fields
  rw [if_pos]
  right
  right
  intro h
  have h2 := List.take_append_drop ((s ++ [w]).length - 2) (s ++ [w])
  rw [h] at h2
  have h3 : List.take ((s ++ [w]).length - 2) (s ++ [w]) ++ ['|', '/'] =
      (List.take ((s ++ [w]).length - 2) (s ++ [w]) ++ ['|']) ++ ['/'] := by simp
  rw [h3] at h2
  have h4 := List.append_inj_right' h2 rfl
  exact (isspace_ne w hw).2 (List.singleton_inj.mp h4).symm

/-- C12, as stated, fails: the link of the spec is accepted, and with one leading
space `fromLink` returns the empty entry, not the entry of the link. -/
theorem fromLink_whitespace_counterexample :
    (fromLink id "ed2k://|file|xxx.avi|100|DB48A1C00CC972488C29D3FEC9F16A79|/".toList).defined
      = true ∧
    isspace ' ' = true ∧
    fromLink id (" ".toList ++
        "ed2k://|file|xxx.avi|100|DB48A1C00CC972488C29D3FEC9F16A79|/".toList ++ []) =
      emule_collection_entry.empty ∧
    fromLink id (" ".toList ++
        "ed2k://|file|xxx.avi|100|DB48A1C00CC972488C29D3FEC9F16A79|/".toList ++ []) ≠
      fromLink id "ed2k://|file|xxx.avi|100|DB48A1C00CC972488C29D3FEC9F16A79|/".toList := by
  decide

/-- C12, amended: `fromLink` strips no whitespace: for every link `L` and every pair
of whitespace strings `W1`, `W2` that are not both empty, `fromLink(W1 + L + W2)`
returns the empty entry, which is not defined. It is the entry of `fromLink(L)`
exactly when `fromLink(L)` is itself the empty entry, and so it is never the entry
of a link `L` whose entry is defined. -/
theorem fromLink_whitespace_rejected (url_decode : List Char → List Char)
    (L W1 W2 : List Char) (h1 : ∀ c ∈ W1, isspace c = true) (h2 : ∀ c ∈ W2, isspace c = true)
    (hne : W1 ≠ [] ∨ W2 ≠ []) :
    fromLink url_decode (W1 ++ L ++ W2) = emule_collection_entry.empty ∧
    emule_collection_entry.empty.defined = false ∧
    (fromLink url_decode (W1 ++ L ++ W2) = fromLink url_decode L ↔
      fromLink url_decode L = emule_collection_entry.empty) ∧
    ((fromLink url_decode L).defined = true →
      fromLink url_decode (W1 ++ L ++ W2) ≠ fromLink url_decode L) := by
  have hnone : link_fields (W1 ++ L ++ W2) = none := by
    cases W1 with
    | cons w t =>
      exact link_fields_leading_space w _ (h1 w (List.mem_cons_self _ _))
    | nil =>
      have hW2 : W2 ≠ [] := hne.resolve_left (fun h => h rfl)
      have e : W2 = W2.dropLast ++ [W2.getLast hW2] := (List.dropLast_append_getLast hW2).symm
      rw [e, ← List.append_assoc]
      exact link_fields_trailing_space _ _ (h2 _ (List.getLast_mem hW2))
  have hempty : fromLink url_decode (W1 ++ L ++ W2) = emule_collection_entry.empty := by
    unfold fromLink
    rw [hnone]
  have hundef : emule_collection_entry.empty.defined = false := by decide
  refine ⟨hempty, hundef, ?_, ?_⟩
  · rw [hempty]
    exact eq_comm
  · intro hdef heq
    rw [hempty] at heq
    rw [← heq, hundef] at hdef
    cases hdef

/-- Witness of `fromLink_whitespace_rejected`: the link of the spec followed by a
space, as in the unit test. -/
theorem fromLink_whitespace_rejected_witness :
    fromLink id ([] ++ "ed2k://|file|xxx.avi|100|DB48A1C00CC972488C29D3FEC9F16A79|/".toList ++
        " ".toList) = emule_collection_entry.empty ∧
    emule_collection_entry.empty.defined = false ∧
    (fromLink id ([] ++ "ed2k://|file|xxx.avi|100|DB48A1C00CC972488C29D3FEC9F16A79|/".toList ++
        " ".toList) =
        fromLink id "ed2k://|file|xxx.avi|100|DB48A1C00CC972488C29D3FEC9F16A79|/".toList ↔
      fromLink id "ed2k://|file|xxx.avi|100|DB48A1C00CC972488C29D3FEC9F16A79|/".toList =
        emule_collection_entry.empty) ∧
    ((fromLink id "ed2k://|file|xxx.avi|100|DB48A1C00CC972488C29D3FEC9F16A79|/".toList).defined
        = true →
      fromLink id ([] ++ "ed2k://|file|xxx.avi|100|DB48A1C00CC972488C29D3FEC9F16A79|/".toList ++
        " ".toList) ≠
        fromLink id "ed2k://|file|xxx.avi|100|DB48A1C00CC972488C29D3FEC9F16A79|/".toList) :=
  fromLink_whitespace_rejected id
    "ed2k://|file|xxx.avi|100|DB48A1C00CC972488C29D3FEC9F16A79|/".toList [] " ".toList
    (by decide) (by decide) (Or.inr (by decide))

theorem index_of_append_left (c : Char) (a b : List Char) (i : Nat)
    (h : index_of c a = some i) : index_of c (a ++ b) = some i := by
  induction a generalizing i with
  | nil => simp [index_of] at h
  | cons x xs ih =>
    unfold index_of at h
    rw [List.cons_append, index_of]
    by_cases hx : x = c
    · rw [if_pos hx] at h ⊢
      exact h
    · rw [if_neg hx] at h ⊢
      cases hr : index_of c xs with
      | none => simp [hr] at h
      | some j =>
        rw [ih j hr]
        simpa [hr] using h

theorem index_of_of_not_mem (c : Char) (b : List Char) (hb : c ∉ b) : index_of c b = none := by
  induction b with
  | nil => rfl
  | cons x xs ih =>
    have hx : x ≠ c := fun h => hb (by rw [h]; exact List.mem_cons_self _ _)
    have hxs : c ∉ xs := fun h => hb (List.mem_cons_of_mem _ h)
    simp [index_of, hx, ih hxs]

theorem index_of_append_right (c : Char) (a b : List Char) (i : Nat) (hb : c ∉ b)
    (h : index_of c (a ++ b) = some i) : index_of c a = some i := by
  induction a generalizing i with
  | nil =>
    rw [List.nil_append, index_of_of_not_mem c b hb] at h
    cases h
  | cons x xs ih =>
    rw [List.cons_append, index_of] at h
    rw [index_of]
    by_cases hx : x = c
    · rw [if_pos hx] at h ⊢
      exact h
    · rw [if_neg hx] at h ⊢
      cases hr : index_of c (xs ++ b) with
      | none => simp [hr] at h
      | some j =>
        rw [ih j hr]
        simpa [hr] using h

theorem find_from_extend (c : Char) (p r1 r2 : List Char) (pos i : Nat) (hr1 : c ∉ r1)
    (h : find_from c (p ++ r1) pos = some i) :
    find_from c (p ++ r2) pos = some i ∧ i < p.length ∧ pos ≤ i := by
  unfold find_from at h ⊢
  rw [List.drop_append_eq_append_drop] at h ⊢
  have hr1d : c ∉ List.drop (pos - p.length) r1 := fun hm => hr1 (List.mem_of_mem_drop hm)
  cases hi : index_of c (List.drop pos p ++ List.drop (pos - p.length) r1) with
  | none => simp [hi] at h
  | some j =>
    simp only [hi, Option.some.injEq] at h
    have hj := index_of_append_right c _ _ j hr1d hi
    have hlt := (index_of_lt c _ j hj).1
    rw [List.length_drop] at hlt
    rw [index_of_append_left c _ _ j hj]
    exact ⟨by simp only [h], by omega, by omega⟩

theorem substr_extend (p r1 r2 : List Char) (pos n : Nat) (h : pos + n ≤ p.length) :
    substr (p ++ r2) pos n = substr (p ++ r1) pos n := by
  unfold substr
  have hp : pos ≤ p.length := by omega
  rw [List.drop_append_of_le_length hp, List.drop_append_of_le_length hp,
    List.take_append_of_le_length (by rw [List.length_drop]; omega),
    List.take_append_of_le_length (by rw [List.length_drop]; omega)]

theorem from_hex_none_of_mem (c : Char) (hc : hex_value c = none) :
    ∀ (n : Nat) (s : List Char), s.length ≤ n → c ∈ s → from_hex s = none := by
  intro n
  induction n using Nat.strong_induction_on with
  | _ n ih =>
    intro s hlen hmem
    match s, hlen, hmem with
    | [], _, hmem => cases hmem
    | [_], _, _ => rfl
    | a :: b :: rest, hlen, hmem =>
      rw [from_hex]
      rcases List.mem_cons.mp hmem with h1 | h1
      · rw [← h1, hc]
      · rcases List.mem_cons.mp h1 with h2 | h2
        · rw [← h2, hc]
          cases hex_value a <;> rfl
        · have hl : rest.length ≤ n - 2 := by
            simp only [List.length_cons] at hlen
            omega
          have hn : n - 2 < n := by
            simp only [List.length_cons] at hlen
            omega
          rw [ih (n - 2) hn rest hl h2]
          cases hex_value a <;> cases hex_value b <;> rfl

theorem fromString_of_bar (s : List Char) (h : '|' ∈ s) :
    md4_hash.fromString s = md4_hash.invalid := by
  unfold md4_hash.fromString
  rw [from_hex_none_of_mem '|' (by decide) s.length s (Nat.le_refl _) h]

theorem mem_substr_of_find (c : Char) (s : List Char) (pos i n : Nat)
    (h : find_from c s pos = some i) (hn : i < pos + n) : c ∈ substr s pos n := by
  unfold find_from at h
  cases hi : index_of c (s.drop pos) with
  | none => simp [hi] at h
  | some j =>
    simp only [hi, Option.some.injEq] at h
    have hj := index_of_lt c _ j hi
    have hget : (substr s pos n)[j]? = some c := by
      unfold substr
      rw [List.getElem?_take, if_pos (by omega)]
      exact hj.2
    exact List.getElem?_mem hget

theorem link_fields_extend (X R0 : List Char) (n : List Char) (sz : Nat) (hs1 : List Char)
    (h : link_fields (X ++ ['|'] ++ ['/']) = some (n, sz, hs1)) :
    ∃ hs2 : List Char, link_fields (X ++ ['|'] ++ (R0 ++ ['|', '/'])) = some (n, sz, hs2) ∧
      md4_hash.fromString hs2 = md4_hash.fromString hs1 := by
  have hslash : '|' ∉ ['/'] := by decide
  unfold link_fields at h
  by_cases hc : (X ++ ['|'] ++ ['/']).length < 51 ∨ substr (X ++ ['|'] ++ ['/']) 0 13 ≠ link_head ∨
      (X ++ ['|'] ++ ['/']).drop ((X ++ ['|'] ++ ['/']).length - 2) ≠ ['|', '/']
  · rw [if_pos hc] at h
    cases h
  rw [if_neg hc] at h
  have hlen1 : ¬ (X ++ ['|'] ++ ['/']).length < 51 := fun hh => hc (Or.inl hh)
  have hhead1 : substr (X ++ ['|'] ++ ['/']) 0 13 = link_head :=
    Classical.not_not.mp (fun hh => hc (Or.inr (Or.inl hh)))
  have hpl : 50 ≤ (X ++ ['|']).length := by
    simp only [List.length_append, List.length_cons, List.length_nil] at hlen1 ⊢
    omega
  -- the first check passes on the longer link
  have hc2 : ¬ ((X ++ ['|'] ++ (R0 ++ ['|', '/'])).length < 51 ∨
      substr (X ++ ['|'] ++ (R0 ++ ['|', '/'])) 0 13 ≠ link_head ∨
      (X ++ ['|'] ++ (R0 ++ ['|', '/'])).drop ((X ++ ['|'] ++ (R0 ++ ['|', '/'])).length - 2) ≠
        ['|', '/']) := by
    intro hh
    rcases hh with h1 | h1 | h1
    · simp only [List.length_append, List.length_cons, List.length_nil] at h1 hpl
      omega
    · apply h1
      rw [substr_extend (X ++ ['|']) ['/'] (R0 ++ ['|', '/']) 0 13 (by omega)]
      exact hhead1
    · apply h1
      have e : (X ++ ['|'] ++ (R0 ++ ['|', '/'])).length - 2 = (X ++ ['|'] ++ R0).length := by
        simp only [List.length_append, List.length_cons, List.length_nil]
        omega
      rw [e]
      have e2 : X ++ ['|'] ++ (R0 ++ ['|', '/']) = (X ++ ['|'] ++ R0) ++ ['|', '/'] := by simp
      conv => lhs; arg 2; rw [e2]
      exact List.drop_left _ _
  unfold link_fields
  rw [if_neg hc2]
  cases hf1 : find_from '|' (X ++ ['|'] ++ ['/']) 13 with
  | none =>
    rw [hf1] at h
    cases h
  | some iName =>
    simp only [hf1] at h
    obtain ⟨g1, b1, _⟩ := find_from_extend '|' (X ++ ['|']) ['/'] (R0 ++ ['|', '/']) 13 iName
      hslash hf1
    cases hf2 : find_from '|' (X ++ ['|'] ++ ['/']) (iName + 1) with
    | none =>
      rw [hf2] at h
      cases h
    | some iSize =>
      simp only [hf2] at h
      obtain ⟨g2, b2, c2⟩ := find_from_extend '|' (X ++ ['|']) ['/'] (R0 ++ ['|', '/'])
        (iName + 1) iSize hslash hf2
      cases hr : read_uint64 (substr (X ++ ['|'] ++ ['/']) (iName + 1) (iSize - iName - 1)) with
      | none =>
        rw [hr] at h
        cases h
      | some fileSize =>
        simp only [hr] at h
        cases hf3 : find_from '|' (X ++ ['|'] ++ ['/']) (iSize + 1) with
        | none =>
          rw [hf3] at h
          cases h
        | some iHash =>
          simp only [hf3, Option.some.injEq, Prod.mk.injEq] at h
          obtain ⟨hn, hsz, hhs⟩ := h
          obtain ⟨g3, b3, c3⟩ := find_from_extend '|' (X ++ ['|']) ['/'] (R0 ++ ['|', '/'])
            (iSize + 1) iHash hslash hf3
          have es : substr (X ++ ['|'] ++ (R0 ++ ['|', '/'])) (iName + 1) (iSize - iName - 1) =
              substr (X ++ ['|'] ++ ['/']) (iName + 1) (iSize - iName - 1) :=
            substr_extend _ _ _ _ _ (by omega)
          have en : substr (X ++ ['|'] ++ (R0 ++ ['|', '/'])) 13 (iName - 13) =
              substr (X ++ ['|'] ++ ['/']) 13 (iName - 13) :=
            substr_extend _ _ _ _ _ (by omega)
          simp only [g1, g2, es, hr, g3, en, hn, hsz, Option.some.injEq, Prod.mk.injEq, true_and,
            exists_eq_left']
          rw [← hhs]
          by_cases hin : iSize + 1 + 32 ≤ (X ++ ['|']).length
          · rw [substr_extend (X ++ ['|']) ['/'] (R0 ++ ['|', '/']) (iSize + 1) 32 hin]
          · rw [fromString_of_bar _ (mem_substr_of_find '|' _ (iSize + 1) iHash 32 g3 (by omega)),
              fromString_of_bar _ (mem_substr_of_find '|' _ (iSize + 1) iHash 32 hf3 (by omega))]

theorem defined_accepted (url_decode : List Char → List Char) (l : List Char)
    (h : (fromLink url_decode l).defined = true) : link_accepted l = true := by
  unfold link_accepted
  cases hf : link_fields l with
  | some v => rfl
  | none =>
    unfold fromLink at h
    rw [hf] at h
    have h2 : emule_collection_entry.empty.defined = true := h
    revert h2
    decide

/-- C13: for every link `ed2k://|file|N|S|H|/` that `fromLink` accepts and every AICH
string `A`, the link `ed2k://|file|N|S|H|h=A|/` is accepted too and yields the same
entry: the same file name, size and hash. -/
theorem fromLink_aich (url_decode : List Char → List Char) (N S H A : List Char)
    (hacc : link_accepted (link_head ++ N ++ ['|'] ++ S ++ ['|'] ++ H ++ ['|', '/']) = true) :
    link_accepted
      (link_head ++ N ++ ['|'] ++ S ++ ['|'] ++ H ++ ['|', 'h', '='] ++ A ++ ['|', '/']) = true ∧
    fromLink url_decode
      (link_head ++ N ++ ['|'] ++ S ++ ['|'] ++ H ++ ['|', 'h', '='] ++ A ++ ['|', '/']) =
    fromLink url_decode (link_head ++ N ++ ['|'] ++ S ++ ['|'] ++ H ++ ['|', '/']) := by
  have e1 : link_head ++ N ++ ['|'] ++ S ++ ['|'] ++ H ++ ['|', '/'] =
      (link_head ++ N ++ ['|'] ++ S ++ ['|'] ++ H) ++ ['|'] ++ ['/'] := by simp
  have e2 : link_head ++ N ++ ['|'] ++ S ++ ['|'] ++ H ++ ['|', 'h', '='] ++ A ++ ['|', '/'] =
      (link_head ++ N ++ ['|'] ++ S ++ ['|'] ++ H) ++ ['|'] ++ (('h' :: '=' :: A) ++ ['|', '/']) := by
    simp
  rw [e1] at hacc ⊢
  rw [e2]
  unfold link_accepted at hacc ⊢
  cases hf : link_fields ((link_head ++ N ++ ['|'] ++ S ++ ['|'] ++ H) ++ ['|'] ++ ['/']) with
  | none =>
    rw [hf] at hacc
    cases hacc
  | some v =>
    obtain ⟨n, sz, hs1⟩ := v
    obtain ⟨hs2, hl2, hh⟩ := link_fields_extend _ ('h' :: '=' :: A) n sz hs1 hf
    unfold fromLink
    rw [hl2, hf]
    simp only [Option.isSome_some, hh, true_and]

/-- Witness of `fromLink_aich`: the link with an AICH hash of the unit test. -/
theorem fromLink_aich_witness :
    link_accepted
      (link_head ++ "Code Geass.emulecollection".toList ++ ['|'] ++ "1568".toList ++ ['|'] ++
        "6462EAFF860B98A0592BB0284225F85B".toList ++ ['|', 'h', '='] ++
        "52HRRJC7CCJBUZNP5JM6RQWYEDAM3YQM".toList ++ ['|', '/']) = true ∧
    fromLink id
      (link_head ++ "Code Geass.emulecollection".toList ++ ['|'] ++ "1568".toList ++ ['|'] ++
        "6462EAFF860B98A0592BB0284225F85B".toList ++ ['|', 'h', '='] ++
        "52HRRJC7CCJBUZNP5JM6RQWYEDAM3YQM".toList ++ ['|', '/']) =
    fromLink id
      (link_head ++ "Code Geass.emulecollection".toList ++ ['|'] ++ "1568".toList ++ ['|'] ++
        "6462EAFF860B98A0592BB0284225F85B".toList ++ ['|', '/']) :=
  fromLink_aich id "Code Geass.emulecollection".toList "1568".toList
    "6462EAFF860B98A0592BB0284225F85B".toList "52HRRJC7CCJBUZNP5JM6RQWYEDAM3YQM".toList
    (by decide)

/-! ### `emule_collection::fromFile` -/

theorem split_lines_line (l w : List Char) (hl : '\n' ∉ l) :
    split_lines (l ++ '\n' :: w) = l :: split_lines w := by
  induction l with
  | nil => simp [split_lines]
  | cons c t ih =>
    have hc : c ≠ '\n' := fun h => hl (by rw [h]; exact List.mem_cons_self _ _)
    have ht : '\n' ∉ t := fun h => hl (List.mem_cons_of_mem _ h)
    rw [List.cons_append, split_lines, if_neg hc, ih ht]

theorem split_lines_tail_mem (u w l : List Char) (h : l ∈ split_lines w) :
    l ∈ (split_lines (u ++ '\n' :: w)).tail := by
  induction u with
  | nil => simpa [split_lines] using h
  | cons c t ih =>
    rw [List.cons_append, split_lines]
    by_cases hc : c = '\n'
    · rw [if_pos hc]
      exact List.mem_of_mem_tail ih
    · rw [if_neg hc]
      cases hs : split_lines (t ++ '\n' :: w) with
      | nil =>
        rw [hs] at ih
        cases ih
      | cons l0 ls =>
        rw [hs] at ih
        exact ih

theorem text_entries_mem (url_decode : List Char → List Char) (lines : List (List Char))
    (line : List Char) (hmem : line ∈ lines)
    (hdef : (fromLink url_decode (strip_cr line)).defined = true) :
    fromLink url_decode (strip_cr line) ∈ text_entries url_decode lines := by
  induction lines with
  | nil => cases hmem
  | cons x xs ih =>
    rw [text_entries]
    rcases List.mem_cons.mp hmem with h1 | h1
    · rw [← h1, if_pos hdef]
      exact List.mem_cons_self _ _
    · by_cases hx : (fromLink url_decode (strip_cr x)).defined = true
      · rw [if_pos hx]
        exact List.mem_cons_of_mem _ (ih h1)
      · rw [if_neg hx]
        exact ih h1

/-- C14 fails on the code: a collection with the single entry `nested_entry`, whose
file name holds the link of the spec on a line of its own, is read back from its
binary file with a second entry. For every content that holds the file name and
that the binary load decodes to the saved tag lists, `fromFile` returns the saved
entry first and, from the text loading that follows, the entry of the nested link,
so that the result is not the collection saved. -/
theorem fromFile_binary_extra_entry (url_decode : List Char → List Char)
    (load_ebc : List Char → Option (List (List base_tag))) (pre post : List Char)
    (hdec : url_decode "xxx.avi".toList = "xxx.avi".toList)
    (hload : load_ebc (pre ++ nested_entry.m_filename ++ post) =
      some ([nested_entry].map entry_tags)) :
    (fromFile url_decode load_ebc (some (pre ++ nested_entry.m_filename ++ post))).head? =
      some nested_entry ∧
    (⟨"xxx.avi".toList, 100, spec_hash⟩ : emule_collection_entry) ∈
      (fromFile url_decode load_ebc (some (pre ++ nested_entry.m_filename ++ post))).tail ∧
    fromFile url_decode load_ebc (some (pre ++ nested_entry.m_filename ++ post)) ≠
      [nested_entry] := by
  have hbin : binary_entries ([nested_entry].map entry_tags) = [nested_entry] := by decide
  have hfields : link_fields spec_link =
      some ("xxx.avi".toList, 100, "DB48A1C00CC972488C29D3FEC9F16A79".toList) := by decide
  have hentry : fromLink url_decode spec_link = ⟨"xxx.avi".toList, 100, spec_hash⟩ := by
    unfold fromLink
    rw [hfields]
    simp only [hdec]
    decide
  have hstrip : strip_cr spec_link = spec_link := by decide
  have hdef : (fromLink url_decode (strip_cr spec_link)).defined = true := by
    rw [hstrip, hentry]
    decide
  have hshape : pre ++ nested_entry.m_filename ++ post =
      (pre ++ ['a']) ++ '\n' :: (spec_link ++ '\n' :: ('b' :: post)) := by
    simp [nested_entry]
  have hline : spec_link ∈ (split_lines (pre ++ nested_entry.m_filename ++ post)).tail := by
    rw [hshape]
    apply split_lines_tail_mem
    rw [split_lines_line spec_link _ (by decide)]
    exact List.mem_cons_self _ _
  have htext := text_entries_mem url_decode _ spec_link (List.mem_of_mem_tail hline) hdef
  rw [hstrip, hentry] at htext
  have hres : fromFile url_decode load_ebc (some (pre ++ nested_entry.m_filename ++ post)) =
      nested_entry :: text_entries url_decode
        (split_lines (pre ++ nested_entry.m_filename ++ post)) := by
    unfold fromFile
    simp only [hload, hbin]
    rfl
  rw [hres]
  refine ⟨rfl, htext, ?_⟩
  intro h
  have h2 := (List.cons.inj h).2
  rw [h2] at htext
  cases htext

/-- Witness of `fromFile_binary_extra_entry`: a file that holds just the file name,
and a binary load that decodes it to the tag lists of the entry. -/
theorem fromFile_binary_extra_entry_witness :
    (fromFile id (fun _ => some ([nested_entry].map entry_tags))
      (some ([] ++ nested_entry.m_filename ++ []))).head? = some nested_entry ∧
    (⟨"xxx.avi".toList, 100, spec_hash⟩ : emule_collection_entry) ∈
      (fromFile id (fun _ => some ([nested_entry].map entry_tags))
        (some ([] ++ nested_entry.m_filename ++ []))).tail ∧
    fromFile id (fun _ => some ([nested_entry].map entry_tags))
      (some ([] ++ nested_entry.m_filename ++ [])) ≠ [nested_entry] :=
  fromFile_binary_extra_entry id (fun _ => some ([nested_entry].map entry_tags)) [] [] rfl rfl

/-! ### `dht::rpc_manager` -/

/-- C15: for every transaction table and every reply whose source address differs
from the target address of every pending observer with the transaction id of the
reply (whether that id matches a pending observer or none), `incoming` returns
false, leaves the table unchanged, calls `reply` on no observer, stores nothing
through `id` and does not call `node_seen` of the routing table. -/
theorem incoming_wrong_source (node_seen : md4_hash → udp_endpoint → Bool) (r : rpc_manager)
    (t : reply_packet) (target : udp_endpoint)
    (hsource : ∀ p ∈ r.m_transactions,
      (r.observers p).m_transaction_id = t.transaction_id →
        (r.observers p).m_addr ≠ target.address) :
    r.incoming node_seen t target = ⟨false, r.m_transactions, none, none, none⟩ := by
  have hnone : r.m_transactions.find? (r.is_match t target) = none := by
    rw [List.find?_eq_none]
    intro p hp hm
    unfold rpc_manager.is_match at hm
    simp only [decide_eq_true_eq] at hm
    exact hsource p hp hm.1 hm.2.1
  unfold rpc_manager.incoming
  rw [hnone]
  split <;> rfl

/-- Witness of `incoming_wrong_source`: one pending observer for address 10 and a
reply with its transaction id from address 11. -/
theorem incoming_wrong_source_witness :
    (⟨[7], false, fun _ => sample_observer⟩ : rpc_manager).incoming (fun _ _ => true)
        ⟨1, md4_hash.invalid, md4_hash.invalid⟩ ⟨11, 5⟩ =
      ⟨false, [7], none, none, none⟩ :=
  incoming_wrong_source (fun _ _ => true) ⟨[7], false, fun _ => sample_observer⟩
    ⟨1, md4_hash.invalid, md4_hash.invalid⟩ ⟨11, 5⟩
    (fun _ _ _ => by simp [sample_observer])

theorem expire_split (r : rpc_manager) (now : Int) (l : List observer_ptr) (ret : Int) :
    (r.expire now l ret).1 ++ (r.expire now l ret).2.1 = l := by
  induction l with
  | nil => rfl
  | cons o rest ih =>
    unfold rpc_manager.expire
    split
    · rfl
    · simp only [List.cons_append, ih]

theorem eraseP_not_mem_of_find (pred : observer_ptr → Bool) (l : List observer_ptr)
    (p : observer_ptr) (hnodup : l.Nodup) (hfind : l.find? pred = some p) :
    p ∉ l.eraseP pred := by
  induction l with
  | nil => cases hfind
  | cons x xs ih =>
    have hx := List.nodup_cons.mp hnodup
    by_cases hpx : pred x = true
    · rw [List.find?_cons_of_pos _ hpx] at hfind
      rw [List.eraseP_cons_of_pos hpx]
      cases hfind
      exact hx.1
    · rw [List.find?_cons_of_neg _ hpx] at hfind
      rw [List.eraseP_cons_of_neg hpx]
      intro hmem
      rcases List.mem_cons.mp hmem with h1 | h1
      · have := List.find?_some hfind
        rw [h1] at this
        exact hpx this
      · exact ih hx.2 hfind h1

theorem incoming_facts (node_seen : md4_hash → udp_endpoint → Bool) (r : rpc_manager)
    (t : reply_packet) (target : udp_endpoint) :
    (∀ q ∈ (r.incoming node_seen t target).m_transactions, q ∈ r.m_transactions) ∧
    (∀ p, (r.incoming node_seen t target).replied = some p → p ∈ r.m_transactions) := by
  unfold rpc_manager.incoming
  by_cases hd : r.m_destructing = true
  · rw [if_pos hd]
    exact ⟨fun q h => h, fun p h => by cases h⟩
  · rw [if_neg hd]
    cases hf : r.m_transactions.find? (r.is_match t target) with
    | none => exact ⟨fun q h => h, fun p h => by cases h⟩
    | some o =>
      refine ⟨fun q h => List.mem_of_mem_eraseP h, fun p h => ?_⟩
      have ho : o ∈ r.m_transactions := List.mem_of_find?_eq_some hf
      cases h
      exact ho

theorem tick_facts (r : rpc_manager) (now : Int) :
    (r.tick now).timeouts ++ (r.tick now).m_transactions = r.m_transactions := by
  unfold rpc_manager.tick
  by_cases he : r.m_transactions = []
  · rw [if_pos he, he]
    rfl
  · rw [if_neg he]
    exact expire_split r now r.m_transactions tick_short_timeout

theorem unreachable_facts (r : rpc_manager) (ep : udp_endpoint) :
    (∀ q ∈ (r.unreachable ep).m_transactions, q ∈ r.m_transactions) ∧
    (∀ p, (r.unreachable ep).timed_out = some p → r.m_transactions.Nodup →
      p ∉ (r.unreachable ep).m_transactions) := by
  unfold rpc_manager.unreachable
  cases hf : r.m_transactions.find? (fun q => decide ((r.observers q).target_ep = ep)) with
  | none => exact ⟨fun q h => h, fun p h => by cases h⟩
  | some o =>
    refine ⟨fun q h => List.mem_of_mem_eraseP h, fun p h hn => ?_⟩
    cases h
    exact eraseP_not_mem_of_find _ _ o hn hf

theorem invoke_facts (r : rpc_manager) (tid : Nat) (target : udp_endpoint)
    (o : Option observer_ptr) (now : Int) (send_ok : Bool) (p : observer_ptr)
    (habs : p ∉ r.m_transactions) (hne : o ≠ some p) :
    p ∉ (r.invoke tid target o now send_ok).2.m_transactions := by
  unfold rpc_manager.invoke
  by_cases hd : r.m_destructing = true
  · rw [if_pos hd]
    exact habs
  · rw [if_neg hd]
    cases send_ok with
    | false => exact habs
    | true =>
      cases o with
      | none => exact habs
      | some q =>
        simp only [if_true, List.mem_append, List.mem_singleton, not_or]
        exact ⟨habs, fun h => hne (by rw [h])⟩

theorem call_keeps_absent (node_seen : md4_hash → udp_endpoint → Bool) (r : rpc_manager)
    (c : rpc_call) (p : observer_ptr) (habs : p ∉ r.m_transactions)
    (hc : c.invokes p = false) :
    p ∉ (r.call node_seen c).1.m_transactions ∧ rpc_event.reply p ∉ (r.call node_seen c).2 := by
  cases c with
  | incoming t target =>
    have hf := incoming_facts node_seen r t target
    constructor
    · exact fun h => habs (hf.1 p h)
    · show rpc_event.reply p ∉
        (match (r.incoming node_seen t target).replied with
          | some q => [rpc_event.reply q]
          | none => [])
      cases hrep : (r.incoming node_seen t target).replied with
      | none => simp
      | some q =>
        simp only [List.mem_singleton, rpc_event.reply.injEq]
        intro h
        exact habs (h ▸ hf.2 q hrep)
  | tick now =>
    constructor
    · intro h
      apply habs
      rw [← tick_facts r now]
      exact List.mem_append_right _ h
    · show rpc_event.reply p ∉ (r.tick now).timeouts.map rpc_event.timeout ++
        (r.tick now).short_timeouts.map rpc_event.short_timeout
      simp
  | unreachable ep =>
    constructor
    · exact fun h => habs ((unreachable_facts r ep).1 p h)
    · show rpc_event.reply p ∉
        (match (r.unreachable ep).timed_out with
          | some q => [rpc_event.timeout q]
          | none => [])
      cases (r.unreachable ep).timed_out <;> simp
  | invoke tid target o now send_ok =>
    have hne : o ≠ some p := by
      simpa [rpc_call.invokes] using hc
    exact ⟨invoke_facts r tid target o now send_ok p habs hne, by simp [rpc_manager.call]⟩

theorem run_keeps_absent (node_seen : md4_hash → udp_endpoint → Bool) (calls : List rpc_call)
    (p : observer_ptr) : ∀ r : rpc_manager, p ∉ r.m_transactions →
    (∀ c ∈ calls, c.invokes p = false) → rpc_event.reply p ∉ r.run node_seen calls := by
  induction calls with
  | nil =>
    intro r _ _
    simp [rpc_manager.run]
  | cons c cs ih =>
    intro r habs hcalls
    have h1 := call_keeps_absent node_seen r c p habs (hcalls c (List.mem_cons_self _ _))
    rw [rpc_manager.run, List.mem_append, not_or]
    exact ⟨h1.2, ih _ h1.1 (fun c' hc' => hcalls c' (List.mem_cons_of_mem _ hc'))⟩

theorem eraseP_count_of_find (pred : observer_ptr → Bool) (l : List observer_ptr)
    (p : observer_ptr) (hfind : l.find? pred = some p) :
    (l.eraseP pred).count p + 1 = l.count p := by
  induction l with
  | nil => cases hfind
  | cons x xs ih =>
    by_cases hpx : pred x = true
    · rw [List.find?_cons_of_pos _ hpx] at hfind
      rw [List.eraseP_cons_of_pos hpx]
      cases hfind
      rw [List.count_cons_self]
    · rw [List.find?_cons_of_neg _ hpx] at hfind
      rw [List.eraseP_cons_of_neg hpx, List.count_cons, List.count_cons, ← ih hfind]
      omega

theorem unreachable_erases_one (r : rpc_manager) (ep : udp_endpoint) (p : observer_ptr)
    (hto : (r.unreachable ep).timed_out = some p) :
    (r.unreachable ep).m_transactions.count p + 1 = r.m_transactions.count p := by
  unfold rpc_manager.unreachable at hto ⊢
  cases hf : r.m_transactions.find? (fun q => decide ((r.observers q).target_ep = ep)) with
  | none =>
    rw [hf] at hto
    cases hto
  | some o =>
    rw [hf] at hto
    cases hto
    exact eraseP_count_of_find _ _ _ hf

/-- C16, as stated, fails: in a table that holds the observer 7 twice, `unreachable`
calls `timeout` on 7 and erases one of the two entries; 7 is still in the table and
the next matching reply is delivered to it. The same holds from the empty table
through calls of the members alone: the observer is handed to `invoke` twice and
then timed out by `unreachable`, or it is timed out by `tick` and handed to `invoke`
again; in both runs the callbacks are `timeout` on 7 and then `reply` on 7. -/
theorem timeout_counterexample :
    ((⟨[7, 7], false, fun _ => sample_observer⟩ : rpc_manager).unreachable ⟨10, 5⟩).timed_out
      = some 7 ∧
    7 ∈ ((⟨[7, 7], false, fun _ => sample_observer⟩ : rpc_manager).unreachable
      ⟨10, 5⟩).m_transactions ∧
    rpc_event.reply 7 ∈ (⟨[7, 7], false, fun _ => sample_observer⟩ : rpc_manager).run
      (fun _ _ => true)
      [rpc_call.unreachable ⟨10, 5⟩,
        rpc_call.incoming ⟨1, md4_hash.invalid, md4_hash.invalid⟩ ⟨10, 5⟩] ∧
    (⟨[], false, fun _ => sample_observer⟩ : rpc_manager).run (fun _ _ => true)
      [rpc_call.invoke 1 ⟨10, 5⟩ (some 7) 0 true, rpc_call.invoke 1 ⟨10, 5⟩ (some 7) 1 true,
        rpc_call.unreachable ⟨10, 5⟩,
        rpc_call.incoming ⟨1, md4_hash.invalid, md4_hash.invalid⟩ ⟨10, 5⟩] =
      [rpc_event.timeout 7, rpc_event.reply 7] ∧
    (⟨[], false, fun _ => sample_observer⟩ : rpc_manager).run (fun _ _ => true)
      [rpc_call.invoke 1 ⟨10, 5⟩ (some 7) 0 true, rpc_call.tick 12,
        rpc_call.invoke 1 ⟨10, 5⟩ (some 7) 12 true,
        rpc_call.incoming ⟨1, md4_hash.invalid, md4_hash.invalid⟩ ⟨10, 5⟩] =
      [rpc_event.timeout 7, rpc_event.reply 7] := by
  decide

/-- C16, amended: once `tick` or `unreachable` has called `timeout` on an observer
that the transaction table held only once (other observers may be held more than
once), that observer is no longer in the table, and no later call of `incoming`
delivers a reply to it, over every sequence of later calls of `incoming`, `tick`,
`unreachable` and `invoke` in which the observer is not handed to `invoke` again. -/
theorem timeout_then_no_reply (node_seen : md4_hash → udp_endpoint → Bool) (r : rpc_manager)
    (first : rpc_call) (calls : List rpc_call) (p : observer_ptr)
    (honce : r.m_transactions.count p = 1)
    (htimeout : rpc_event.timeout p ∈ (r.call node_seen first).2)
    (hcalls : ∀ c ∈ calls, c.invokes p = false) :
    p ∉ (r.call node_seen first).1.m_transactions ∧
    rpc_event.reply p ∉ (r.call node_seen first).1.run node_seen calls := by
  have habs : p ∉ (r.call node_seen first).1.m_transactions := by
    cases first with
    | incoming t target =>
      have h2 : rpc_event.timeout p ∈
          (match (r.incoming node_seen t target).replied with
            | some q => [rpc_event.reply q]
            | none => []) := htimeout
      cases hrep : (r.incoming node_seen t target).replied with
      | none =>
        rw [hrep] at h2
        cases h2
      | some q =>
        rw [hrep] at h2
        simp at h2
    | tick now =>
      have h2 : rpc_event.timeout p ∈ (r.tick now).timeouts.map rpc_event.timeout ++
          (r.tick now).short_timeouts.map rpc_event.short_timeout := htimeout
      simp only [List.mem_append, List.mem_map, rpc_event.timeout.injEq, exists_eq_right,
        reduceCtorEq, and_false, exists_false, or_false] at h2
      have hs := tick_facts r now
      rw [← hs, List.count_append] at honce
      have h3 : 0 < (r.tick now).timeouts.count p := List.count_pos_iff.mpr h2
      show p ∉ (r.tick now).m_transactions
      intro h
      have h4 : 0 < (r.tick now).m_transactions.count p := List.count_pos_iff.mpr h
      omega
    | unreachable ep =>
      have h2 : rpc_event.timeout p ∈
          (match (r.unreachable ep).timed_out with
            | some q => [rpc_event.timeout q]
            | none => []) := htimeout
      cases hto : (r.unreachable ep).timed_out with
      | none =>
        rw [hto] at h2
        cases h2
      | some q =>
        rw [hto] at h2
        simp only [List.mem_singleton, rpc_event.timeout.injEq] at h2
        subst h2
        have h3 := unreachable_erases_one r ep p hto
        show p ∉ (r.unreachable ep).m_transactions
        intro h
        have h4 : 0 < (r.unreachable ep).m_transactions.count p := List.count_pos_iff.mpr h
        omega
    | invoke tid target o now send_ok =>
      have h2 : rpc_event.timeout p ∈ ([] : List rpc_event) := htimeout
      cases h2
  exact ⟨habs, run_keeps_absent node_seen calls p _ habs hcalls⟩

/-- Witness of `timeout_then_no_reply`: the observer 0 is pending once and the
observer 2 twice; `tick` at time 21 times out the observer 0, and the reply that
comes later is delivered to the observer 2. -/
theorem timeout_then_no_reply_witness :
    0 ∉ ((⟨[0, 2, 2], false, sample_observers⟩ : rpc_manager).call (fun _ _ => true)
      (rpc_call.tick 21)).1.m_transactions ∧
    rpc_event.reply 0 ∉ ((⟨[0, 2, 2], false, sample_observers⟩ : rpc_manager).call
      (fun _ _ => true) (rpc_call.tick 21)).1.run (fun _ _ => true)
      [rpc_call.incoming ⟨1, md4_hash.invalid, md4_hash.invalid⟩ ⟨12, 5⟩] :=
  timeout_then_no_reply (fun _ _ => true) ⟨[0, 2, 2], false, sample_observers⟩
    (rpc_call.tick 21) [rpc_call.incoming ⟨1, md4_hash.invalid, md4_hash.invalid⟩ ⟨12, 5⟩] 0
    (by decide) (by decide) (by decide)

/-! ### `session_impl` -/

/-- C17 fails on the code: with no DHT running, `find_sources` records the target in
`m_active_dht_requests` although no search is started; once the DHT is started, a
request for the same target, which is in no search, starts none. -/
theorem find_sources_without_dht :
    ((⟨false, [], []⟩ : dht_session).find_sources spec_hash).m_active_dht_requests
      = [spec_hash] ∧
    ((⟨false, [], []⟩ : dht_session).find_sources spec_hash).searches = [] ∧
    (((⟨false, [], []⟩ : dht_session).find_sources spec_hash).start_dht.find_sources
      spec_hash).searches = [] := by
  decide

theorem lookup_isSome_iff (l : List (md4_hash × transfer)) (h : md4_hash) :
    (l.lookup h).isSome = true ↔ h ∈ l.map Prod.fst := by
  induction l with
  | nil => simp
  | cons x xs ih =>
    obtain ⟨k, v⟩ := x
    by_cases hk : h = k
    · subst hk
      simp [List.lookup]
    · have hb : (h == k) = false := by simpa using hk
      simp only [List.lookup, hb, ih, List.map_cons, List.mem_cons, hk, false_or]

/-- C18: on an aborted session `add_transfer` fails with `session_closing` and
changes nothing; for a file hash that is already in the transfer table it creates no
second transfer: the session (table and queue-position counter included) is
unchanged, and the call returns the handle of the existing transfer, or an invalid
handle and `duplicate_transfer` when `duplicate_is_error` is set; and in every case a
table with at most one transfer per hash stays one. -/
theorem add_transfer_no_duplicate (ses : transfer_session) (params : add_transfer_params)
    (duplicate_is_error : Bool) (ec : errors) :
    (ses.m_abort = true →
      ses.add_transfer params duplicate_is_error ec = ⟨none, errors.session_closing, ses⟩) ∧
    (∀ t : transfer, ses.m_abort = false → ses.find_transfer params.file_hash = some t →
      ses.add_transfer params duplicate_is_error ec =
        (if duplicate_is_error then ⟨none, errors.duplicate_transfer, ses⟩
          else ⟨some t, ec, ses⟩)) ∧
    ((ses.m_transfers.map Prod.fst).Nodup →
      ((ses.add_transfer params duplicate_is_error ec).ses.m_transfers.map Prod.fst).Nodup) := by
  refine ⟨?_, ?_, ?_⟩
  · intro ha
    unfold transfer_session.add_transfer
    rw [if_pos ha]
  · intro t ha hf
    unfold transfer_session.add_transfer
    rw [if_neg (by simp [ha]), hf]
    cases duplicate_is_error <;> simp
  · intro hn
    unfold transfer_session.add_transfer
    by_cases ha : ses.m_abort = true
    · rw [if_pos ha]
      exact hn
    · rw [if_neg ha]
      cases hf : ses.find_transfer params.file_hash with
      | some t =>
        simp only
        split <;> exact hn
      | none =>
        have hnot : params.file_hash ∉ ses.m_transfers.map Prod.fst := by
          intro hmem
          have := (lookup_isSome_iff ses.m_transfers params.file_hash).mpr hmem
          unfold transfer_session.find_transfer at hf
          rw [hf] at this
          cases this
        simp only [List.map_append, List.map_cons, List.map_nil]
        rw [List.nodup_append]
        refine ⟨hn, List.nodup_singleton _, ?_⟩
        intro a ha1 ha2
        rw [List.mem_singleton] at ha2
        exact hnot (ha2 ▸ ha1)

theorem dequeue_scan_next_mem (qp : transfer_ptr → Int) (t : transfer_ptr)
    (L rest : List transfer_ptr) (hsub : ∀ x ∈ rest, x ∈ L) :
    ∀ (idx : Nat) (nc : transfer_ptr) (done : Option Nat), nc ∈ L →
      (dequeue_scan qp t rest idx nc done).1 ∈ L := by
  induction rest with
  | nil =>
    intro idx nc done hnc
    exact hnc
  | cons i rest ih =>
    intro idx nc done hnc
    rw [dequeue_scan]
    apply ih (fun x hx => hsub x (List.mem_cons_of_mem _ hx))
    split
    · exact hsub i (List.mem_cons_self _ _)
    · exact hnc

theorem dequeue_scan_done (qp : transfer_ptr → Int) (t : transfer_ptr)
    (rest : List transfer_ptr) :
    ∀ (idx : Nat) (nc : transfer_ptr) (done : Option Nat) (d : Nat),
      (dequeue_scan qp t rest idx nc done).2 = some d →
        done = some d ∨ (idx ≤ d ∧ rest[d - idx]? = some t) := by
  induction rest with
  | nil =>
    intro idx nc done d h
    exact Or.inl h
  | cons i rest ih =>
    intro idx nc done d h
    rw [dequeue_scan] at h
    rcases ih _ _ _ d h with h1 | ⟨h1, h2⟩
    · by_cases hit : i = t
      · rw [if_pos hit] at h1
        right
        have hd : idx = d := Option.some.inj h1
        subst hd
        simp [hit]
      · rw [if_neg hit] at h1
        exact Or.inl h1
    · right
      refine ⟨by omega, ?_⟩
      have e : d - idx = (d - (idx + 1)) + 1 := by omega
      rw [e, List.getElem?_cons_succ]
      exact h2

theorem not_mem_eraseIdx_of_nodup (L : List transfer_ptr) (d : Nat) (t : transfer_ptr)
    (hn : L.Nodup) (hd : L[d]? = some t) : t ∉ L.eraseIdx d := by
  induction L generalizing d with
  | nil => simp
  | cons x xs ih =>
    have hx := List.nodup_cons.mp hn
    cases d with
    | zero =>
      simp only [List.getElem?_cons_zero, Option.some.injEq] at hd
      subst hd
      simpa using hx.1
    | succ d =>
      simp only [List.getElem?_cons_succ] at hd
      simp only [List.eraseIdx_cons_succ, List.mem_cons, not_or]
      refine ⟨?_, ih d hx.2 hd⟩
      intro h
      subst h
      exact hx.1 (List.getElem?_mem hd)

theorem queue_keeps_one_checking (s : check_session) (t : transfer_ptr)
    (hinv : s.one_checking) (hpre : s.asserted (check_call.queue t)) :
    (s.queue_check_transfer t).one_checking := by
  obtain ⟨hn, hst, huniq⟩ := hinv
  obtain ⟨_, hnot⟩ := hpre
  unfold check_session.queue_check_transfer
  by_cases ha : s.m_abort = true
  · rw [if_pos ha]
    exact ⟨hn, hst, huniq⟩
  · rw [if_neg ha]
    have hne : ∀ x ∈ s.m_queued_for_checking, x ≠ t := fun x hx h => hnot (h ▸ hx)
    by_cases he : s.m_queued_for_checking = []
    · simp only [he, if_true, List.nil_append, check_session.one_checking,
        check_session.start_checking, check_session.set_state, List.mem_singleton]
      refine ⟨List.nodup_singleton _, ?_, ?_⟩
      · intro x hx
        left
        simp [hx]
      · intro x hx y hy _ _
        rw [hx, hy]
    · simp only [he, if_false, check_session.one_checking, check_session.set_state,
        List.mem_append, List.mem_singleton]
      refine ⟨?_, ?_, ?_⟩
      · rw [List.nodup_append]
        refine ⟨hn, List.nodup_singleton _, ?_⟩
        intro a ha1 ha2
        rw [List.mem_singleton] at ha2
        exact hnot (ha2 ▸ ha1)
      · intro x hx
        rcases hx with hx | hx
        · rw [if_neg (hne x hx)]
          exact hst x hx
        · right
          rw [if_pos hx]
      · intro x hx y hy hcx hcy
        rcases hx with hx | hx
        · rcases hy with hy | hy
          · rw [if_neg (hne x hx)] at hcx
            rw [if_neg (hne y hy)] at hcy
            exact huniq x hx y hy hcx hcy
          · rw [if_pos hy] at hcy
            cases hcy
        · rw [if_pos hx] at hcx
          cases hcx

theorem dequeue_keeps_one_checking (s : check_session) (t : transfer_ptr)
    (hinv : s.one_checking) :
    (s.dequeue_check_transfer t).one_checking := by
  obtain ⟨hn, hst, huniq⟩ := hinv
  unfold check_session.dequeue_check_transfer
  cases hq : s.m_queued_for_checking with
  | nil =>
    simp only
    exact ⟨hn, hst, huniq⟩
  | cons first tl =>
    simp only
    rw [← hq]
    cases hdone : (dequeue_scan s.queue_position t s.m_queued_for_checking 0 first none).2 with
    | none =>
      simp only
      exact ⟨hn, hst, huniq⟩
    | some d =>
      simp only
      have hfirst : first ∈ s.m_queued_for_checking := by
        rw [hq]
        exact List.mem_cons_self _ _
      have hnext := dequeue_scan_next_mem s.queue_position t s.m_queued_for_checking
        s.m_queued_for_checking (fun x hx => hx) 0 first none hfirst
      have hd : s.m_queued_for_checking[d]? = some t := by
        rcases dequeue_scan_done s.queue_position t s.m_queued_for_checking 0 first none d hdone
          with h1 | ⟨_, h2⟩
        · cases h1
        · simpa using h2
      have htq : t ∈ s.m_queued_for_checking := List.getElem?_mem hd
      have hterase := not_mem_eraseIdx_of_nodup _ d t hn hd
      have hsub : ∀ x ∈ s.m_queued_for_checking.eraseIdx d, x ∈ s.m_queued_for_checking :=
        fun x hx => (List.eraseIdx_sublist _ _).subset hx
      have hn2 : (s.m_queued_for_checking.eraseIdx d).Nodup :=
        hn.sublist (List.eraseIdx_sublist _ _)
      by_cases hc : (dequeue_scan s.queue_position t s.m_queued_for_checking 0 first none).1 ≠ t ∧
          s.state t = transfer_state.checking_files
      · rw [if_pos hc]
        simp only [check_session.one_checking, check_session.start_checking,
          check_session.set_state]
        refine ⟨hn2, ?_, ?_⟩
        · intro x hx
          by_cases hxn : x = (dequeue_scan s.queue_position t s.m_queued_for_checking 0 first none).1
          · left
            rw [if_pos hxn]
          · rw [if_neg hxn]
            exact hst x (hsub x hx)
        · intro x hx y hy hcx hcy
          have key : ∀ z ∈ s.m_queued_for_checking.eraseIdx d,
              (if z = (dequeue_scan s.queue_position t s.m_queued_for_checking 0 first none).1
                then transfer_state.checking_files else s.state z) =
                transfer_state.checking_files →
              z = (dequeue_scan s.queue_position t s.m_queued_for_checking 0 first none).1 := by
            intro z hz hcz
            by_cases hzn : z = (dequeue_scan s.queue_position t s.m_queued_for_checking 0
                first none).1
            · exact hzn
            · rw [if_neg hzn] at hcz
              have hzt : z = t := huniq z (hsub z hz) t htq hcz hc.2
              rw [hzt] at hz
              exact absurd hz hterase
          rw [key x hx hcx, key y hy hcy]
      · rw [if_neg hc]
        exact ⟨hn2, fun x hx => hst x (hsub x hx),
          fun x hx y hy => huniq x (hsub x hx) y (hsub y hy)⟩

theorem run_keeps_one_checking (calls : List check_call) : ∀ s : check_session,
    s.one_checking → s.valid calls → (s.run calls).one_checking := by
  induction calls with
  | nil =>
    intro s hinv _
    exact hinv
  | cons c cs ih =>
    intro s hinv hvalid
    rw [check_session.run]
    apply ih _ _ hvalid.2
    cases c with
    | queue t => exact queue_keeps_one_checking s t hinv hvalid.1
    | dequeue t => exact dequeue_keeps_one_checking s t hinv

/-- C19: after every sequence of `queue_check_transfer` and `dequeue_check_transfer`
calls that satisfy their asserted preconditions, started with an empty check queue,
at most one transfer in the queue is in state `checking_files` and every other
transfer in the queue is in state `queued_for_checking`. -/
theorem check_queue_one_checking (s : check_session) (calls : List check_call)
    (hempty : s.m_queued_for_checking = []) (hvalid : s.valid calls) :
    (∀ x ∈ (s.run calls).m_queued_for_checking, ∀ y ∈ (s.run calls).m_queued_for_checking,
      (s.run calls).state x = transfer_state.checking_files →
      (s.run calls).state y = transfer_state.checking_files → x = y) ∧
    (∀ x ∈ (s.run calls).m_queued_for_checking,
      (s.run calls).state x ≠ transfer_state.checking_files →
      (s.run calls).state x = transfer_state.queued_for_checking) := by
  have h0 : s.one_checking := by
    unfold check_session.one_checking
    rw [hempty]
    refine ⟨List.nodup_nil, ?_, ?_⟩
    · intro x hx
      cases hx
    · intro x hx
      cases hx
  obtain ⟨_, hst, huniq⟩ := run_keeps_one_checking calls s h0 hvalid
  exact ⟨huniq, fun x hx hne => (hst x hx).resolve_left hne⟩

/-- Witness of `check_queue_one_checking`: three transfers are queued and the one
that is checking is dequeued. -/
theorem check_queue_one_checking_witness :
    (∀ x ∈ ((⟨false, [], fun _ => transfer_state.paused, fun q => q⟩ : check_session).run
        [check_call.queue 1, check_call.queue 2, check_call.queue 3,
          check_call.dequeue 1]).m_queued_for_checking,
      ∀ y ∈ ((⟨false, [], fun _ => transfer_state.paused, fun q => q⟩ : check_session).run
        [check_call.queue 1, check_call.queue 2, check_call.queue 3,
          check_call.dequeue 1]).m_queued_for_checking,
      ((⟨false, [], fun _ => transfer_state.paused, fun q => q⟩ : check_session).run
        [check_call.queue 1, check_call.queue 2, check_call.queue 3,
          check_call.dequeue 1]).state x = transfer_state.checking_files →
      ((⟨false, [], fun _ => transfer_state.paused, fun q => q⟩ : check_session).run
        [check_call.queue 1, check_call.queue 2, check_call.queue 3,
          check_call.dequeue 1]).state y = transfer_state.checking_files → x = y) ∧
    (∀ x ∈ ((⟨false, [], fun _ => transfer_state.paused, fun q => q⟩ : check_session).run
        [check_call.queue 1, check_call.queue 2, check_call.queue 3,
          check_call.dequeue 1]).m_queued_for_checking,
      ((⟨false, [], fun _ => transfer_state.paused, fun q => q⟩ : check_session).run
        [check_call.queue 1, check_call.queue 2, check_call.queue 3,
          check_call.dequeue 1]).state x ≠ transfer_state.checking_files →
      ((⟨false, [], fun _ => transfer_state.paused, fun q => q⟩ : check_session).run
        [check_call.queue 1, check_call.queue 2, check_call.queue 3,
          check_call.dequeue 1]).state x = transfer_state.queued_for_checking) :=
  check_queue_one_checking ⟨false, [], fun _ => transfer_state.paused, fun q => q⟩
    [check_call.queue 1, check_call.queue 2, check_call.queue 3, check_call.dequeue 1] rfl
    (by
      refine ⟨⟨by decide, by decide⟩, ⟨by decide, by decide⟩, ⟨by decide, by decide⟩,
        ⟨by decide, by decide⟩, trivial⟩)

/-- C20 fails on the code: with the default `connection_speed` of 6, one active
transfer that wants more peers and whose connect attempts all succeed, 8 free
half-open slots and a connections limit of 200, one call of `connect_new_peers`
makes 10 successful connect attempts: the loop counts down from the constant 10 and
never reads `connection_speed`. -/
theorem connect_new_peers_ignores_speed :
    ∃ s : connect_state,
      connect_new_peers eager_env ⟨6, 200⟩ false 8 0 0 = some s ∧
      s.connected.length = 10 ∧
      ¬ ((s.connected.length : Int) ≤ (⟨6, 200⟩ : session_settings).connection_speed) := by
  refine ⟨⟨0, 0, -2, 1, 10, 200, 10, [0, 0, 0, 0, 0, 0, 0, 0, 0, 0]⟩, ?_, ?_, ?_⟩
  · decide
  · rfl
  · decide

theorem connect_round_connected (env : connect_env) (s : connect_state) :
    ((connect_round env s).connected.length : Int) + (connect_round env s).max_connections_per_second
      = (s.connected.length : Int) + s.max_connections_per_second := by
  unfold connect_round
  by_cases hw : env.want_more_peers s.round s.next = true
  · rw [if_pos hw]
    cases env.try_connect_peer s.round s.next
    · simp only [List.length_append, List.length_singleton, Nat.cast_add, Nat.cast_one]
      omega
    · rfl
    · rfl
  · rw [if_neg hw]

theorem connect_round_max (env : connect_env) (s : connect_state) :
    s.max_connections_per_second - 1 ≤ (connect_round env s).max_connections_per_second := by
  unfold connect_round
  by_cases hw : env.want_more_peers s.round s.next = true
  · rw [if_pos hw]
    cases env.try_connect_peer s.round s.next
    · simp only
      omega
    · simp only
      omega
    · simp only
      omega
  · rw [if_neg hw]
    simp only
    omega

/-- In one call of `connect_new_peers` at most ten connect attempts succeed. -/
theorem connect_loop_at_most (env : connect_env) (fuel : Nat) :
    ∀ s r : connect_state, 0 < s.max_connections_per_second →
      connect_loop env fuel s = some r →
      (r.connected.length : Int) ≤ (s.connected.length : Int) + s.max_connections_per_second := by
  induction fuel with
  | zero =>
    intro s r _ h
    cases h
  | succ fuel ih =>
    intro s r hpos h
    have h1 := connect_round_connected env s
    have h2 := connect_round_max env s
    rw [connect_loop] at h
    by_cases hd : connect_done env (connect_round env s) = true
    · rw [if_pos hd] at h
      cases h
      omega
    · rw [if_neg hd] at h
      have hne : (connect_round env s).max_connections_per_second ≠ 0 := by
        intro h0
        apply hd
        simp [connect_done, h0]
      have := ih (connect_round env s) r (by omega) h
      omega

/-! ### `session_impl::connect_new_peers`: round robin -/

theorem connect_round_eager (env : connect_env) (s : connect_state)
    (hwant : ∀ r i, env.want_more_peers r i = true)
    (htry : ∀ r i, env.try_connect_peer r i = connect_outcome.connected) :
    connect_round env s =
      ⟨(s.next + 1) % env.num_active_transfers, s.max_connections_per_second - 1,
        s.free_slots - 1, 1, s.num_connections + 1, s.connections_limit, s.round + 1,
        s.connected ++ [s.next]⟩ := by
  simp [connect_round, hwant, htry]

theorem connect_loop_eager (env : connect_env)
    (hwant : ∀ r i, env.want_more_peers r i = true)
    (htry : ∀ r i, env.try_connect_peer r i = connect_outcome.connected) (fuel : Nat) :
    ∀ (s : connect_state) (m : Nat), s.max_connections_per_second = (m : Int) + 1 → m < fuel →
      s.next < env.num_active_transfers →
      ∃ r n, connect_loop env fuel s = some r ∧
        r.connected = s.connected ++
          (List.range n).map (fun k => (s.next + k) % env.num_active_transfers) ∧
        r.next = (s.next + n) % env.num_active_transfers := by
  induction fuel with
  | zero =>
    intro s m _ h
    omega
  | succ fuel ih =>
    intro s m hm hlt hnext
    have hr := connect_round_eager env s hwant htry
    rw [connect_loop]
    by_cases hd : connect_done env (connect_round env s) = true
    · rw [if_pos hd]
      refine ⟨connect_round env s, 1, rfl, ?_, ?_⟩
      · rw [hr]
        simp [List.range_succ, Nat.mod_eq_of_lt hnext]
      · rw [hr]
    · rw [if_neg hd]
      have hmax : (connect_round env s).max_connections_per_second = (m : Int) := by
        rw [hr]
        simp only
        omega
      have hne : (connect_round env s).max_connections_per_second ≠ 0 := by
        intro h0
        apply hd
        simp [connect_done, h0]
      have hK : 0 < env.num_active_transfers := by omega
      obtain ⟨m1, hm1⟩ : ∃ m1, m = m1 + 1 := by
        refine ⟨m - 1, ?_⟩
        have : (m : Int) ≠ 0 := by rw [← hmax]; exact hne
        omega
      have hnext1 : (connect_round env s).next < env.num_active_transfers := by
        rw [hr]
        exact Nat.mod_lt _ hK
      obtain ⟨r, n, h1, h2, h3⟩ := ih (connect_round env s) m1
        (by rw [hmax, hm1]; push_cast; ring) (by omega) hnext1
      refine ⟨r, n + 1, h1, ?_, ?_⟩
      · rw [h2, hr]
        simp only [List.range_succ_eq_map, List.map_cons, List.map_map, List.append_assoc,
          List.singleton_append, Nat.add_zero, Nat.mod_eq_of_lt hnext]
        congr 2
        apply List.map_congr_left
        intro k _
        simp only [Function.comp, Nat.mod_add_mod]
        congr 1
        omega
      · rw [h3, hr]
        simp only [Nat.mod_add_mod]
        congr 1
        omega

theorem connect_new_peers_eager (env : connect_env) (hK : 1 ≤ env.num_active_transfers)
    (hwant : ∀ r i, env.want_more_peers r i = true)
    (htry : ∀ r i, env.try_connect_peer r i = connect_outcome.connected)
    (c : connect_call) (next : Nat) :
    ∃ r n, connect_new_peers env c.settings c.m_abort c.free_slots c.num_connections next =
        some r ∧
      r.connected = (List.range n).map
        (fun k => ((if next < env.num_active_transfers then next else 0) + k) %
          env.num_active_transfers) ∧
      (if r.next < env.num_active_transfers then r.next else 0) =
        ((if next < env.num_active_transfers then next else 0) + n) %
          env.num_active_transfers := by
  have hv : (if next < env.num_active_transfers then next else 0) < env.num_active_transfers := by
    split
    · assumption
    · omega
  unfold connect_new_peers
  split
  · obtain ⟨r, n, h1, h2, h3⟩ := connect_loop_eager env hwant htry
      (11 * (2 * env.num_active_transfers + 2))
      ⟨if next < env.num_active_transfers then next else 0, 10, c.free_slots, 0,
        c.num_connections, c.settings.connections_limit, 0, []⟩ 9 (by simp) (by omega) hv
    refine ⟨r, n, h1, ?_, ?_⟩
    · simpa using h2
    · have h4 : r.next < env.num_active_transfers := by
        rw [h3]
        exact Nat.mod_lt _ (by omega)
      rw [if_pos h4, h3]
  · refine ⟨_, 0, rfl, ?_, ?_⟩
    · simp
    · simp only [Nat.add_zero]
      exact (Nat.mod_eq_of_lt hv).symm

theorem connect_calls_eager (env : connect_env) (hK : 1 ≤ env.num_active_transfers)
    (hwant : ∀ r i, env.want_more_peers r i = true)
    (htry : ∀ r i, env.try_connect_peer r i = connect_outcome.connected)
    (calls : List connect_call) :
    ∀ (next : Nat) (acc : List Nat) (n0 n : Nat),
      acc = (List.range n).map (fun k => (n0 + k) % env.num_active_transfers) →
      (if next < env.num_active_transfers then next else 0) =
        (n0 + n) % env.num_active_transfers →
      ∃ next1 n1, connect_calls env calls next acc =
        some (next1, (List.range n1).map (fun k => (n0 + k) % env.num_active_transfers)) := by
  induction calls with
  | nil =>
    intro next acc n0 n hacc _
    exact ⟨next, n, by rw [connect_calls, hacc]⟩
  | cons c cs ih =>
    intro next acc n0 n hacc hnext
    obtain ⟨r, m, h1, h2, h3⟩ := connect_new_peers_eager env hK hwant htry c next
    rw [connect_calls, h1]
    apply ih r.next (acc ++ r.connected) n0 (n + m)
    · rw [hacc, h2, hnext, List.range_add, List.map_append, List.map_map]
      congr 1
      apply List.map_congr_left
      intro k _
      simp only [Function.comp, Nat.mod_add_mod]
      congr 1
      omega
    · rw [h3, hnext, Nat.mod_add_mod]
      congr 1
      omega

theorem cyclic_count (K n0 n i : Nat) (hK : 0 < K) (hn0 : n0 < K) (hi : i < K) :
    ((List.range n).map (fun k => (n0 + k) % K)).count i =
      n / K + if (i + K - n0) % K < n % K then 1 else 0 := by
  rw [← Nat.count_modEq_card n hK (i + K - n0), List.count_eq_countP, List.countP_map]
  show _ = List.countP _ (List.range n)
  apply List.countP_congr
  intro k _
  simp only [Function.comp, beq_iff_eq, decide_eq_true_eq]
  have h1 : n0 + (i + K - n0) = i + K := by omega
  constructor
  · intro h
    apply Nat.ModEq.add_left_cancel' n0
    show (n0 + k) % K = (n0 + (i + K - n0)) % K
    rw [h, h1, Nat.add_mod_right, Nat.mod_eq_of_lt hi]
  · intro h
    have h2 : (n0 + k) % K = (n0 + (i + K - n0)) % K := Nat.ModEq.add_left n0 h
    rw [h2, h1, Nat.add_mod_right, Nat.mod_eq_of_lt hi]

/-- Claim C21. Over any number of consecutive calls of `connect_new_peers` with a
fixed set of `K >= 1` active transfers that all want more peers and whose connect
attempts all succeed, whatever the settings, the free half-open slots and the number
of connections each call finds: every call returns, every attempt goes to one of
the `K` transfers, and the numbers of attempts handed to any two of them differ by
at most one. -/
theorem connect_new_peers_fair (env : connect_env) (hK : 1 ≤ env.num_active_transfers)
    (hwant : ∀ r i, env.want_more_peers r i = true)
    (htry : ∀ r i, env.try_connect_peer r i = connect_outcome.connected)
    (calls : List connect_call) (next : Nat) :
    ∃ next1 attempts, connect_calls env calls next [] = some (next1, attempts) ∧
      (∀ i ∈ attempts, i < env.num_active_transfers) ∧
      ∀ i j, i < env.num_active_transfers → j < env.num_active_transfers →
        attempts.count i ≤ attempts.count j + 1 := by
  have hv : (if next < env.num_active_transfers then next else 0) < env.num_active_transfers := by
    split
    · assumption
    · omega
  obtain ⟨next1, n1, h⟩ := connect_calls_eager env hK hwant htry calls next []
    (if next < env.num_active_transfers then next else 0) 0 (by simp)
    (by simp only [Nat.add_zero]; exact (Nat.mod_eq_of_lt hv).symm)
  refine ⟨next1, _, h, ?_, ?_⟩
  · intro i hi
    obtain ⟨k, _, hk⟩ := List.mem_map.mp hi
    rw [← hk]
    exact Nat.mod_lt _ (by omega)
  · intro i j hi hj
    rw [cyclic_count _ _ _ i (by omega) hv hi, cyclic_count _ _ _ j (by omega) hv hj]
    split <;> split <;> omega

/-- Witness of `connect_new_peers_fair`: three transfers and two calls. -/
theorem connect_new_peers_fair_witness :
    ∃ next1 attempts,
      connect_calls ⟨3, 8, fun _ _ => true, fun _ _ => connect_outcome.connected⟩
        [⟨⟨6, 200⟩, false, 8, 0⟩, ⟨⟨6, 200⟩, false, 8, 10⟩] 1 [] = some (next1, attempts) ∧
      (∀ i ∈ attempts, i < 3) ∧
      ∀ i j, i < 3 → j < 3 → attempts.count i ≤ attempts.count j + 1 :=
  connect_new_peers_fair ⟨3, 8, fun _ _ => true, fun _ _ => connect_outcome.connected⟩
    (by decide) (fun _ _ => rfl) (fun _ _ => rfl) [⟨⟨6, 200⟩, false, 8, 0⟩, ⟨⟨6, 200⟩, false, 8, 10⟩] 1

/-! ### `session_impl`: the connection limit -/

theorem connect_round_steps (env : connect_env) (s : connect_state) :
    ((connect_round env s).max_connections_per_second = s.max_connections_per_second - 1 ∧
      (connect_round env s).steps_since_last_connect = 1) ∨
    ((connect_round env s).max_connections_per_second = s.max_connections_per_second ∧
      (connect_round env s).steps_since_last_connect = s.steps_since_last_connect + 1) := by
  unfold connect_round
  by_cases hw : env.want_more_peers s.round s.next = true
  · rw [if_pos hw]
    cases env.try_connect_peer s.round s.next
    · left
      simp
    · right
      simp
    · right
      simp
  · rw [if_neg hw]
    right
    simp

theorem connect_done_false (env : connect_env) (s : connect_state)
    (h : ¬ connect_done env s = true) :
    s.steps_since_last_connect ≤ (env.num_active_transfers : Int) * 2 ∧
      -env.limit < s.free_slots ∧ s.max_connections_per_second ≠ 0 ∧
      s.num_connections < s.connections_limit := by
  simp only [connect_done, Bool.or_eq_true, decide_eq_true_eq, not_or] at h
  omega

/-- The loop of `connect_new_peers` is left for every behaviour of the transfers:
a round that connects lowers `max_connections_per_second`, and a round that does
not raises `steps_since_last_connect`. -/
theorem connect_loop_returns (env : connect_env) (fuel : Nat) :
    ∀ (s : connect_state) (m t : Nat), s.max_connections_per_second = (m : Int) + 1 →
      s.steps_since_last_connect = (t : Int) → t ≤ 2 * env.num_active_transfers →
      m * (2 * env.num_active_transfers + 2) + 2 * env.num_active_transfers + 1 ≤ fuel + t →
      ∃ r, connect_loop env fuel s = some r := by
  induction fuel with
  | zero =>
    intro s m t _ _ ht hf
    omega
  | succ fuel ih =>
    intro s m t hm hs ht hf
    rw [connect_loop]
    by_cases hd : connect_done env (connect_round env s) = true
    · rw [if_pos hd]
      exact ⟨_, rfl⟩
    · rw [if_neg hd]
      obtain ⟨h1, _, h3, _⟩ := connect_done_false env _ hd
      rcases connect_round_steps env s with ⟨h5, h6⟩ | ⟨h5, h6⟩
      · obtain ⟨m1, hm1⟩ : ∃ m1, m = m1 + 1 := ⟨m - 1, by omega⟩
        have hmul : (m1 + 1) * (2 * env.num_active_transfers + 2) =
            m1 * (2 * env.num_active_transfers + 2) + (2 * env.num_active_transfers + 2) :=
          Nat.succ_mul _ _
        rw [hm1, hmul] at hf
        exact ih _ m1 1 (by rw [h5, hm, hm1]; push_cast; ring) (by rw [h6]; rfl) (by omega)
          (by omega)
      · exact ih _ m (t + 1) (by rw [h5, hm]) (by rw [h6, hs]; push_cast; ring) (by omega)
          (by omega)

theorem connect_round_limit (env : connect_env) (s : connect_state)
    (h : s.num_connections < s.connections_limit) :
    (connect_round env s).num_connections ≤ (connect_round env s).connections_limit := by
  unfold connect_round
  by_cases hw : env.want_more_peers s.round s.next = true
  · rw [if_pos hw]
    cases env.try_connect_peer s.round s.next
    · simp only
      omega
    · simp only
      omega
    · simp only
      split <;> omega
  · rw [if_neg hw]
    simp only
    omega

theorem connect_loop_limit (env : connect_env) (fuel : Nat) :
    ∀ s r : connect_state, s.num_connections < s.connections_limit →
      connect_loop env fuel s = some r → r.num_connections ≤ r.connections_limit := by
  induction fuel with
  | zero =>
    intro s r _ h
    cases h
  | succ fuel ih =>
    intro s r hlt h
    rw [connect_loop] at h
    by_cases hd : connect_done env (connect_round env s) = true
    · rw [if_pos hd] at h
      cases h
      exact connect_round_limit env s hlt
    · rw [if_neg hd] at h
      exact ih _ r (connect_done_false env _ hd).2.2.2 h

/-- The member `connect_new_peers` returns for every behaviour of the transfers,
and it keeps the number of connections within `connections_limit` (which it lowers
itself when `try_connect_peer` runs out of memory), a successful `try_connect_peer`
adding one connection. -/
theorem connect_new_peers_limit (env : connect_env) (settings : session_settings)
    (m_abort : Bool) (free_slots num_connections : Int) (next : Nat)
    (h : num_connections ≤ settings.connections_limit) :
    ∃ r, connect_new_peers env settings m_abort free_slots num_connections next = some r ∧
      r.num_connections ≤ r.connections_limit := by
  unfold connect_new_peers
  split
  · rename_i hc
    obtain ⟨r, hr⟩ := connect_loop_returns env (11 * (2 * env.num_active_transfers + 2))
      ⟨if next < env.num_active_transfers then next else 0, 10, free_slots, 0,
        num_connections, settings.connections_limit, 0, []⟩ 9 0 (by simp) (by simp) (by omega)
      (by omega)
    exact ⟨r, hr, connect_loop_limit env _ _ r hc.2.2.1 hr⟩
  · exact ⟨_, rfl, h⟩

/-- The member `incoming_connection` keeps the number of connections within
`connections_limit`. -/
theorem incoming_connection_limit (ses : connection_session) (ec : errors)
    (endp : tcp_endpoint) (blocked is_disconnecting : Bool)
    (h : ses.num_connections ≤ ses.m_settings.connections_limit) :
    (ses.incoming_connection ec endp blocked is_disconnecting).num_connections ≤
      (ses.incoming_connection ec endp blocked is_disconnecting).m_settings.connections_limit := by
  unfold connection_session.incoming_connection
  split
  · exact h
  split
  · exact h
  split
  · exact h
  split
  · exact h
  rename_i hlt
  split
  · split
    · simp only [connection_session.num_connections, connection_session.max_connections,
        List.length_append, List.length_singleton, Nat.cast_add, Nat.cast_one] at hlt ⊢
      omega
    · exact h
  · exact h

/-- Claim C25 fails on the code for `add_peer_connection`, which does not look at
`connections_limit`: in a session that is not aborted and holds as many connections
as the limit allows (one, to 10.0.0.1:4662), a call for another peer
(10.0.0.2:4662) inserts a second connection, and the number of connections is above
the limit. The members `incoming_connection` and `connect_new_peers` keep the
limit (`incoming_connection_limit`, `connect_new_peers_limit`). -/
theorem add_peer_connection_exceeds_limit :
    full_session.num_connections ≤ full_session.m_settings.connections_limit ∧
    (full_session.add_peer_connection same_network_point
      ⟨0x0A000002, 4662⟩ errors.no_error).2.2.num_connections = 2 ∧
    ¬ (full_session.add_peer_connection same_network_point
      ⟨0x0A000002, 4662⟩ errors.no_error).2.2.num_connections ≤
      (full_session.add_peer_connection same_network_point
        ⟨0x0A000002, 4662⟩ errors.no_error).2.2.m_settings.connections_limit := by
  decide

/-! ### `file_pool` -/

theorem min_element_scan_mem (l : List (file_key × lru_file_entry)) :
    ∀ s : file_key × lru_file_entry, min_element_scan s l ∈ s :: l := by
  induction l with
  | nil =>
    intro s
    simp [min_element_scan]
  | cons x rest ih =>
    intro s
    rw [min_element_scan]
    have h := ih (if x.2.last_use < s.2.last_use then x else s)
    rcases List.mem_cons.mp h with h1 | h1
    · rw [h1]
      split <;> simp
    · simp [h1]

theorem min_element_scan_le (l : List (file_key × lru_file_entry)) :
    ∀ s : file_key × lru_file_entry, ∀ e ∈ s :: l,
      (min_element_scan s l).2.last_use ≤ e.2.last_use := by
  induction l with
  | nil =>
    intro s e he
    simp only [List.mem_singleton] at he
    rw [he, min_element_scan]
  | cons x rest ih =>
    intro s e he
    rw [min_element_scan]
    by_cases hc : x.2.last_use < s.2.last_use
    · rw [if_pos hc]
      have hs := ih x x (List.mem_cons_self _ _)
      rcases List.mem_cons.mp he with h1 | h1
      · rw [h1]
        omega
      · rcases List.mem_cons.mp h1 with h2 | h2
        · rw [h2]
          exact hs
        · exact ih _ e (List.mem_cons_of_mem _ h2)
    · rw [if_neg hc]
      have hs := ih s s (List.mem_cons_self _ _)
      rcases List.mem_cons.mp he with h1 | h1
      · rw [h1]
        exact hs
      · rcases List.mem_cons.mp h1 with h2 | h2
        · rw [h2]
          omega
        · exact ih _ e (List.mem_cons_of_mem _ h2)

theorem remove_oldest_spec (p : file_pool) (h : p.m_files ≠ []) :
    ∃ oldest ∈ p.m_files, (∀ e ∈ p.m_files, oldest.2.last_use ≤ e.2.last_use) ∧
      p.remove_oldest = { p with m_files := p.m_files.erase oldest } ∧
      (p.m_files.erase oldest).length + 1 = p.m_files.length := by
  unfold file_pool.remove_oldest
  cases hf : p.m_files with
  | nil => exact absurd hf h
  | cons x rest =>
    have hmem := min_element_scan_mem rest x
    refine ⟨min_element_scan x rest, hmem, min_element_scan_le rest x, rfl, ?_⟩
    rw [List.length_erase_of_mem hmem]
    simp

theorem remove_oldest_length (p : file_pool) :
    p.remove_oldest.m_files.length = p.m_files.length - 1 ∧
      p.remove_oldest.m_size = p.m_size := by
  by_cases h : p.m_files = []
  · simp [file_pool.remove_oldest, h]
  · obtain ⟨oldest, _, _, h2, h3⟩ := remove_oldest_spec p h
    rw [h2]
    exact ⟨by simp only; omega, rfl⟩

theorem file_set_insert_length (k : file_key) (e : lru_file_entry)
    (l : List (file_key × lru_file_entry)) :
    (file_set_insert k e l).length ≤ l.length + 1 := by
  induction l with
  | nil => simp [file_set_insert]
  | cons x rest ih =>
    rw [file_set_insert]
    split
    · simp
    · split
      · simp
      · simp only [List.length_cons]
        omega

theorem file_set_insert_new (k : file_key) (e : lru_file_entry)
    (l : List (file_key × lru_file_entry)) (h : ∀ x ∈ l, x.1 ≠ k) :
    (file_set_insert k e l).length = l.length + 1 ∧ (k, e) ∈ file_set_insert k e l := by
  induction l with
  | nil => simp [file_set_insert]
  | cons x rest ih =>
    have hx : ¬ k = x.1 := fun hk => h x (List.mem_cons_self _ _) hk.symm
    have ih1 := ih (fun y hy => h y (List.mem_cons_of_mem _ hy))
    rw [file_set_insert, if_neg hx]
    split
    · simp
    · simp only [List.length_cons, List.mem_cons]
      exact ⟨by omega, Or.inr ih1.2⟩

theorem resize_loop_spec (fuel : Nat) :
    ∀ p : file_pool, 0 ≤ p.m_size → p.m_files.length < fuel →
      ∃ q, file_pool.resize_loop fuel p = some q ∧ q.m_size = p.m_size ∧
        (q.m_files.length : Int) ≤ q.m_size := by
  induction fuel with
  | zero =>
    intro p _ h
    omega
  | succ fuel ih =>
    intro p hsize hlen
    rw [file_pool.resize_loop]
    split
    · rename_i hgt
      have h1 := remove_oldest_length p
      obtain ⟨q, hq1, hq2, hq3⟩ := ih p.remove_oldest (by rw [h1.2]; exact hsize)
        (by rw [h1.1]; omega)
      exact ⟨q, hq1, by rw [hq2, h1.2], hq3⟩
    · rename_i hle
      exact ⟨p, rfl, rfl, by omega⟩

theorem open_file_length (fm : file_modes) (p : file_pool) (st : Nat) (file_index : Int)
    (m : Nat) (ec : errors) (now : Int) (new_file : Option Nat) (open_ok : Bool)
    (open_ec : errors) (hm : 1 ≤ p.m_size) (hlen : (p.m_files.length : Int) ≤ p.m_size) :
    ((p.open_file fm st file_index m ec now new_file open_ok open_ec).2.2.m_files.length : Int)
        ≤ (p.open_file fm st file_index m ec now new_file open_ok open_ec).2.2.m_size ∧
      (p.open_file fm st file_index m ec now new_file open_ok open_ec).2.2.m_size = p.m_size := by
  unfold file_pool.open_file
  cases p.m_files.find? (fun x => decide (x.1 = (st, file_index))) with
  | some i =>
    simp only
    have hf : ((p.m_files.filter (fun x => decide (x.1 ≠ i.1))).length : Int) ≤ p.m_size := by
      have := List.length_filter_le (fun x => decide (x.1 ≠ i.1)) p.m_files
      omega
    split
    · simp [file_set_assign, hlen]
    · split
      · split
        · exact ⟨hf, rfl⟩
        · simp [file_set_assign, hlen]
      · simp [file_set_assign, hlen]
  | none =>
    simp only
    have h1 := remove_oldest_length p
    have hp1 : ((if (p.m_files.length : Int) ≥ p.m_size then p.remove_oldest else p).m_files.length
        : Int) + 1 ≤ p.m_size ∧
        (if (p.m_files.length : Int) ≥ p.m_size then p.remove_oldest else p).m_size = p.m_size := by
      split
      · rw [h1.1, h1.2]
        omega
      · omega
    cases new_file with
    | none =>
      simp only
      omega
    | some file_ptr =>
      simp only
      split
      · simp only
        omega
      · simp only
        have := file_set_insert_length (st, file_index) ⟨file_ptr, st, now, m⟩
          (if (p.m_files.length : Int) ≥ p.m_size then p.remove_oldest else p).m_files
        omega

/-- Claim C22. For a `file_pool` with size limit `m_size >= 1` that holds at most
`m_size` entries: (1) `open_file` of a file that is not cached, when the pool holds
`m_size` entries, removes exactly one entry, one with the smallest `last_use` of
all, and then inserts the new entry (when the file object could be made and
opened; otherwise nothing is inserted); (2) after every `open_file` the number of
entries is at most the limit, which is unchanged; (3) every `resize(n)` with `n >= 1`
returns and leaves the limit `n` and at most `n` entries. -/
theorem file_pool_lru (fm : file_modes) (p : file_pool) (hm : 1 ≤ p.m_size)
    (hlen : (p.m_files.length : Int) ≤ p.m_size) :
    (∀ (st : Nat) (file_index : Int) (m : Nat) (ec : errors) (now : Int)
        (new_file : Option Nat) (open_ok : Bool) (open_ec : errors),
      p.m_files.find? (fun x => decide (x.1 = (st, file_index))) = none →
      (p.m_files.length : Int) = p.m_size →
      ∃ oldest ∈ p.m_files, (∀ e ∈ p.m_files, oldest.2.last_use ≤ e.2.last_use) ∧
        (p.m_files.erase oldest).length + 1 = p.m_files.length ∧
        (p.open_file fm st file_index m ec now new_file open_ok open_ec).2.2.m_files =
          match new_file with
          | none => p.m_files.erase oldest
          | some file_ptr =>
            if open_ok then
              file_set_insert (st, file_index) ⟨file_ptr, st, now, m⟩ (p.m_files.erase oldest)
            else p.m_files.erase oldest) ∧
    (∀ (st : Nat) (file_index : Int) (m : Nat) (ec : errors) (now : Int)
        (new_file : Option Nat) (open_ok : Bool) (open_ec : errors),
      ((p.open_file fm st file_index m ec now new_file open_ok open_ec).2.2.m_files.length : Int)
          ≤ (p.open_file fm st file_index m ec now new_file open_ok open_ec).2.2.m_size ∧
        (p.open_file fm st file_index m ec now new_file open_ok open_ec).2.2.m_size = p.m_size) ∧
    (∀ n : Int, 1 ≤ n →
      ∃ q, p.resize n = some q ∧ q.m_size = n ∧ (q.m_files.length : Int) ≤ n) := by
  refine ⟨?_, ?_, ?_⟩
  · intro st file_index m ec now new_file open_ok open_ec hfind hfull
    have hne : p.m_files ≠ [] := by
      intro h0
      rw [h0] at hfull
      simp only [List.length_nil, Nat.cast_zero] at hfull
      omega
    obtain ⟨oldest, h1, h2, h3, h4⟩ := remove_oldest_spec p hne
    refine ⟨oldest, h1, h2, h4, ?_⟩
    unfold file_pool.open_file
    rw [hfind]
    simp only
    rw [if_pos (by omega), h3]
    cases new_file with
    | none => rfl
    | some file_ptr =>
      cases open_ok <;> simp
  · intro st file_index m ec now new_file open_ok open_ec
    exact open_file_length fm p st file_index m ec now new_file open_ok open_ec hm hlen
  · intro n hn
    unfold file_pool.resize
    split
    · rename_i h
      exact ⟨p, rfl, h.symm, by omega⟩
    · split
      · rename_i h
        exact ⟨_, rfl, rfl, h⟩
      · obtain ⟨q, h1, h2, h3⟩ := resize_loop_spec (p.m_files.length + 1)
          { p with m_size := n } (by simp only; omega) (by simp)
        refine ⟨q, h1, h2, ?_⟩
        rw [h2] at h3
        exact h3

/-- Witness of `file_pool_lru`: a pool of limit 2 that holds two files. -/
theorem file_pool_lru_witness :
    (1 : Int) ≤ sample_pool.m_size ∧ (sample_pool.m_files.length : Int) ≤ sample_pool.m_size ∧
    (sample_pool.open_file sample_modes 1 2 0 errors.no_error 9 (some 3) true
      errors.no_error).2.2.m_files = [((1, 0), ⟨1, 1, 5, 0⟩), ((1, 2), ⟨3, 1, 9, 0⟩)] ∧
    ∃ q, sample_pool.resize 1 = some q ∧ q.m_size = 1 ∧ (q.m_files.length : Int) ≤ 1 :=
  ⟨by decide, by decide, by decide,
    (file_pool_lru sample_modes sample_pool (by decide) (by decide)).2.2 1 (by decide)⟩

/-! ### `packet_type` and `make_message` -/

/-- Claim C23, as stated, fails for `QUEUERANKING`: the spec lists it under
"Peer TCP", whose messages the claim gives the protocol byte `0xE3`, while
`packet_type<client_queue_ranking>` takes `OP_QUEUERANKING` from
`ED2KExtendedClientTCP` with the protocol `OP_EMULEPROT`, and `make_message` stamps
`0xC5`. -/
theorem make_message_queue_ranking_counterexample :
    (⟨opcode.OP_QUEUERANKING, 0x60, spec_list.peer_tcp⟩ : spec_entry) ∈ spec_opcodes ∧
    packet_type_value message_type.client_queue_ranking = opcode.OP_QUEUERANKING ∧
    (make_message message_type.client_queue_ranking 3).m_protocol.toNat = 0xC5 ∧
    (make_message message_type.client_queue_ranking 3).m_protocol.toNat ≠
      spec_protocol spec_list.peer_tcp := by
  decide

/-- Claim C23, amended. For every message type that has a `packet_type` entry and
every entry of the opcode lists of the spec that names its opcode, `make_message`
stamps the header with the value the spec lists, with the protocol byte `0xE3` for
the messages listed under "Server TCP" and "Peer TCP" other than `QUEUERANKING`,
and with the protocol byte `0xC5` for `QUEUERANKING` and the messages listed under
"Extension (proto 0xC5)". -/
theorem make_message_opcodes (T : message_type) (body_size : Nat) (e : spec_entry)
    (he : e ∈ spec_opcodes) (hT : packet_type_value T = e.name) :
    (make_message T body_size).m_type.toNat = e.value ∧
    (make_message T body_size).m_protocol.toNat =
      if e.name = opcode.OP_QUEUERANKING then 0xC5 else spec_protocol e.list := by
  have h : ∀ T : message_type, ∀ e ∈ spec_opcodes, packet_type_value T = e.name →
      (UInt8.ofNat (packet_type_value T).value).toNat = e.value ∧
      (UInt8.ofNat (packet_type_protocol T)).toNat =
        if e.name = opcode.OP_QUEUERANKING then 0xC5 else spec_protocol e.list := by
    intro T
    cases T <;> decide
  exact h T e he hT

/-- Witness of `make_message_opcodes`: `client_file_status`, listed as
`FILESTATUS=0x50` under "Peer TCP". -/
theorem make_message_opcodes_witness :
    (⟨opcode.OP_FILESTATUS, 0x50, spec_list.peer_tcp⟩ : spec_entry) ∈ spec_opcodes ∧
    (make_message message_type.client_file_status 18).m_type.toNat = 0x50 ∧
    (make_message message_type.client_file_status 18).m_protocol.toNat = 0xE3 :=
  ⟨by decide,
    make_message_opcodes message_type.client_file_status 18
      ⟨opcode.OP_FILESTATUS, 0x50, spec_list.peer_tcp⟩ (by decide) rfl⟩

/-! ### `file2atp`: the piece count -/

/-- The definitions `pieces_count` and `terminal_test` are the variable and the
test of `file2atp`: for a file that opens with a non-zero size, the call does not
return exactly when `pieces_count` is not positive, and when no read fails the
terminal hash is appended exactly when the test holds. -/
theorem file2atp_uses_pieces_count {σ : Type} (H : hasher σ) (terminal : md4_hash)
    (filepath : String) (f : file) (cancel : Nat → Bool)
    (hopen : f.open_ec = errors.no_error) (hsz : f.size_ec = errors.no_error)
    (hsize : f.size ≠ 0) :
    (file2atp H terminal filepath f cancel = none ↔ pieces_count f.size ≤ 0) ∧
    ∀ atp, file2atp H terminal filepath f cancel = some (atp, errors.no_error) →
      atp.piece_hashses =
        (hash_pieces H f cancel (pieces_count f.size).toNat 0
          (resize md4_hash.invalid [] (pieces_count f.size).toNat) f.size 0).2 ++
        (if terminal_test f.size = true then [terminal] else []) := by
  unfold file2atp pieces_count terminal_test
  simp only [hopen, hsz, if_true, true_and, ne_eq, hsize, not_false_eq_true]
  unfold pieces_count
  by_cases hp : to_int (div_ceil f.size PIECE_SIZE) ≤ 0
  · simp [hp]
  · simp only [hp, if_false]
    by_cases hr : (hash_pieces H f cancel (to_int (div_ceil f.size PIECE_SIZE)).toNat 0
        (resize md4_hash.invalid [] (to_int (div_ceil f.size PIECE_SIZE)).toNat) f.size 0).1 =
        errors.no_error
    · simp only [hr, not_true_eq_false, if_false, decide_eq_true_eq]
      refine ⟨by simp, ?_⟩
      intro atp h
      simp only [Option.some.injEq, Prod.mk.injEq, and_true] at h
      rw [← h]
      simp only
      split <;> simp
    · simp only [hr, not_false_eq_true, if_true]
      refine ⟨by simp, ?_⟩
      intro atp h
      simp only [Option.some.injEq, Prod.mk.injEq] at h
      exact absurd h.2 hr

/-- Claim C24, as stated, fails. For the length `L = 2 ^ 63 - 1` the number of
pieces `ceil(L / 9,728,000)` is 948,126,237,342, while the 32-bit `pieces_count` is
-1,061,535,074; and for the length `(2 ^ 32 + 1) * 9,728,000`, a multiple of the piece
size below `2 ^ 63`, `pieces_count` is 1 and the test
`pieces_count * PIECE_SIZE == L` fails. -/
theorem file2atp_pieces_count_counterexample :
    div_ceil (2 ^ 63 - 1) PIECE_SIZE = 948126237342 ∧
    pieces_count (2 ^ 63 - 1) = -1061535074 ∧
    pieces_count (2 ^ 63 - 1) ≠ (div_ceil (2 ^ 63 - 1) PIECE_SIZE : Int) ∧
    4294967297 * 9728000 ≤ 2 ^ 63 - 1 ∧
    (4294967297 * 9728000) % PIECE_SIZE = 0 ∧
    pieces_count (4294967297 * 9728000) = 1 ∧
    terminal_test (4294967297 * 9728000) = false := by
  decide

/-- Claim C24, amended. For every file length `L` with
`1 <= L <= (2 ^ 31 - 1) * 9,728,000`, the piece count that `file2atp` stores in its
`int` variable is `ceil(L / 9,728,000)`, the number `k` with
`(k - 1) * 9,728,000 < L <= k * 9,728,000`, with no truncation or wrap-around, and
the test `pieces_count * PIECE_SIZE == L` holds exactly when `L` is a multiple of
`PIECE_SIZE`. -/
theorem file2atp_pieces_count (L : Nat) (hpos : 1 ≤ L) (hmax : L ≤ (2 ^ 31 - 1) * 9728000) :
    pieces_count L = (div_ceil L PIECE_SIZE : Int) ∧
    (div_ceil L PIECE_SIZE - 1) * 9728000 < L ∧ L ≤ div_ceil L PIECE_SIZE * 9728000 ∧
    (terminal_test L = true ↔ L % PIECE_SIZE = 0) := by
  obtain ⟨h0, hlast, hle, hiff⟩ := div_ceil_bounds L hpos
  have hlt : div_ceil L PIECE_SIZE < 2 ^ 31 := by
    simp only [div_ceil, PIECE_SIZE] at hmax ⊢
    omega
  have hpc : pieces_count L = (div_ceil L PIECE_SIZE : Int) := to_int_of_lt _ hlt
  refine ⟨hpc, hlast, hle, ?_⟩
  rw [terminal_test, hpc, decide_eq_true_eq, ← hiff]
  constructor
  · intro h
    exact_mod_cast h
  · intro h
    exact_mod_cast h

/-- Witness of `file2atp_pieces_count`: a file of exactly two pieces. -/
theorem file2atp_pieces_count_witness :
    pieces_count 19456000 = (div_ceil 19456000 PIECE_SIZE : Int) ∧
    (div_ceil 19456000 PIECE_SIZE - 1) * 9728000 < 19456000 ∧
    19456000 ≤ div_ceil 19456000 PIECE_SIZE * 9728000 ∧
    (terminal_test 19456000 = true ↔ 19456000 % PIECE_SIZE = 0) :=
  file2atp_pieces_count 19456000 (by decide) (by decide)

/-! ### `rpc_manager::tick` -/

/-- Claim C27 fails on the code. The encoder compares the number of bits with the
number of set bits the wrong way round (`bits < m_status.count()`), and no bitfield
has more set bits than bits: for every bitfield of fewer than 65536 bits, part file
or not, it writes the file hash followed by a zero count and no bitfield bytes. -/
theorem client_file_status_save_zero_count (s : client_file_status)
    (hn : s.m_status.size < 65536) :
    s.save = s.m_hFile.save ++ save_uint 2 0 := by
  have hc : s.m_status.count ≤ s.m_status.size := List.count_le_length _ _
  have hb : s.m_status.size % 2 ^ 16 = s.m_status.size := Nat.mod_eq_of_lt (by omega)
  unfold client_file_status.save
  simp only [hb]
  rw [if_neg (by omega)]

/-- Witness of `client_file_status_save_zero_count`: for a part file of two pieces,
the first one there and the second one not, the encoder writes the hash and the
bytes 00 00, where a part file is to be written as the hash, the count 02 00 and
the bitfield byte 80. -/
theorem client_file_status_save_zero_count_witness :
    part_file_status.m_status.count < part_file_status.m_status.size ∧
    part_file_status.save = spec_hash.m_hash ++ [0, 0] ∧
    part_file_encoding part_file_status = spec_hash.m_hash ++ [2, 0, 0x80] ∧
    part_file_status.save ≠ part_file_encoding part_file_status :=
  ⟨by decide, client_file_status_save_zero_count part_file_status (by decide), by decide,
    by decide⟩

/-! ### `dequeue_check_transfer`: the transfer started next -/

/-- Claim C28 fails on the code. (1) The transfers 0, 1 and 2, with the queue
positions 5, 7 and 1, are queued in this order and transfer 0, which is checking,
is dequeued: transfer 2 is started and the queue is 1, 2. When transfer 2, still
checking, is dequeued, the scan ends with `next_check == t`, no transfer is
started, and transfer 1 stays in the queue in state `queued_for_checking`.
(2) The transfers 0, 1, 2 and 3, with the queue positions 2, 5, 1 and 9, are queued
and transfer 0 is dequeued: transfer 2 is started. When transfer 2 is dequeued,
transfer 3 with the queue position 9 is started, not transfer 1 with the queue
position 5. -/
theorem dequeue_check_transfer_next_check :
    check_session_a.valid [check_call.queue 0, check_call.queue 1, check_call.queue 2,
      check_call.dequeue 0, check_call.dequeue 2] ∧
    (check_session_a.run [check_call.queue 0, check_call.queue 1, check_call.queue 2,
      check_call.dequeue 0]).m_queued_for_checking = [1, 2] ∧
    (check_session_a.run [check_call.queue 0, check_call.queue 1, check_call.queue 2,
      check_call.dequeue 0]).state 2 = transfer_state.checking_files ∧
    (check_session_a.run [check_call.queue 0, check_call.queue 1, check_call.queue 2,
      check_call.dequeue 0, check_call.dequeue 2]).m_queued_for_checking = [1] ∧
    (check_session_a.run [check_call.queue 0, check_call.queue 1, check_call.queue 2,
      check_call.dequeue 0, check_call.dequeue 2]).state 1 =
        transfer_state.queued_for_checking ∧
    check_session_b.valid [check_call.queue 0, check_call.queue 1, check_call.queue 2,
      check_call.queue 3, check_call.dequeue 0, check_call.dequeue 2] ∧
    (check_session_b.run [check_call.queue 0, check_call.queue 1, check_call.queue 2,
      check_call.queue 3, check_call.dequeue 0]).m_queued_for_checking = [1, 2, 3] ∧
    (check_session_b.run [check_call.queue 0, check_call.queue 1, check_call.queue 2,
      check_call.queue 3, check_call.dequeue 0]).state 2 = transfer_state.checking_files ∧
    (check_session_b.run [check_call.queue 0, check_call.queue 1, check_call.queue 2,
      check_call.queue 3, check_call.dequeue 0, check_call.dequeue 2]).m_queued_for_checking =
        [1, 3] ∧
    (check_session_b.run [check_call.queue 0, check_call.queue 1, check_call.queue 2,
      check_call.queue 3, check_call.dequeue 0, check_call.dequeue 2]).state 3 =
        transfer_state.checking_files ∧
    (check_session_b.run [check_call.queue 0, check_call.queue 1, check_call.queue 2,
      check_call.queue 3, check_call.dequeue 0, check_call.dequeue 2]).state 1 =
        transfer_state.queued_for_checking ∧
    check_session_b.queue_position 1 < check_session_b.queue_position 3 := by
  refine ⟨?_, by decide, by decide, by decide, by decide, ?_, by decide, by decide, by decide,
    by decide, by decide, by decide⟩
  · exact ⟨⟨by decide, by decide⟩, ⟨by decide, by decide⟩, ⟨by decide, by decide⟩,
      ⟨by decide, by decide⟩, ⟨by decide, by decide⟩, trivial⟩
  · exact ⟨⟨by decide, by decide⟩, ⟨by decide, by decide⟩, ⟨by decide, by decide⟩,
      ⟨by decide, by decide⟩, ⟨by decide, by decide⟩, ⟨by decide, by decide⟩, trivial⟩

/-! ### `global_server_state_res` -/

theorem state_counter (w n : Nat) (hw : 3 ≤ w) (hn : n + 4 < 2 ^ w) :
    size_t_sub w (n % 2 ^ w) (size_t_sub w (size_t_sub w 4 4) 4) = n + 4 := by
  have h8 : 2 ^ 3 ≤ 2 ^ w := Nat.pow_le_pow_right (by decide) hw
  have h4 : 4 % 2 ^ w = 4 := Nat.mod_eq_of_lt (by omega)
  have hn1 : n % 2 ^ w = n := Nat.mod_eq_of_lt (by omega)
  have e1 : size_t_sub w 4 4 = 0 := by
    unfold size_t_sub
    rw [h4]
    have : 4 + 2 ^ w - 4 = 2 ^ w := by omega
    rw [this, Nat.mod_self]
  have e2 : size_t_sub w 0 4 = 2 ^ w - 4 := by
    unfold size_t_sub
    rw [h4, Nat.zero_mod, Nat.zero_add]
    exact Nat.mod_eq_of_lt (by omega)
  rw [e1, e2]
  unfold size_t_sub
  rw [Nat.mod_mod, hn1]
  have e3 : (2 ^ w - 4) % 2 ^ w = 2 ^ w - 4 := Nat.mod_eq_of_lt (by omega)
  rw [e3]
  have e4 : n + 2 ^ w - (2 ^ w - 4) = n + 4 := by omega
  rw [e4]
  exact Nat.mod_eq_of_lt hn

theorem read_member_ok (x : state_member) (s : iresult global_server_state_res)
    (hec : s.ec = errors.no_error) (hlen : x.sizeof ≤ s.rest.length) :
    read_member x s =
      ⟨errors.no_error, x.assign (le_value (s.rest.take x.sizeof)) s.value,
        s.rest.drop x.sizeof⟩ := by
  unfold read_member load_uint
  simp [hec, hlen]

theorem DECREMENT_READ_all (n : Nat) (xs : List state_member) :
    ∀ s : iresult global_server_state_res, s.ec = errors.no_error →
      (∀ x ∈ xs, x.sizeof ≤ n) → (xs.map state_member.sizeof).sum ≤ s.rest.length →
      (DECREMENT_READ n xs s).ec = errors.no_error ∧
      (DECREMENT_READ n xs s).rest = s.rest.drop (xs.map state_member.sizeof).sum ∧
      DECREMENT_READ n xs s = xs.foldl (fun s x => read_member x s) s := by
  induction xs with
  | nil =>
    intro s hec _ _
    simp [DECREMENT_READ, hec]
  | cons x xs ih =>
    intro s hec hn hlen
    simp only [List.map_cons, List.sum_cons] at hlen
    have hr := read_member_ok x s hec (by omega)
    have hx : n ≥ x.sizeof := hn x (List.mem_cons_self _ _)
    have hec1 : (read_member x s).ec = errors.no_error := by rw [hr]
    obtain ⟨h1, h2, h3⟩ := ih (read_member x s) hec1
      (fun y hy => hn y (List.mem_cons_of_mem _ hy))
      (by rw [hr]; simp only [List.length_drop]; omega)
    rw [DECREMENT_READ, if_pos hx, if_neg (by rw [hec1]; simp)]
    refine ⟨h1, ?_, ?_⟩
    · rw [h2, hr]
      simp only [List.drop_drop, List.map_cons, List.sum_cons]
    · rw [h3]
      rfl

/-- Claim C29 fails on the code. The expression subtracted from the counter,
`sizeof(m_nChallenge) - sizeof(m_nUsersCount) - sizeof(m_nFilesCount)`, is `-4` in
`size_t`, so the counter becomes `n + 4` instead of `n - 12`, and `DECREMENT_READ`
never lowers it: for every maximum size `n` with `n + 4` in the range of `size_t`
and every input of at least 40 bytes, all eight optional members are read, 40
bytes in all, whatever `n` is. -/
theorem global_server_state_res_reads_all (w : Nat) (g : global_server_state_res)
    (input : List UInt8) (hw : 3 ≤ w) (hn : g.m_nMaxSize + 4 < 2 ^ w)
    (hlen : 40 ≤ input.length) :
    (g.load w input).ec = errors.no_error ∧
    (g.load w input).rest = input.drop 40 ∧
    g.load w input =
      (mandatory_members ++ optional_members).foldl (fun s x => read_member x s)
        ⟨errors.no_error, g, input⟩ := by
  have hm := DECREMENT_READ_all 4 mandatory_members ⟨errors.no_error, g, input⟩ rfl
    (by decide) (by simp only [mandatory_members, List.map_cons, List.map_nil, List.sum_cons,
      List.sum_nil]; omega)
  obtain ⟨hm1, hm2, hm3⟩ := hm
  rw [hm3] at hm1 hm2
  have ho := DECREMENT_READ_all (g.m_nMaxSize + 4) optional_members
    (mandatory_members.foldl (fun s x => read_member x s) ⟨errors.no_error, g, input⟩) hm1
    (by
      intro x hx
      simp only [optional_members, List.mem_cons, List.mem_singleton, List.not_mem_nil,
        or_false] at hx
      rcases hx with h | h | h | h | h | h | h | h <;> rw [h] <;> simp only <;> omega)
    (by
      rw [hm2]
      simp only [mandatory_members, optional_members, List.map_cons, List.map_nil,
        List.sum_cons, List.sum_nil, List.length_drop]
      omega)
  obtain ⟨ho1, ho2, ho3⟩ := ho
  unfold global_server_state_res.load
  simp only [hm1, ne_eq, not_true_eq_false, if_false, state_counter w _ hw hn]
  refine ⟨ho1, ?_, ?_⟩
  · rw [ho2, hm2]
    simp only [mandatory_members, optional_members, List.map_cons, List.map_nil,
      List.sum_cons, List.sum_nil, List.drop_drop]
    rfl
  · rw [ho3, List.foldl_append]

/-- Witness of `global_server_state_res_reads_all`: with the maximum size 12 and a
datagram of 40 bytes, the decoder reads the 28 bytes that follow byte 12 (the last
member is set from the bytes 36 to 39), and with a datagram of 12 bytes it tries to
read the member `m_nCurrentMaxUsers` past the end, and the read fails. -/
theorem global_server_state_res_reads_all_witness :
    (empty_state_res.load 64 (List.replicate 36 (0 : UInt8) ++ [1, 2, 3, 4])).rest =
      (List.replicate 36 (0 : UInt8) ++ [1, 2, 3, 4]).drop 40 ∧
    (empty_state_res.load 64 (List.replicate 36 (0 : UInt8) ++ [1, 2, 3, 4])).value.m_nServerUDPKey =
      0x04030201 ∧
    (empty_state_res.load 64 (List.replicate 12 (0 : UInt8))).ec = errors.unexpected_istream_error :=
  ⟨(global_server_state_res_reads_all 64 empty_state_res (List.replicate 36 (0 : UInt8) ++ [1, 2, 3, 4])
      (by decide) (by decide) (by decide)).2.1, by decide, by decide⟩

/-! ### `session_impl::update_connections_limit` -/

theorem above_average_spec (last_average average : Int) (nums : List Int) :
    ∀ acc : Int × Int, above_average last_average average nums acc =
      (acc.1 + above_count last_average average nums,
        acc.2 + unused_slots last_average average nums) := by
  induction nums with
  | nil =>
    intro acc
    simp [above_average, above_count, unused_slots]
  | cons num rest ih =>
    intro acc
    rw [above_average]
    simp only [above_count, unused_slots, List.map_cons, List.sum_cons] at ih ⊢
    by_cases h1 : num ≤ last_average
    · rw [if_pos h1, ih]
      have h2 : ¬ last_average < num := by omega
      simp only [h2, false_and, if_false, Int.zero_add]
    · rw [if_neg h1, ih]
      have h2 : last_average < num := by omega
      simp only [h2, true_and, gt_iff_lt]
      by_cases h3 : average < num
      · have h4 : ¬ num < average := by omega
        simp only [h3, h4, if_true, if_false, Prod.mk.injEq]
        constructor <;> omega
      · by_cases h4 : num < average
        · simp only [h3, h4, if_true, if_false, Prod.mk.injEq]
          constructor <;> omega
        · simp only [h3, h4, if_false, Prod.mk.injEq]
          constructor <;> omega

theorem above_count_nonneg (last_average average : Int) (nums : List Int) :
    0 ≤ above_count last_average average nums := by
  unfold above_count
  apply List.sum_nonneg
  intro x hx
  obtain ⟨n, _, hn⟩ := List.mem_map.mp hx
  rw [← hn]
  split <;> decide

theorem unused_slots_nonneg (last_average average : Int) (nums : List Int) :
    0 ≤ unused_slots last_average average nums := by
  unfold unused_slots
  apply List.sum_nonneg
  intro x hx
  obtain ⟨n, _, hn⟩ := List.mem_map.mp hx
  rw [← hn]
  split <;> omega

theorem capped_sum_step (last_average average q : Int) (hle : last_average ≤ average)
    (nums : List Int) :
    capped_sum average (average + q) nums =
      capped_sum last_average average nums - unused_slots last_average average nums +
        above_count last_average average nums * q := by
  induction nums with
  | nil => simp [capped_sum, unused_slots, above_count]
  | cons num rest ih =>
    simp only [capped_sum, unused_slots, above_count, List.map_cons, List.sum_cons] at ih ⊢
    rw [ih]
    by_cases h1 : num ≤ last_average
    · have h2 : num ≤ average := by omega
      have h3 : ¬ last_average < num := by omega
      simp only [h1, h2, h3, if_true, false_and, if_false]
      ring
    · have h3 : last_average < num := by omega
      by_cases h4 : num ≤ average
      · have h5 : ¬ average < num := by omega
        by_cases h6 : num < average
        · simp only [h1, h3, h4, h5, h6, if_true, if_false, true_and]
          ring
        · have h7 : num = average := by omega
          simp only [h1, h3, h4, h5, h6, if_true, if_false, true_and]
          rw [h7]
          ring
      · have h5 : average < num := by omega
        have h6 : ¬ num < average := by omega
        simp only [h1, h3, h4, h5, h6, if_true, if_false, true_and]
        ring

theorem capped_sum_zero (average : Int) (h0 : 0 ≤ average) (nums : List Int)
    (hnums : ∀ n ∈ nums, 0 ≤ n) :
    capped_sum 0 average nums ≤ (nums.length : Int) * average := by
  induction nums with
  | nil => simp [capped_sum]
  | cons num rest ih =>
    have ih1 := ih (fun n hn => hnums n (List.mem_cons_of_mem _ hn))
    have hn := hnums num (List.mem_cons_self _ _)
    simp only [capped_sum, List.map_cons, List.sum_cons, List.length_cons, Nat.cast_add,
      Nat.cast_one] at ih1 ⊢
    have e : ((rest.length : Int) + 1) * average = (rest.length : Int) * average + average := by
      ring
    rw [e]
    split <;> omega

theorem excess_capped (last_average average : Int) (hle : last_average ≤ average)
    (nums : List Int) :
    nums.sum ≤ capped_sum last_average average nums + excess average nums := by
  induction nums with
  | nil => simp [capped_sum, excess]
  | cons num rest ih =>
    simp only [capped_sum, excess, List.map_cons, List.sum_cons] at ih ⊢
    split <;> split <;> omega

/-- The four iterations keep within the limit: with every transfer cut down to the
average, and `extra` more connections, no more than `limit` connections are left. -/
theorem average_iterations_spec (nums : List Int) (limit : Int) (iters : Nat) :
    ∀ last_average average extra : Int, 0 ≤ last_average → last_average ≤ average →
      0 ≤ extra → capped_sum last_average average nums + extra ≤ limit →
      ∃ r, average_iterations nums iters last_average average extra = some r ∧
        0 ≤ r.1 ∧ 0 ≤ r.2 ∧ nums.sum ≤ limit - r.2 + excess r.1 nums := by
  induction iters with
  | zero =>
    intro last_average average extra h0 hle he hcap
    refine ⟨(average, extra), rfl, by simp only; omega, he, ?_⟩
    have := excess_capped last_average average hle nums
    simp only
    omega
  | succ iters ih =>
    intro last_average average extra h0 hle he hcap
    have hc := above_count_nonneg last_average average nums
    have hu := unused_slots_nonneg last_average average nums
    rw [average_iterations]
    simp only [above_average_spec, Int.zero_add]
    by_cases hz : above_count last_average average nums = 0
    · simp only [hz, if_true, int_div, int_mod, one_ne_zero, if_false, Int.tdiv_one,
        Int.tmod_one]
      have hstep := capped_sum_step last_average average
        (extra + unused_slots last_average average nums) hle nums
      rw [hz, Int.zero_mul, Int.add_zero] at hstep
      by_cases hx : extra + unused_slots last_average average nums = 0
      · rw [if_pos hx]
        refine ⟨_, rfl, by simp only; omega, by simp only; omega, ?_⟩
        have := excess_capped average (average + (extra + unused_slots last_average average nums))
          (by omega) nums
        simp only
        omega
      · rw [if_neg hx]
        exact ih average (average + (extra + unused_slots last_average average nums)) 0
          (by omega) (by omega) (le_refl 0) (by omega)
    · have hpos : 0 < above_count last_average average nums := by omega
      simp only [hz, if_false, int_div, int_mod]
      have hq : (extra + unused_slots last_average average nums).tdiv
          (above_count last_average average nums) =
          (extra + unused_slots last_average average nums) /
            above_count last_average average nums :=
        Int.tdiv_eq_ediv (by omega) (by omega)
      have hr : (extra + unused_slots last_average average nums).tmod
          (above_count last_average average nums) =
          (extra + unused_slots last_average average nums) %
            above_count last_average average nums :=
        Int.tmod_eq_emod (by omega) (by omega)
      rw [hq, hr]
      have hq0 : 0 ≤ (extra + unused_slots last_average average nums) /
          above_count last_average average nums := Int.ediv_nonneg (by omega) (by omega)
      have hr0 : 0 ≤ (extra + unused_slots last_average average nums) %
          above_count last_average average nums := Int.emod_nonneg _ hz
      have hdm := Int.ediv_add_emod (extra + unused_slots last_average average nums)
        (above_count last_average average nums)
      have hstep := capped_sum_step last_average average
        ((extra + unused_slots last_average average nums) /
          above_count last_average average nums) hle nums
      by_cases hx : extra + unused_slots last_average average nums = 0
      · rw [if_pos hx]
        refine ⟨_, rfl, by simp only; omega, by simp only; omega, ?_⟩
        have := excess_capped average (average + (extra + unused_slots last_average average nums) /
          above_count last_average average nums) (by omega) nums
        rw [hx] at hdm hstep this
        simp only [Int.zero_ediv, Int.zero_emod, Int.mul_zero, Int.add_zero] at hdm hstep this
        simp only [hx, Int.zero_ediv, Int.add_zero]
        omega
      · rw [if_neg hx]
        exact ih average _ _ (by omega) (by omega) hr0 (by rw [hstep]; linarith)

theorem disconnect_counts_zero (average : Int) (nums : List Int) :
    ∀ extra : Int, (passed_counts (disconnect_counts average nums 0 extra)).sum = 0 := by
  induction nums with
  | nil =>
    intro extra
    simp [disconnect_counts, passed_counts]
  | cons num rest ih =>
    intro extra
    rw [disconnect_counts]
    by_cases h1 : num ≤ average
    · rw [if_pos h1]
      simpa [passed_counts] using ih extra
    · rw [if_neg h1]
      have hmin : min 0 (num - if extra > 0 then average + 1 else average) = 0 := by
        split <;> omega
      simp only [passed_counts, List.filterMap_cons, id, List.sum_cons, hmin, Int.sub_zero,
        Int.zero_add]
      exact ih _

theorem disconnect_counts_sum (average : Int) (nums : List Int) :
    ∀ to_disconnect extra : Int, 0 ≤ to_disconnect → 0 ≤ extra →
      to_disconnect + extra ≤ excess average nums →
      (passed_counts (disconnect_counts average nums to_disconnect extra)).sum =
        to_disconnect := by
  induction nums with
  | nil =>
    intro td extra h1 h2 h3
    simp only [excess, List.map_nil, List.sum_nil] at h3
    simp only [disconnect_counts, passed_counts, List.filterMap_nil, List.sum_nil]
    omega
  | cons num rest ih =>
    intro td extra h1 h2 h3
    simp only [excess, List.map_cons, List.sum_cons] at h3 ih
    rw [disconnect_counts]
    by_cases hn : num ≤ average
    · rw [if_pos hn]
      rw [if_pos hn] at h3
      simpa [passed_counts] using ih td extra h1 h2 (by omega)
    · rw [if_neg hn]
      rw [if_neg hn] at h3
      simp only [passed_counts, List.filterMap_cons, id, List.sum_cons]
      by_cases hlt : td ≤ num - (if extra > 0 then average + 1 else average)
      · rw [min_eq_left hlt, Int.sub_self]
        have := disconnect_counts_zero average rest (if extra > 0 then extra - 1 else extra)
        simp only [passed_counts] at this
        rw [this]
        omega
      · have hmin : min td (num - if extra > 0 then average + 1 else average) =
            num - if extra > 0 then average + 1 else average := min_eq_right (by omega)
        rw [hmin]
        have := ih (td - (num - if extra > 0 then average + 1 else average))
          (if extra > 0 then extra - 1 else extra) (by omega) (by split <;> omega)
          (by split <;> omega)
        simp only [passed_counts] at this
        rw [this]
        omega

theorem disconnect_counts_bounds (average : Int) (h0 : 0 ≤ average) (nums : List Int) :
    ∀ to_disconnect extra : Int, 0 ≤ to_disconnect →
      List.Forall₂ (fun num count => ∀ d, count = some d → 0 ≤ d ∧ d ≤ num) nums
        (disconnect_counts average nums to_disconnect extra) := by
  induction nums with
  | nil =>
    intro td extra _
    rw [disconnect_counts]
    exact List.Forall₂.nil
  | cons num rest ih =>
    intro td extra h1
    rw [disconnect_counts]
    by_cases hn : num ≤ average
    · rw [if_pos hn]
      refine List.Forall₂.cons ?_ (ih td extra h1)
      intro d hd
      cases hd
    · rw [if_neg hn]
      refine List.Forall₂.cons ?_ (ih _ _ ?_)
      · intro d hd
        simp only [Option.some.injEq] at hd
        rw [← hd]
        split <;> omega
      · split <;> omega

/-- Claim C30. In `update_connections_limit`, when the connection count `c` exceeds
the positive limit `L`, there is at least one transfer, the peer counts are not
negative and `c` is their sum: no division by zero occurs, the limit is unchanged,
every count passed to `disconnect_peers` is non-negative and at most the peer count
of that transfer, and the counts sum to exactly `c - L`. -/
theorem update_connections_limit_counts (rlimit : Option Int) (L c : Int)
    (num_peers : List Int) (hL : 0 < L) (hc : L < c) (hne : num_peers ≠ [])
    (hnums : ∀ n ∈ num_peers, 0 ≤ n) (hsum : c = num_peers.sum) :
    ∃ counts, update_connections_limit rlimit L c num_peers = some (L, counts) ∧
      List.Forall₂ (fun num count => ∀ d, count = some d → 0 ≤ d ∧ d ≤ num) num_peers counts ∧
      (passed_counts counts).sum = c - L := by
  have hlen : (num_peers.length : Int) ≠ 0 := by
    intro h
    apply hne
    exact List.length_eq_zero.mp (by exact_mod_cast h)
  have hlen0 : (0 : Int) ≤ (num_peers.length : Int) := Int.natCast_nonneg _
  have hq : L.tdiv (num_peers.length : Int) = L / (num_peers.length : Int) :=
    Int.tdiv_eq_ediv (by omega) hlen0
  have hr : L.tmod (num_peers.length : Int) = L % (num_peers.length : Int) :=
    Int.tmod_eq_emod (by omega) hlen0
  have hq0 : 0 ≤ L / (num_peers.length : Int) := Int.ediv_nonneg (by omega) hlen0
  have hr0 : 0 ≤ L % (num_peers.length : Int) := Int.emod_nonneg _ hlen
  have hdm := Int.ediv_add_emod L (num_peers.length : Int)
  have hcap := capped_sum_zero (L / (num_peers.length : Int)) hq0 num_peers hnums
  obtain ⟨r, hr1, hr2, hr3, hr4⟩ := average_iterations_spec num_peers L 4 0
    (L / (num_peers.length : Int)) (L % (num_peers.length : Int)) (le_refl 0) hq0 hr0
    (by linarith)
  unfold update_connections_limit
  simp only [if_neg (show ¬ L ≤ 0 by omega), gt_iff_lt, hc, ne_eq, hne, not_false_eq_true,
    and_self, if_true, int_div, int_mod, hlen, if_false, hq, hr, hr1]
  refine ⟨_, rfl, disconnect_counts_bounds r.1 hr2 num_peers _ _ (by omega),
    disconnect_counts_sum r.1 num_peers _ _ (by omega) hr3 (by omega)⟩

/-- Witness of `update_connections_limit_counts`: three transfers with 10, 1 and 4
peers and a limit of 8. -/
theorem update_connections_limit_counts_witness :
    ∃ counts, update_connections_limit none 8 15 [10, 1, 4] = some (8, counts) ∧
      List.Forall₂ (fun num count => ∀ d, count = some d → 0 ≤ d ∧ d ≤ num) [10, 1, 4] counts ∧
      (passed_counts counts).sum = 15 - 8 :=
  update_connections_limit_counts none 8 15 [10, 1, 4] (by decide) (by decide) (by decide)
    (by decide) (by decide)

end libed2k
